import Mathlib

/-!
# The tokenizer of `fermat-tech/parser`

A shallow embedding of `token/token.go` (the character stream with its
lookahead buffer and `TokenStream.Get`) and of the driver loop `parse` of
`cmd/parser/app/main.go`, followed by theorems about what the tokenizer
returns on each class of input.

Conventions of the embedding.

* A Go `rune` delivered by `bufio.Reader.ReadRune` is a Unicode scalar value,
  so it is a `Char`; `rune(0)` is `NUL`.
* A Go `string` or `strings.Builder` is the list of the runes written to it.
* A Go `error` is an `Option GoError`, `none` being `nil`.
* The `bufio.Reader` is the list of the results its successive `ReadRune`
  calls will give; once the list is used up every read reports `io.EOF`.
* A pointer receiver that is mutated is passed in and returned.
* A `for` loop is a recursive function with a fuel argument; `Get` supplies
  one more than the number of characters still pending, which is always
  enough (`TokenStream.Get_total`). Running out of fuel is `none`.
-/

namespace token

/-- Go `type Type int` and its `iota` constants. -/
inductive TokenType
  | INVALID
  | IDENTIFIER
  | NUMBER
  | DQSTRING
  | SQSTRING
  | PUNCT
  | COMMAND
  | DOT
  | OPAREN
  | CPAREN
  | OBRACKET
  | CBRACKET
  | OBRACE
  | CBRACE
  | COMMA
  | SEMI
  | COLON
  | CARET
  | PLUS
  | MINUS
  | MULT
  | DIV
  deriving DecidableEq, Repr

/-- Go `error` values the tokenizer can see: `io.EOF`, any other error of the
underlying reader, and `errors.New msg`. -/
inductive GoError
  | EOF
  | readFailure (msg : String)
  | errorsNew (msg : String)
  deriving DecidableEq, Repr

/-- The character `rune(0)`. -/
def NUL : Char := Char.ofNat 0

/-- One result of `bufio.Reader.ReadRune`: a rune, or an error other than
`io.EOF`. -/
inductive ReadResult
  | rune (c : Char)
  | fail (msg : String)
  deriving DecidableEq, Repr

/-- `bufio.Reader.ReadRune`: the next result of the reader, `io.EOF` once it
is used up; on an error the rune returned is `0`. -/
def ReadRune : List ReadResult → (Char × Option GoError) × List ReadResult
  | [] => ((NUL, some GoError.EOF), [])
  | ReadResult.rune c :: rs => ((c, none), rs)
  | ReadResult.fail m :: rs => ((NUL, some (GoError.readFailure m)), rs)

/-- Go `charStream`. -/
structure charStream where
  reader : List ReadResult
  lookaheadBuf : List Char
  deriving DecidableEq, Repr

/-- Go `newCharStream`. -/
def newCharStream (r : List ReadResult) : charStream :=
  { reader := r, lookaheadBuf := [] }

/-- Go `charStream.peek`. -/
def charStream.peek (c : charStream) : (Char × Option GoError) × charStream :=
  match c.lookaheadBuf with
  | chr :: _ => ((chr, none), c)
  | [] =>
    match ReadRune c.reader with
    | ((_, some err), rd) => ((NUL, some err), { c with reader := rd })
    | ((chr, none), rd) => ((chr, none), { reader := rd, lookaheadBuf := [chr] ++ c.lookaheadBuf })

/-- Go `charStream.get`. -/
def charStream.get (c : charStream) : (Char × Option GoError) × charStream :=
  match c.lookaheadBuf with
  | chr :: tl => ((chr, none), { c with lookaheadBuf := tl })
  | [] =>
    match ReadRune c.reader with
    | ((chr, err), rd) =>
      if err ≠ none ∧ err ≠ some GoError.EOF then ((NUL, err), { c with reader := rd })
      else ((chr, none), { c with reader := rd })

/-- Go `Token`; its field `Type` is `Kind` here, `Type` being reserved. -/
structure Token where
  Value : List Char
  Kind : TokenType
  deriving DecidableEq, Repr

/-- Go `TokenStream`. -/
structure TokenStream where
  fileName : String
  chrStream : charStream
  lookaheadBuf : List String
  deriving DecidableEq, Repr

/-- Go `NewFileTokenStream` once the file is open: `content` is what the
reader will deliver. -/
def NewFileTokenStream (file : String) (content : List ReadResult) : TokenStream :=
  { fileName := file, chrStream := newCharStream content, lookaheadBuf := [] }

/-- Go `isSpace`. -/
def isSpace (r : Char) : Bool :=
  r = ' ' || r = '\t' || r = Char.ofNat 11 || r = Char.ofNat 12 || r = '\r' || r = '\n'

end token

namespace unicode

/-- Go standard library `unicode.IsSpace`: in Latin-1 the characters tab,
newline, vertical tab, form feed, carriage return, space, U+0085 and U+00A0;
beyond Latin-1 the `White_Space` range table. -/
def IsSpace (r : Char) : Bool :=
  if r.toNat ≤ 0xFF then
    r.toNat = 0x09 || r.toNat = 0x0A || r.toNat = 0x0B || r.toNat = 0x0C || r.toNat = 0x0D
      || r.toNat = 0x20 || r.toNat = 0x85 || r.toNat = 0xA0
  else
    r.toNat = 0x1680 || (0x2000 ≤ r.toNat && r.toNat ≤ 0x200A) || r.toNat = 0x2028
      || r.toNat = 0x2029 || r.toNat = 0x202F || r.toNat = 0x205F || r.toNat = 0x3000

/-- Go standard library `unicode.IsLetter` and `unicode.IsDigit`, whose range
tables (categories L and Nd) are not part of the repository: the two
predicates are parameters, with the facts about them that the tokenizer
relies on. In ASCII the letters are `A`-`Z` and `a`-`z`; in Latin-1 the digits
are `0`-`9`; and a character is at most one of letter, decimal digit, white
space, because general categories are disjoint. -/
structure Tables where
  IsLetter : Char → Bool
  IsDigit : Char → Bool
  letter_ascii : ∀ c : Char, c.toNat < 128 →
    IsLetter c = ((65 ≤ c.toNat && c.toNat ≤ 90) || (97 ≤ c.toNat && c.toNat ≤ 122))
  digit_latin1 : ∀ c : Char, c.toNat ≤ 0xFF →
    IsDigit c = (48 ≤ c.toNat && c.toNat ≤ 57)
  letter_not_space : ∀ c : Char, IsLetter c = true → IsSpace c = false
  digit_not_space : ∀ c : Char, IsDigit c = true → IsSpace c = false
  digit_not_letter : ∀ c : Char, IsDigit c = true → IsLetter c = false

/-- The tables restricted to ASCII: no letter and no digit beyond it. -/
def asciiTables : Tables where
  IsLetter c := (65 ≤ c.toNat && c.toNat ≤ 90) || (97 ≤ c.toNat && c.toNat ≤ 122)
  IsDigit c := 48 ≤ c.toNat && c.toNat ≤ 57
  letter_ascii _ _ := rfl
  digit_latin1 _ _ := rfl
  letter_not_space c h := by
    simp only [Bool.or_eq_true, Bool.and_eq_true, decide_eq_true_eq] at h
    have h1 : c.toNat ≤ 0xFF := by omega
    simp only [IsSpace, h1, if_true, Bool.or_eq_false_iff, decide_eq_false_iff_not]
    omega
  digit_not_space c h := by
    simp only [Bool.and_eq_true, decide_eq_true_eq] at h
    have h1 : c.toNat ≤ 0xFF := by omega
    simp only [IsSpace, h1, if_true, Bool.or_eq_false_iff, decide_eq_false_iff_not]
    omega
  digit_not_letter c h := by
    simp only [Bool.and_eq_true, decide_eq_true_eq] at h
    simp only [Bool.or_eq_false_iff, Bool.and_eq_false_iff, decide_eq_false_iff_not]
    omega

end unicode

namespace token

open unicode (Tables)

/-- The result of `Get`: the token, the error, and the stream afterwards. -/
abbrev GetResult := (Token × Option GoError) × charStream

/-- The "Skip whitespace" loop of `Get`. It ends by the `return` on an error
of `peek`, or by `break` on a character that is not white space; either way
the last `chr, err` and the stream are handed back. -/
def skipWhitespace : Nat → charStream → Option ((Char × Option GoError) × charStream)
  | 0, _ => none
  | fuel + 1, s =>
    match s.peek with
    | ((chr, some err), s1) => some ((chr, some err), s1)
    | ((chr, none), s1) =>
      if unicode.IsSpace chr then skipWhitespace fuel s1.get.2
      else some ((chr, none), s1)

/-- The loop of the IDENTIFIER branch of `Get`, with the `return` that
follows it. -/
def identLoop (U : Tables) : Nat → charStream → List Char → Option GetResult
  | 0, _, _ => none
  | fuel + 1, s, token =>
    match s.peek with
    | ((_, some err), s1) =>
      if err ≠ GoError.EOF then some ((⟨[], TokenType.INVALID⟩, some err), s1)
      else some ((⟨token, TokenType.IDENTIFIER⟩, none), s1)
    | ((chr, none), s1) =>
      if chr = NUL then some ((⟨token, TokenType.IDENTIFIER⟩, none), s1)
      else if U.IsLetter chr || U.IsDigit chr || chr = '_' then
        identLoop U fuel s1.get.2 (token ++ [chr])
      else some ((⟨token, TokenType.IDENTIFIER⟩, none), s1)

/-- The loop of the DQSTRING branch of `Get`, with the `if inString` and the
`return` that follow it. `inString` is still `true` at every `break` but the
one on the closing quote. -/
def dqLoop : Nat → charStream → List Char → Bool → Option GetResult
  | 0, _, _, _ => none
  | fuel + 1, s, token, inEscape =>
    match s.peek with
    | ((_, some err), s1) =>
      if err ≠ GoError.EOF then some ((⟨[], TokenType.INVALID⟩, some err), s1)
      else some ((⟨token, TokenType.INVALID⟩,
        some (GoError.errorsNew "missing closing double quote")), s1)
    | ((chr, none), s1) =>
      if chr = NUL then
        some ((⟨token, TokenType.INVALID⟩,
          some (GoError.errorsNew "missing closing double quote")), s1)
      else if !inEscape && chr = '\\' then dqLoop fuel s1.get.2 token true
      else if inEscape then
        if chr = 'n' then dqLoop fuel s1.get.2 (token ++ ['\n']) false
        else if chr = 't' then dqLoop fuel s1.get.2 (token ++ ['\t']) false
        else dqLoop fuel s1.get.2 (token ++ [chr]) false
      else if chr = '"' then
        some ((⟨token ++ [chr], TokenType.DQSTRING⟩, none), s1.get.2)
      else dqLoop fuel s1.get.2 (token ++ [chr]) inEscape

/-- The loop of the SQSTRING branch of `Get`, with the `if inString` and the
`return` that follow it. -/
def sqLoop : Nat → charStream → List Char → Bool → Option GetResult
  | 0, _, _, _ => none
  | fuel + 1, s, token, inEscape =>
    match s.peek with
    | ((_, some err), s1) =>
      if err ≠ GoError.EOF then some ((⟨[], TokenType.INVALID⟩, some err), s1)
      else some ((⟨token, TokenType.INVALID⟩,
        some (GoError.errorsNew "missing closing single quote")), s1)
    | ((chr, none), s1) =>
      if chr = NUL then
        some ((⟨token, TokenType.INVALID⟩,
          some (GoError.errorsNew "missing closing single quote")), s1)
      else if !inEscape && chr = '\\' then sqLoop fuel s1.get.2 token true
      else if inEscape then
        if !(chr = '\'' || chr = '\\') then sqLoop fuel s1.get.2 (token ++ ['\\'] ++ [chr]) false
        else sqLoop fuel s1.get.2 (token ++ [chr]) false
      else if chr = '\'' then
        some ((⟨token ++ [chr], TokenType.SQSTRING⟩, none), s1.get.2)
      else sqLoop fuel s1.get.2 (token ++ [chr]) inEscape

/-- The loop of the NUMBER branch of `Get`, with the `return` that follows
it. -/
def numberLoop (U : Tables) : Nat → charStream → List Char → Option GetResult
  | 0, _, _ => none
  | fuel + 1, s, token =>
    match s.peek with
    | ((_, some err), s1) =>
      if err ≠ GoError.EOF then some ((⟨[], TokenType.INVALID⟩, some err), s1)
      else some ((⟨token, TokenType.NUMBER⟩, none), s1)
    | ((chr, none), s1) =>
      if chr = NUL then some ((⟨token, TokenType.NUMBER⟩, none), s1)
      else if !U.IsDigit chr then some ((⟨token, TokenType.NUMBER⟩, none), s1)
      else numberLoop U fuel s1.get.2 (token ++ [chr])

/-- The `switch chr` that ends `Get`, with its default `PUNCT`. -/
def singleCharType (chr : Char) : TokenType :=
  if chr = '(' then TokenType.OPAREN
  else if chr = ')' then TokenType.CPAREN
  else if chr = '[' then TokenType.OBRACKET
  else if chr = ']' then TokenType.CBRACKET
  else if chr = '{' then TokenType.OBRACE
  else if chr = '}' then TokenType.CBRACE
  else if chr = ',' then TokenType.COMMA
  else if chr = ';' then TokenType.SEMI
  else if chr = ':' then TokenType.COLON
  else if chr = '^' then TokenType.CARET
  else if chr = '+' then TokenType.PLUS
  else if chr = '-' then TokenType.MINUS
  else if chr = '*' then TokenType.MULT
  else if chr = '/' then TokenType.DIV
  else TokenType.PUNCT

/-- The characters a stream still has to deliver: the lookahead buffer, then
the reader. -/
def charStream.remaining (c : charStream) : List ReadResult :=
  c.lookaheadBuf.map ReadResult.rune ++ c.reader

/-- The body of `Get` on the character stream, the loops running on `fuel`.
After the whitespace loop `err` is nil, so the `if err != nil` that follows the
NUMBER branch never fires and has no counterpart here. -/
def getFrom (U : Tables) (fuel : Nat) (s : charStream) : Option GetResult :=
  match skipWhitespace fuel s with
  | none => none
  | some ((_, some err), s1) => some ((⟨[], TokenType.INVALID⟩, some err), s1)
  | some ((chr, none), s1) =>
    if U.IsLetter chr || chr = '_' then
      identLoop U fuel s1.get.2 ([] ++ [chr])
    else if chr = '.' then
      some ((⟨[] ++ [chr], TokenType.DOT⟩, none), s1.get.2)
    else if chr = '"' then
      dqLoop fuel s1.get.2 ([] ++ [chr]) false
    else if chr = '\'' then
      sqLoop fuel s1.get.2 ([] ++ [chr]) false
    else if U.IsDigit chr then
      numberLoop U fuel s1.get.2 ([] ++ [chr])
    else if chr = NUL then
      some ((⟨[], TokenType.INVALID⟩, none), s1)
    else
      some ((⟨[chr], singleCharType chr⟩, none), s1.get.2)

/-- Go `TokenStream.Get`. -/
def TokenStream.Get (U : Tables) (t : TokenStream) :
    Option ((Token × Option GoError) × TokenStream) :=
  match getFrom U (t.chrStream.remaining.length + 1) t.chrStream with
  | none => none
  | some (r, s) => some (r, { t with chrStream := s })

/-- The stream over a file whose content is the characters `cs`, read without
failure. -/
def ofChars (cs : List Char) : List ReadResult := cs.map ReadResult.rune

end token

/-! ## Vocabulary of the statements -/

namespace token

open unicode (Tables)

/-- A character that can continue an identifier: the test of the IDENTIFIER
loop. -/
def isIdentChar (U : Tables) (c : Char) : Bool :=
  U.IsLetter c || U.IsDigit c || c = '_'

/-- The list `rest` is empty or starts with a character that fails `p`. -/
def stopsAt (p : Char → Bool) (rest : List Char) : Prop :=
  ∀ c ∈ rest.head?, p c = false

instance (p : Char → Bool) (rest : List Char) : Decidable (stopsAt p rest) := by
  unfold stopsAt
  cases rest with
  | nil => exact isTrue (by simp)
  | cons a tl =>
    exact decidable_of_iff (p a = false) (by simp)

/-- What `peek` delivers on a stream that has exactly the characters `rest`
left: the first of them, or `io.EOF`. -/
def nextOf (rest : List Char) : Char × Option GoError :=
  match rest with
  | [] => (NUL, some GoError.EOF)
  | c :: _ => (c, none)

end token

/-! ## Quoted strings, the dispatch table and the driver -/

namespace token

open unicode (Tables)

/-- What a double-quoted string emits for an escaped character: a newline for
`n`, a tab for `t`, and the character itself otherwise. -/
def dqEscape (c : Char) : List Char :=
  if c = 'n' then ['\n'] else if c = 't' then ['\t'] else [c]

/-- What a single-quoted string emits for an escaped character: the bare
character for a single quote or a backslash, and the backslash followed by the
character otherwise. -/
def sqEscape (c : Char) : List Char :=
  if c = '\'' ∨ c = '\\' then [c] else ['\\', c]

/-- The body of a string quoted by `q` is well escaped: it has no `NUL`, and
every `q` and every backslash in it belongs to a two-character escape, a
backslash followed by one character. -/
def wellEscaped (q : Char) : List Char → Bool
  | [] => true
  | c :: rest =>
    if c = '\\' then
      match rest with
      | [] => false
      | d :: tl => d ≠ NUL && wellEscaped q tl
    else c ≠ q && c ≠ NUL && wellEscaped q rest

/-- Escape resolution, left to right: a backslash and the character after it
give `esc` of that character, any other character gives itself, and a
backslash that ends the text gives nothing. -/
def resolve (esc : Char → List Char) : List Char → List Char
  | [] => []
  | c :: rest =>
    if c = '\\' then
      match rest with
      | [] => []
      | d :: tl => esc d ++ resolve esc tl
    else c :: resolve esc rest

/-- No escape of the text targets a single quote or a backslash. -/
def noQuoteEscape : List Char → Bool
  | [] => true
  | c :: rest =>
    if c = '\\' then
      match rest with
      | [] => true
      | d :: tl => d ≠ '\'' && d ≠ '\\' && noQuoteEscape tl
    else noQuoteEscape rest

/-- The text has no unescaped `q`: every `q` in it directly follows a backslash
that starts an escape. -/
def noClosingQuote (q : Char) : List Char → Bool
  | [] => true
  | c :: rest =>
    if c = '\\' then
      match rest with
      | [] => true
      | _ :: tl => noClosingQuote q tl
    else c ≠ q && noClosingQuote q rest

/-- The part of a text that comes before its first `NUL`. -/
def beforeNUL (body : List Char) : List Char :=
  body.takeWhile (fun c => c != NUL)

/-- The escape outputs of the string opened by the quote `q`. -/
def quoteEscape (q : Char) : Char → List Char :=
  if q = '"' then dqEscape else sqEscape

/-- The message of the error for a string opened by `q` and never closed. -/
def missingQuote (q : Char) : String :=
  if q = '"' then "missing closing double quote" else "missing closing single quote"

/-- The one-character dispatch table of the specification: the fourteen
characters with a kind of their own. -/
def dispatchTable : List (Char × TokenType) :=
  [('(', TokenType.OPAREN), (')', TokenType.CPAREN), ('[', TokenType.OBRACKET),
   (']', TokenType.CBRACKET), ('{', TokenType.OBRACE), ('}', TokenType.CBRACE),
   (',', TokenType.COMMA), (';', TokenType.SEMI), (':', TokenType.COLON),
   ('^', TokenType.CARET), ('+', TokenType.PLUS), ('-', TokenType.MINUS),
   ('*', TokenType.MULT), ('/', TokenType.DIV)]

/-- A character that no rule of `Get` before the final `switch` handles: not
white space, not a letter or underscore, not a dot, not a quote, not a digit
and not `NUL`. -/
def reachesSwitch (U : Tables) (c : Char) : Bool :=
  !unicode.IsSpace c && !U.IsLetter c && c ≠ '_' && c ≠ '.' && c ≠ '"' && c ≠ '\''
    && !U.IsDigit c && c ≠ NUL

/-- Go `parse` of the driver, as far as the tokenizer is concerned: it calls
`Get` until an error comes back and returns that error, or returns `nil` on
the COMMAND token `.exit` or `.quit`. The list is that of the tokens handed to
its printing `switch`, in order. Each iteration takes one unit of fuel. -/
def parse (U : Tables) : Nat → TokenStream → Option (List Token × Option GoError)
  | 0, _ => none
  | fuel + 1, ts =>
    match ts.Get U with
    | none => none
    | some ((_, some err), _) => some ([], some err)
    | some ((tok, none), ts1) =>
      if tok.Kind = TokenType.COMMAND ∧
          (tok.Value = ".exit".toList ∨ tok.Value = ".quit".toList) then
        some ([tok], none)
      else (parse U fuel ts1).map (fun r => (tok :: r.1, r.2))

/-- What a call of `Get` on the pending input `input` can return: every case
of its dispatch, with what the case says about the token and the error. -/
inductive GetOutcome (U : Tables) (input : List ReadResult) : Token × Option GoError → Prop
  | eof (ws : List Char) (hws : ∀ x ∈ ws, unicode.IsSpace x = true)
      (hinput : input = ofChars ws) :
      GetOutcome U input (⟨[], TokenType.INVALID⟩, some GoError.EOF)
  | readFailure (m : String) (hm : ReadResult.fail m ∈ input) :
      GetOutcome U input (⟨[], TokenType.INVALID⟩, some (GoError.readFailure m))
  | identifier (c : Char) (run : List Char) (hc : U.IsLetter c = true ∨ c = '_')
      (hrun : ∀ x ∈ run, isIdentChar U x = true) :
      GetOutcome U input (⟨c :: run, TokenType.IDENTIFIER⟩, none)
  | dot : GetOutcome U input (⟨['.'], TokenType.DOT⟩, none)
  | dqstring (w : List Char) :
      GetOutcome U input (⟨'"' :: w ++ ['"'], TokenType.DQSTRING⟩, none)
  | dqMissing (w : List Char) :
      GetOutcome U input (⟨'"' :: w, TokenType.INVALID⟩,
        some (GoError.errorsNew "missing closing double quote"))
  | sqstring (w : List Char) :
      GetOutcome U input (⟨'\'' :: w ++ ['\''], TokenType.SQSTRING⟩, none)
  | sqMissing (w : List Char) :
      GetOutcome U input (⟨'\'' :: w, TokenType.INVALID⟩,
        some (GoError.errorsNew "missing closing single quote"))
  | number (d : Char) (run : List Char) (hd : U.IsDigit d = true)
      (hrun : ∀ x ∈ run, U.IsDigit x = true) :
      GetOutcome U input (⟨d :: run, TokenType.NUMBER⟩, none)
  | nul (ws : List Char) (r : List ReadResult) (hws : ∀ x ∈ ws, unicode.IsSpace x = true)
      (hinput : input = ofChars ws ++ ReadResult.rune NUL :: r) :
      GetOutcome U input (⟨[], TokenType.INVALID⟩, none)
  | single (c : Char) (hc : reachesSwitch U c = true) :
      GetOutcome U input (⟨[c], singleCharType c⟩, none)

/-- The first pending result after the white space that `Get` skips, if any. -/
def firstAfterSpace : List ReadResult → Option ReadResult
  | [] => none
  | ReadResult.rune c :: r =>
    if unicode.IsSpace c then firstAfterSpace r else some (ReadResult.rune c)
  | ReadResult.fail m :: _ => some (ReadResult.fail m)

/-- The code points of the white space of `unicode.IsSpace` that `isSpace`
leaves out: U+0085, U+00A0, U+1680, U+2000 to U+200A, U+2028, U+2029, U+202F,
U+205F and U+3000. -/
def extraWhiteSpace : List Nat :=
  [0x85, 0xA0, 0x1680, 0x2000, 0x2001, 0x2002, 0x2003, 0x2004, 0x2005, 0x2006, 0x2007, 0x2008,
   0x2009, 0x200A, 0x2028, 0x2029, 0x202F, 0x205F, 0x3000]

/-- The two string loops of `Get` in one: the quote `q`, the output `esc` of an
escaped character, the message `msg` of the error and the kind `kind` of the
token are what tells the DQSTRING loop from the SQSTRING loop
(`dqLoop_eq_quotedLoop`, `sqLoop_eq_quotedLoop`). -/
def quotedLoop (q : Char) (esc : Char → List Char) (msg : String) (kind : TokenType) :
    Nat → charStream → List Char → Bool → Option GetResult
  | 0, _, _, _ => none
  | fuel + 1, s, token, inEscape =>
    match s.peek with
    | ((_, some err), s1) =>
      if err ≠ GoError.EOF then some ((⟨[], TokenType.INVALID⟩, some err), s1)
      else some ((⟨token, TokenType.INVALID⟩, some (GoError.errorsNew msg)), s1)
    | ((chr, none), s1) =>
      if chr = NUL then
        some ((⟨token, TokenType.INVALID⟩, some (GoError.errorsNew msg)), s1)
      else if !inEscape && chr = '\\' then quotedLoop q esc msg kind fuel s1.get.2 token true
      else if inEscape then quotedLoop q esc msg kind fuel s1.get.2 (token ++ esc chr) false
      else if chr = q then some ((⟨token ++ [chr], kind⟩, none), s1.get.2)
      else quotedLoop q esc msg kind fuel s1.get.2 (token ++ [chr]) inEscape

end token

/-! ## Sequences of calls -/

namespace token

open unicode (Tables)

/-- A call on a character stream: `peek` or `get`. -/
inductive StreamOp
  | peek
  | get
  deriving DecidableEq, Repr

/-- The calls `ops` made in order on the stream `s`: what the `get` calls
returned, in order, and the stream afterwards. -/
def runOps : List StreamOp → charStream → List (Char × Option GoError) × charStream
  | [], s => ([], s)
  | StreamOp.peek :: ops, s => runOps ops s.peek.2
  | StreamOp.get :: ops, s => (s.get.1 :: (runOps ops s.get.2).1, (runOps ops s.get.2).2)

/-- The number of `get` calls among `ops`. -/
def countGets (ops : List StreamOp) : Nat :=
  ops.count StreamOp.get

/-- The stream after `n` consecutive calls of `peek`. -/
def peekN : Nat → charStream → charStream
  | 0, s => s
  | n + 1, s => peekN n s.peek.2

/-- The token stream after `n` consecutive calls of `Get`, whatever they
returned. -/
def GetN (U : Tables) : Nat → TokenStream → Option TokenStream
  | 0, t => some t
  | n + 1, t =>
    match t.Get U with
    | none => none
    | some (_, t1) => GetN U n t1

end token

/-! ## Lexemes in progress -/

namespace token

open unicode (Tables)

/-- The characters `pre` read so far leave `Get` in the middle of a lexeme,
about to read the source again: in the whitespace skip, in a number, or in a
double-quoted or single-quoted string that has met neither its closing quote
nor a `NUL`. -/
inductive InProgress (U : Tables) : List Char → Prop
  | whitespace (ws : List Char) (hws : ∀ x ∈ ws, unicode.IsSpace x = true) :
      InProgress U ws
  | number (ws : List Char) (d : Char) (tl : List Char)
      (hws : ∀ x ∈ ws, unicode.IsSpace x = true) (hd : U.IsDigit d = true)
      (htl : ∀ x ∈ tl, U.IsDigit x = true) : InProgress U (ws ++ d :: tl)
  | dqstring (ws body : List Char) (hws : ∀ x ∈ ws, unicode.IsSpace x = true)
      (hnul : NUL ∉ body) (hbody : noClosingQuote '"' body = true) :
      InProgress U (ws ++ '"' :: body)
  | sqstring (ws body : List Char) (hws : ∀ x ∈ ws, unicode.IsSpace x = true)
      (hnul : NUL ∉ body) (hbody : noClosingQuote '\'' body = true) :
      InProgress U (ws ++ '\'' :: body)

end token

/-! ## Bytes of a token -/

namespace token

/-- The bytes of a Go `string` that holds the runes `v`: their UTF-8
encodings, one after the other. -/
def goBytes (v : List Char) : List UInt8 :=
  v.flatMap String.utf8EncodeChar

/-- The Go slice expression `b[lo:hi]` on the bytes of a string: `none` is the
run-time panic for bounds out of range. -/
def sliceBytes (b : List UInt8) (lo hi : Int) : Option (List UInt8) :=
  if 0 ≤ lo ∧ lo ≤ hi ∧ hi ≤ (b.length : Int) then some ((b.take hi.toNat).drop lo.toNat)
  else none

/-- The expression `tok.Value[1:len(tok.Value)-1]` that `parse` prints for a
DQSTRING or SQSTRING token. -/
def stringContent (tok : Token) : Option (List UInt8) :=
  sliceBytes (goBytes tok.Value) 1 (((goBytes tok.Value).length : Int) - 1)

/-- The text a string loop has still to read, seen from inside an escape or
not: inside one, the backslash that started it comes first. -/
def pendingText (b : Bool) (body : List Char) : List Char :=
  if b then '\\' :: body else body

/-- The byte of the quote that delimits a string token of kind `k`. -/
def quoteByte (k : TokenType) : UInt8 :=
  if k = TokenType.DQSTRING then 34 else 39

/-- The quote that delimits a string token of kind `k`. -/
def quoteOf (k : TokenType) : Char :=
  if k = TokenType.DQSTRING then '"' else '\''

end token

/-! ## Lexemes joined by white space -/

namespace token

open unicode (Tables)

/-- An identifier lexeme: kind IDENTIFIER, a letter or underscore, then
letters, digits and underscores. -/
def isIdentifierLexeme (U : Tables) (tok : Token) : Bool :=
  decide (tok.Kind = TokenType.IDENTIFIER) &&
    match tok.Value with
    | [] => false
    | c :: tl => (U.IsLetter c || decide (c = '_')) && tl.all (isIdentChar U)

/-- A number lexeme: kind NUMBER and a non-empty run of decimal digits. -/
def isNumberLexeme (U : Tables) (tok : Token) : Bool :=
  decide (tok.Kind = TokenType.NUMBER) && !tok.Value.isEmpty && tok.Value.all U.IsDigit

/-- A lexeme of one character: the dot, or a character of the dispatch table
with its kind. -/
def isCharLexeme (tok : Token) : Bool :=
  decide (tok = ⟨['.'], TokenType.DOT⟩) ||
    dispatchTable.any (fun p => decide (tok = ⟨[p.1], p.2⟩))

/-- An identifier or a number. -/
def isWordLexeme (U : Tables) (tok : Token) : Bool :=
  isIdentifierLexeme U tok || isNumberLexeme U tok

/-- A lexeme with its kind: an identifier, a number, a dot, or a character of
the dispatch table. -/
def isLexeme (U : Tables) (tok : Token) : Bool :=
  isWordLexeme U tok || isCharLexeme tok

/-- The text of lexemes, each after its separator, followed by `trail`. -/
def joined : List (List Char × Token) → List Char → List Char
  | [], trail => trail
  | p :: rest, trail => p.1 ++ p.2.Value ++ joined rest trail

/-- A separator is present between any two adjacent lexemes that are both
identifiers or numbers. -/
def separated (U : Tables) : List (List Char × Token) → Bool
  | [] => true
  | p :: rest =>
    (match rest with
      | [] => true
      | p2 :: _ => !(isWordLexeme U p.2 && isWordLexeme U p2.2) || !p2.1.isEmpty) &&
    separated U rest

end token

/-! ## The character stream -/

namespace token

open unicode (Tables)

theorem ofChars_cons (c : Char) (cs : List Char) :
    ofChars (c :: cs) = ReadResult.rune c :: ofChars cs := rfl

theorem ofChars_append (a b : List Char) : ofChars (a ++ b) = ofChars a ++ ofChars b := by
  simp [ofChars]

theorem ofChars_length (a : List Char) : (ofChars a).length = a.length := by
  simp [ofChars]

/-- On a stream whose next pending result is the rune `c`, `peek` returns `c`
and leaves the pending results as they are. -/
theorem charStream.peek_rune {s : charStream} {c : Char} {r : List ReadResult}
    (h : s.remaining = ReadResult.rune c :: r) :
    ∃ s1, s.peek = ((c, none), s1) ∧ s1.remaining = ReadResult.rune c :: r := by
  obtain ⟨rd, la⟩ := s
  cases la with
  | cons a tl =>
    simp only [charStream.remaining, List.map_cons, List.cons_append, List.cons.injEq,
      ReadResult.rune.injEq] at h
    refine ⟨⟨rd, a :: tl⟩, ?_, ?_⟩
    · simp [charStream.peek, h.1]
    · simp [charStream.remaining, h.1, h.2]
  | nil =>
    simp only [charStream.remaining, List.map_nil, List.nil_append] at h
    subst h
    exact ⟨⟨r, [c]⟩, by simp [charStream.peek, ReadRune], by simp [charStream.remaining]⟩

/-- On a stream whose next pending result is the rune `c`, `get` returns `c`
and removes it from the pending results. -/
theorem charStream.get_rune {s : charStream} {c : Char} {r : List ReadResult}
    (h : s.remaining = ReadResult.rune c :: r) :
    ∃ s1, s.get = ((c, none), s1) ∧ s1.remaining = r := by
  obtain ⟨rd, la⟩ := s
  cases la with
  | cons a tl =>
    simp only [charStream.remaining, List.map_cons, List.cons_append, List.cons.injEq,
      ReadResult.rune.injEq] at h
    refine ⟨⟨rd, tl⟩, ?_, ?_⟩
    · simp [charStream.get, h.1]
    · simp [charStream.remaining, h.2]
  | nil =>
    simp only [charStream.remaining, List.map_nil, List.nil_append] at h
    subst h
    exact ⟨⟨r, []⟩, by simp [charStream.get, ReadRune], by simp [charStream.remaining]⟩

/-- On a stream with nothing pending, `peek` reports `io.EOF` and changes
nothing. -/
theorem charStream.peek_nil {s : charStream} (h : s.remaining = []) :
    s.peek = ((NUL, some GoError.EOF), s) := by
  obtain ⟨rd, la⟩ := s
  simp only [charStream.remaining, List.append_eq_nil, List.map_eq_nil_iff] at h
  obtain ⟨h1, h2⟩ := h
  subst h1 h2
  simp [charStream.peek, ReadRune]

/-- What `peek` followed by `get` does when the rune `c` is pending. -/
theorem charStream.peek_get_rune {s : charStream} {c : Char} {r : List ReadResult}
    (h : s.remaining = ReadResult.rune c :: r) :
    ∃ s1 s2, s.peek = ((c, none), s1) ∧ s1.remaining = ReadResult.rune c :: r ∧
      s1.get.2 = s2 ∧ s2.remaining = r := by
  obtain ⟨s1, h1, h2⟩ := charStream.peek_rune h
  obtain ⟨s2, h3, h4⟩ := charStream.get_rune h2
  exact ⟨s1, s2, h1, h2, by rw [h3], h4⟩

end token

/-! ## The loops of `Get` -/

namespace token

open unicode (Tables)

theorem peek_ofChars {s : charStream} {rest : List Char} (h : s.remaining = ofChars rest) :
    s.peek.1 = nextOf rest := by
  cases rest with
  | nil => rw [charStream.peek_nil h]; rfl
  | cons c tl =>
    obtain ⟨s1, h1, -⟩ := charStream.peek_rune (h.trans (ofChars_cons c tl))
    rw [h1]; rfl

/-- On a stream whose next pending result is a read failure, `peek` returns
that error and the failure is used up. -/
theorem charStream.peek_fail {s : charStream} {m : String} {r : List ReadResult}
    (h : s.remaining = ReadResult.fail m :: r) :
    ∃ s1, s.peek = ((NUL, some (GoError.readFailure m)), s1) ∧ s1.remaining = r := by
  obtain ⟨rd, la⟩ := s
  cases la with
  | cons a tl => simp [charStream.remaining] at h
  | nil =>
    simp only [charStream.remaining, List.map_nil, List.nil_append] at h
    subst h
    exact ⟨⟨r, []⟩, by simp [charStream.peek, ReadRune], by simp [charStream.remaining]⟩

/-- The whitespace loop consumes a run of white space, one character per
iteration. -/
theorem skipWhitespace_skip (ws : List Char) :
    ∀ (s : charStream) (fuel : Nat) (tail : List ReadResult),
      (∀ x ∈ ws, unicode.IsSpace x = true) → s.remaining = ofChars ws ++ tail →
      ∃ s2, s2.remaining = tail ∧
        skipWhitespace (ws.length + fuel) s = skipWhitespace fuel s2 := by
  induction ws with
  | nil =>
    intro s fuel tail _ h
    exact ⟨s, by simpa [ofChars] using h, by simp⟩
  | cons w ws ih =>
    intro s fuel tail hws h
    have h' : s.remaining = ReadResult.rune w :: (ofChars ws ++ tail) := h
    obtain ⟨s1, s2, h1, -, h3, h4⟩ := charStream.peek_get_rune h'
    have hw : unicode.IsSpace w = true := hws w (List.mem_cons_self _ _)
    obtain ⟨s3, h5, h6⟩ := ih s2 fuel tail (fun x hx => hws x (List.mem_cons_of_mem _ hx)) h4
    refine ⟨s3, h5, ?_⟩
    have e : (w :: ws).length + fuel = (ws.length + fuel) + 1 := by simp; omega
    rw [e, ← h6]
    simp [skipWhitespace, h1, hw, h3]

/-- The whitespace loop stops on a character that is not white space, which
stays pending. -/
theorem skipWhitespace_stop {s : charStream} {c : Char} {r : List ReadResult} (n : Nat)
    (hc : unicode.IsSpace c = false) (h : s.remaining = ReadResult.rune c :: r) :
    ∃ s1, skipWhitespace (n + 1) s = some ((c, none), s1) ∧
      s1.remaining = ReadResult.rune c :: r := by
  obtain ⟨s1, h1, h2⟩ := charStream.peek_rune h
  exact ⟨s1, by simp [skipWhitespace, h1, hc], h2⟩

/-- The whitespace loop ends with `io.EOF` at the end of input. -/
theorem skipWhitespace_nil {s : charStream} (n : Nat) (h : s.remaining = []) :
    skipWhitespace (n + 1) s = some ((NUL, some GoError.EOF), s) := by
  simp [skipWhitespace, charStream.peek_nil h]

/-- The whitespace loop ends with the error of a failed read. -/
theorem skipWhitespace_fail {s : charStream} {m : String} {r : List ReadResult} (n : Nat)
    (h : s.remaining = ReadResult.fail m :: r) :
    ∃ s1, skipWhitespace (n + 1) s = some ((NUL, some (GoError.readFailure m)), s1) ∧
      s1.remaining = r := by
  obtain ⟨s1, h1, h2⟩ := charStream.peek_fail h
  exact ⟨s1, by simp [skipWhitespace, h1], h2⟩

/-- The whitespace loop skips a run of white space and stops on the first
character that is not white space, which stays pending; what follows it may
be anything. -/
theorem skipWhitespace_run_tail (ws : List Char) (s : charStream) (fuel : Nat) (c : Char)
    (r : List ReadResult) (hws : ∀ x ∈ ws, unicode.IsSpace x = true)
    (hc : unicode.IsSpace c = false)
    (h : s.remaining = ofChars ws ++ ReadResult.rune c :: r) (hf : ws.length < fuel) :
    ∃ s1, skipWhitespace fuel s = some ((c, none), s1) ∧
      s1.remaining = ReadResult.rune c :: r := by
  obtain ⟨n, rfl⟩ : ∃ n, fuel = ws.length + (n + 1) := ⟨fuel - ws.length - 1, by omega⟩
  obtain ⟨s2, h1, h2⟩ := skipWhitespace_skip ws s (n + 1) _ hws h
  obtain ⟨s3, h3, h4⟩ := skipWhitespace_stop n hc h1
  exact ⟨s3, by rw [h2, h3], h4⟩

/-- The whitespace loop skips a run of white space and stops on the first
character that is not white space, which stays pending. -/
theorem skipWhitespace_run (ws : List Char) (s : charStream) (fuel : Nat) (c : Char)
    (rest : List Char) (hws : ∀ x ∈ ws, unicode.IsSpace x = true)
    (hc : unicode.IsSpace c = false)
    (h : s.remaining = ofChars (ws ++ c :: rest)) (hf : ws.length < fuel) :
    ∃ s1, skipWhitespace fuel s = some ((c, none), s1) ∧
      s1.remaining = ofChars (c :: rest) :=
  skipWhitespace_run_tail ws s fuel c (ofChars rest) hws hc
    (by rw [h, ofChars_append, ofChars_cons]) hf

/-- On a stream that holds nothing but white space the whitespace loop ends
with `io.EOF`. -/
theorem skipWhitespace_eof (ws : List Char) (s : charStream) (fuel : Nat)
    (hws : ∀ x ∈ ws, unicode.IsSpace x = true)
    (h : s.remaining = ofChars ws) (hf : ws.length < fuel) :
    ∃ s1, skipWhitespace fuel s = some ((NUL, some GoError.EOF), s1) ∧
      s1.remaining = [] := by
  obtain ⟨n, rfl⟩ : ∃ n, fuel = ws.length + (n + 1) := ⟨fuel - ws.length - 1, by omega⟩
  obtain ⟨s2, h1, h2⟩ := skipWhitespace_skip ws s (n + 1) [] hws (by simpa using h)
  exact ⟨s2, by rw [h2, skipWhitespace_nil n h1], h1⟩

theorem not_letter_NUL (U : Tables) : U.IsLetter NUL = false := by
  rw [U.letter_ascii NUL (by decide)]; decide

theorem not_digit_NUL (U : Tables) : U.IsDigit NUL = false := by
  rw [U.digit_latin1 NUL (by decide)]; decide

theorem isIdentChar_ne_NUL (U : Tables) {c : Char} (h : isIdentChar U c = true) : c ≠ NUL := by
  rintro rfl
  simp only [isIdentChar, not_letter_NUL U, not_digit_NUL U, Bool.false_or,
    decide_eq_true_eq] at h
  exact absurd h (by decide)

/-- The IDENTIFIER loop appends a run of identifier characters to the token
and stops at the end of input or on the first other character, which stays
pending. -/
theorem identLoop_run (U : Tables) (run : List Char) :
    ∀ (s : charStream) (fuel : Nat) (token rest : List Char),
      (∀ x ∈ run, isIdentChar U x = true) → stopsAt (isIdentChar U) rest →
      s.remaining = ofChars (run ++ rest) → run.length < fuel →
      ∃ s1, identLoop U fuel s token =
          some ((⟨token ++ run, TokenType.IDENTIFIER⟩, none), s1) ∧
        s1.remaining = ofChars rest := by
  induction run with
  | nil =>
    intro s fuel token rest _ hrest h hf
    obtain ⟨n, rfl⟩ : ∃ n, fuel = n + 1 := ⟨fuel - 1, by simp at hf; omega⟩
    cases rest with
    | nil =>
      have h0 : s.remaining = [] := h
      exact ⟨s, by simp [identLoop, charStream.peek_nil h0], h0⟩
    | cons c tl =>
      obtain ⟨s1, h1, h2⟩ := charStream.peek_rune (h.trans (ofChars_cons c tl))
      have hc : isIdentChar U c = false := hrest c (by simp)
      refine ⟨s1, ?_, h2⟩
      simp only [isIdentChar] at hc
      simp [identLoop, h1, hc]
  | cons r run ih =>
    intro s fuel token rest hrun hrest h hf
    obtain ⟨n, rfl⟩ : ∃ n, fuel = n + 1 := ⟨fuel - 1, by simp at hf; omega⟩
    obtain ⟨s1, s2, h1, -, h3, h4⟩ :=
      charStream.peek_get_rune (h.trans (ofChars_cons r (run ++ rest)))
    have hr : isIdentChar U r = true := hrun r (List.mem_cons_self _ _)
    have hr0 : r ≠ NUL := isIdentChar_ne_NUL U hr
    obtain ⟨s3, h5, h6⟩ := ih s2 n (token ++ [r]) rest
      (fun x hx => hrun x (List.mem_cons_of_mem _ hx)) hrest h4 (by simpa using hf)
    refine ⟨s3, ?_, h6⟩
    simp only [isIdentChar] at hr
    simp [identLoop, h1, hr0, hr, h3, h5]

end token

/-! ## `Get`: dispatch on the first character after the white space -/

namespace token

open unicode (Tables)

/-- After a run of white space, `Get` dispatches on the first other character
`c`: `s1` is the stream with `c` peeked, `s2` the stream with `c` consumed.
What follows `c` may be anything. -/
theorem getFrom_dispatch_tail (U : Tables) (s : charStream) (fuel : Nat) (ws : List Char)
    (c : Char) (r : List ReadResult) (hws : ∀ x ∈ ws, unicode.IsSpace x = true)
    (hc : unicode.IsSpace c = false)
    (h : s.remaining = ofChars ws ++ ReadResult.rune c :: r) (hf : ws.length < fuel) :
    ∃ s1 s2, s1.remaining = ReadResult.rune c :: r ∧ s2.remaining = r ∧
      getFrom U fuel s =
        if U.IsLetter c || c = '_' then identLoop U fuel s2 [c]
        else if c = '.' then some ((⟨[c], TokenType.DOT⟩, none), s2)
        else if c = '"' then dqLoop fuel s2 [c] false
        else if c = '\'' then sqLoop fuel s2 [c] false
        else if U.IsDigit c then numberLoop U fuel s2 [c]
        else if c = NUL then some ((⟨[], TokenType.INVALID⟩, none), s1)
        else some ((⟨[c], singleCharType c⟩, none), s2) := by
  obtain ⟨s1, h1, h2⟩ := skipWhitespace_run_tail ws s fuel c r hws hc h hf
  obtain ⟨s2, h3, h4⟩ := charStream.get_rune h2
  refine ⟨s1, s2, h2, h4, ?_⟩
  simp only [getFrom, h1, h3, List.nil_append]

/-- The dispatch of `Get` on an input made of characters only. -/
theorem getFrom_dispatch (U : Tables) (s : charStream) (fuel : Nat) (ws : List Char) (c : Char)
    (rest : List Char) (hws : ∀ x ∈ ws, unicode.IsSpace x = true)
    (hc : unicode.IsSpace c = false) (h : s.remaining = ofChars (ws ++ c :: rest))
    (hf : ws.length < fuel) :
    ∃ s1 s2, s1.remaining = ofChars (c :: rest) ∧ s2.remaining = ofChars rest ∧
      getFrom U fuel s =
        if U.IsLetter c || c = '_' then identLoop U fuel s2 [c]
        else if c = '.' then some ((⟨[c], TokenType.DOT⟩, none), s2)
        else if c = '"' then dqLoop fuel s2 [c] false
        else if c = '\'' then sqLoop fuel s2 [c] false
        else if U.IsDigit c then numberLoop U fuel s2 [c]
        else if c = NUL then some ((⟨[], TokenType.INVALID⟩, none), s1)
        else some ((⟨[c], singleCharType c⟩, none), s2) :=
  getFrom_dispatch_tail U s fuel ws c (ofChars rest) hws hc
    (by rw [h, ofChars_append, ofChars_cons]) hf

/-- `Get` is `getFrom` on the character stream, with fuel for every pending
character and one more. -/
theorem TokenStream.Get_eq (U : Tables) (t : TokenStream) :
    t.Get U = (getFrom U (t.chrStream.remaining.length + 1) t.chrStream).map
      (fun r => (r.1, { t with chrStream := r.2 })) := by
  unfold TokenStream.Get
  cases getFrom U (t.chrStream.remaining.length + 1) t.chrStream with
  | none => rfl
  | some r => rfl

/-- An identifier: white space, a letter or underscore, a run of identifier
characters, and then the end of input or a character that cannot continue
the identifier. -/
theorem getFrom_identifier (U : Tables) (s : charStream) (fuel : Nat) (ws : List Char) (c : Char)
    (tl rest : List Char) (hws : ∀ x ∈ ws, unicode.IsSpace x = true)
    (hc : U.IsLetter c = true ∨ c = '_') (htl : ∀ x ∈ tl, isIdentChar U x = true)
    (hrest : stopsAt (isIdentChar U) rest)
    (h : s.remaining = ofChars (ws ++ c :: tl ++ rest))
    (hf : (ws ++ c :: tl ++ rest).length < fuel) :
    ∃ s1, getFrom U fuel s = some ((⟨c :: tl, TokenType.IDENTIFIER⟩, none), s1) ∧
      s1.remaining = ofChars rest := by
  have hsp : unicode.IsSpace c = false := by
    rcases hc with hc | rfl
    · exact U.letter_not_space c hc
    · decide
  have h' : s.remaining = ofChars (ws ++ c :: (tl ++ rest)) := by simpa using h
  simp only [List.length_append, List.length_cons] at hf
  obtain ⟨s1, s2, -, h2, h3⟩ := getFrom_dispatch U s fuel ws c (tl ++ rest) hws hsp h' (by omega)
  obtain ⟨s3, h4, h5⟩ := identLoop_run U tl s2 fuel [c] rest htl hrest h2 (by omega)
  refine ⟨s3, ?_, h5⟩
  have hc' : (U.IsLetter c || decide (c = '_')) = true := by
    rcases hc with hc | rfl
    · simp [hc]
    · simp
  rw [h3, if_pos hc', h4]
  rfl

/-- C1. For every input `ws ++ run ++ rest` in which `ws` is white space, `run`
starts with a letter or underscore and holds only letters, digits and
underscores, and `rest` is empty or starts with a character that is none of
these, `Get` returns the token `(IDENTIFIER, run)` with a nil error; what the
stream has left is exactly `rest`, and the next `peek` delivers its first
character (or end of input when `rest` is empty). -/
theorem Get_identifier_run (U : Tables) (t : TokenStream) (ws : List Char) (c : Char)
    (tl rest : List Char) (hinput : t.chrStream.remaining = ofChars (ws ++ c :: tl ++ rest))
    (hws : ∀ x ∈ ws, unicode.IsSpace x = true)
    (hstart : U.IsLetter c = true ∨ c = '_')
    (hrun : ∀ x ∈ tl, isIdentChar U x = true)
    (hrest : stopsAt (isIdentChar U) rest) :
    ∃ t1, t.Get U = some ((⟨c :: tl, TokenType.IDENTIFIER⟩, none), t1) ∧
      t1.chrStream.remaining = ofChars rest ∧
      t1.chrStream.peek.1 = nextOf rest := by
  obtain ⟨s1, h1, h2⟩ := getFrom_identifier U t.chrStream (t.chrStream.remaining.length + 1)
    ws c tl rest hws hstart hrun hrest hinput (by rw [hinput, ofChars_length]; omega)
  exact ⟨{ t with chrStream := s1 }, by rw [TokenStream.Get_eq, h1]; rfl, h2, peek_ofChars h2⟩

/-- C1 at the input `"  ab_1 cd"`. -/
theorem Get_identifier_run_witness :
    ∃ t1, (NewFileTokenStream "f" (ofChars "  ab_1 cd".toList)).Get unicode.asciiTables =
        some ((⟨"ab_1".toList, TokenType.IDENTIFIER⟩, none), t1) ∧
      t1.chrStream.remaining = ofChars " cd".toList ∧
      t1.chrStream.peek.1 = nextOf " cd".toList :=
  Get_identifier_run unicode.asciiTables
    (NewFileTokenStream "f" (ofChars "  ab_1 cd".toList)) "  ".toList 'a' "b_1".toList
    " cd".toList (by decide) (by decide) (by decide) (by decide) (by decide)

end token

/-! ## Quoted strings -/

namespace token

open unicode (Tables)

theorem dqLoop_eq_quotedLoop (fuel : Nat) :
    ∀ (s : charStream) (token : List Char) (inEscape : Bool),
      dqLoop fuel s token inEscape =
        quotedLoop '"' dqEscape "missing closing double quote" TokenType.DQSTRING
          fuel s token inEscape := by
  induction fuel with
  | zero => intro s token inEscape; rfl
  | succ n ih =>
    intro s token inEscape
    simp only [dqLoop, quotedLoop, ih, dqEscape]
    rcases s.peek with ⟨⟨chr, _ | err⟩, s1⟩
    · simp only
      split_ifs <;> rfl
    · rfl

theorem sqLoop_eq_quotedLoop (fuel : Nat) :
    ∀ (s : charStream) (token : List Char) (inEscape : Bool),
      sqLoop fuel s token inEscape =
        quotedLoop '\'' sqEscape "missing closing single quote" TokenType.SQSTRING
          fuel s token inEscape := by
  induction fuel with
  | zero => intro s token inEscape; rfl
  | succ n ih =>
    intro s token inEscape
    simp only [sqLoop, quotedLoop, ih, sqEscape]
    rcases s.peek with ⟨⟨chr, _ | err⟩, s1⟩
    · simp only
      split_ifs <;> simp_all
    · rfl

theorem wellEscaped_plain (q : Char) {c : Char} (hc : c ≠ '\\') (rest : List Char) :
    wellEscaped q (c :: rest) = (decide (c ≠ q) && decide (c ≠ NUL) && wellEscaped q rest) := by
  conv_lhs => unfold wellEscaped
  simp [hc]

theorem wellEscaped_escape (q d : Char) (tl : List Char) :
    wellEscaped q ('\\' :: d :: tl) = (decide (d ≠ NUL) && wellEscaped q tl) := by
  conv_lhs => unfold wellEscaped
  simp

theorem wellEscaped_lone (q : Char) : wellEscaped q ['\\'] = false := by
  conv_lhs => unfold wellEscaped
  simp

theorem resolve_plain (esc : Char → List Char) {c : Char} (hc : c ≠ '\\') (rest : List Char) :
    resolve esc (c :: rest) = c :: resolve esc rest := by
  conv_lhs => unfold resolve
  simp [hc]

theorem resolve_escape (esc : Char → List Char) (d : Char) (tl : List Char) :
    resolve esc ('\\' :: d :: tl) = esc d ++ resolve esc tl := by
  conv_lhs => unfold resolve
  simp

theorem resolve_lone (esc : Char → List Char) : resolve esc ['\\'] = [] := by
  conv_lhs => unfold resolve
  simp

theorem noClosingQuote_plain (q : Char) {c : Char} (hc : c ≠ '\\') (rest : List Char) :
    noClosingQuote q (c :: rest) = (decide (c ≠ q) && noClosingQuote q rest) := by
  conv_lhs => unfold noClosingQuote
  simp [hc]

theorem noClosingQuote_escape (q d : Char) (tl : List Char) :
    noClosingQuote q ('\\' :: d :: tl) = noClosingQuote q tl := by
  conv_lhs => unfold noClosingQuote
  simp

theorem noQuoteEscape_plain {c : Char} (hc : c ≠ '\\') (rest : List Char) :
    noQuoteEscape (c :: rest) = noQuoteEscape rest := by
  conv_lhs => unfold noQuoteEscape
  simp [hc]

theorem noQuoteEscape_escape (d : Char) (tl : List Char) :
    noQuoteEscape ('\\' :: d :: tl) =
      (decide (d ≠ '\'') && decide (d ≠ '\\') && noQuoteEscape tl) := by
  conv_lhs => unfold noQuoteEscape
  simp

/-- Induction over a text read one or two characters at a time. -/
theorem list_induction_two {α : Type} {P : List α → Prop} (h0 : P [])
    (h1 : ∀ c rest, P rest → (∀ d tl, rest = d :: tl → P tl) → P (c :: rest)) :
    ∀ l, P l := by
  have key : ∀ l, P l ∧ (∀ d tl, l = d :: tl → P tl) := by
    intro l
    induction l with
    | nil => exact ⟨h0, by simp⟩
    | cons c rest ih =>
      refine ⟨h1 c rest ih.1 ih.2, ?_⟩
      intro d tl h
      simp only [List.cons.injEq] at h
      rw [← h.2]; exact ih.1
  exact fun l => (key l).1

section quoted

variable (q : Char) (esc : Char → List Char) (msg : String) (kind : TokenType)

/-- At the end of input the string loop fails with the missing-quote error and
the text collected so far. -/
theorem quotedLoop_eof {s : charStream} (n : Nat) (token : List Char) (b : Bool)
    (h : s.remaining = []) :
    quotedLoop q esc msg kind (n + 1) s token b =
      some ((⟨token, TokenType.INVALID⟩, some (GoError.errorsNew msg)), s) := by
  simp [quotedLoop, charStream.peek_nil h]

/-- On a `NUL` the string loop fails with the missing-quote error and the text
collected so far; the `NUL` stays pending. -/
theorem quotedLoop_nul {s : charStream} {r : List ReadResult} (n : Nat) (token : List Char)
    (b : Bool) (h : s.remaining = ReadResult.rune NUL :: r) :
    ∃ s1, quotedLoop q esc msg kind (n + 1) s token b =
        some ((⟨token, TokenType.INVALID⟩, some (GoError.errorsNew msg)), s1) ∧
      s1.remaining = ReadResult.rune NUL :: r := by
  obtain ⟨s1, h1, h2⟩ := charStream.peek_rune h
  exact ⟨s1, by simp [quotedLoop, h1], h2⟩

/-- Outside an escape a backslash is consumed and starts an escape. -/
theorem quotedLoop_backslash {s : charStream} {r : List ReadResult} (n : Nat)
    (token : List Char) (h : s.remaining = ReadResult.rune '\\' :: r) :
    ∃ s2, quotedLoop q esc msg kind (n + 1) s token false =
        quotedLoop q esc msg kind n s2 token true ∧ s2.remaining = r := by
  obtain ⟨s1, s2, h1, -, h3, h4⟩ := charStream.peek_get_rune h
  refine ⟨s2, ?_, h4⟩
  have : ('\\' : Char) ≠ NUL := by decide
  simp [quotedLoop, h1, h3, this]

/-- Inside an escape any character but `NUL` is consumed and emits `esc`. -/
theorem quotedLoop_escaped {s : charStream} {r : List ReadResult} {d : Char} (n : Nat)
    (token : List Char) (hd : d ≠ NUL) (h : s.remaining = ReadResult.rune d :: r) :
    ∃ s2, quotedLoop q esc msg kind (n + 1) s token true =
        quotedLoop q esc msg kind n s2 (token ++ esc d) false ∧ s2.remaining = r := by
  obtain ⟨s1, s2, h1, -, h3, h4⟩ := charStream.peek_get_rune h
  refine ⟨s2, ?_, h4⟩
  simp [quotedLoop, h1, h3, hd]

/-- Outside an escape a character that is not `NUL`, a backslash or the quote
is consumed and emitted as it is. -/
theorem quotedLoop_plain {s : charStream} {r : List ReadResult} {c : Char} (n : Nat)
    (token : List Char) (h0 : c ≠ NUL) (hb : c ≠ '\\') (hq : c ≠ q)
    (h : s.remaining = ReadResult.rune c :: r) :
    ∃ s2, quotedLoop q esc msg kind (n + 1) s token false =
        quotedLoop q esc msg kind n s2 (token ++ [c]) false ∧ s2.remaining = r := by
  obtain ⟨s1, s2, h1, -, h3, h4⟩ := charStream.peek_get_rune h
  refine ⟨s2, ?_, h4⟩
  simp [quotedLoop, h1, h3, h0, hb, hq]

/-- Outside an escape the quote is consumed, emitted, and ends the string. -/
theorem quotedLoop_close {s : charStream} {r : List ReadResult} (n : Nat)
    (token : List Char) (h0 : q ≠ NUL) (hb : q ≠ '\\')
    (h : s.remaining = ReadResult.rune q :: r) :
    ∃ s2, quotedLoop q esc msg kind (n + 1) s token false =
        some ((⟨token ++ [q], kind⟩, none), s2) ∧ s2.remaining = r := by
  obtain ⟨s1, s2, h1, -, h3, h4⟩ := charStream.peek_get_rune h
  refine ⟨s2, ?_, h4⟩
  simp [quotedLoop, h1, h3, h0, hb]

/-- A well-escaped body followed by the closing quote: the loop returns the
token with the body resolved and the closing quote, and leaves what follows
the quote. -/
theorem quotedLoop_closed (h0 : q ≠ NUL) (hb : q ≠ '\\') (rest : List Char) :
    ∀ (body : List Char) (s : charStream) (fuel : Nat) (token : List Char),
      wellEscaped q body = true → s.remaining = ofChars (body ++ q :: rest) →
      body.length < fuel →
      ∃ s1, quotedLoop q esc msg kind fuel s token false =
          some ((⟨token ++ resolve esc body ++ [q], kind⟩, none), s1) ∧
        s1.remaining = ofChars rest := by
  intro body
  induction body using list_induction_two with
  | h0 =>
    intro s fuel token _ h hf
    obtain ⟨n, rfl⟩ : ∃ n, fuel = n + 1 := ⟨fuel - 1, by simp at hf; omega⟩
    obtain ⟨s2, h1, h2⟩ := quotedLoop_close q esc msg kind n token h0 hb
      (h.trans (ofChars_cons q rest))
    exact ⟨s2, by simpa [resolve] using h1, h2⟩
  | h1 c body ih1 ih2 =>
    intro s fuel token hw h hf
    obtain ⟨n, rfl⟩ : ∃ n, fuel = n + 1 := ⟨fuel - 1, by simp at hf; omega⟩
    have h' : s.remaining = ReadResult.rune c :: ofChars (body ++ q :: rest) := h
    by_cases hc : c = '\\'
    · subst hc
      cases body with
      | nil => simp [wellEscaped_lone] at hw
      | cons d tl =>
        simp only [wellEscaped_escape, Bool.and_eq_true, decide_eq_true_eq] at hw
        simp only [List.length_cons] at hf
        obtain ⟨m, rfl⟩ : ∃ m, n = m + 1 := ⟨n - 1, by omega⟩
        obtain ⟨s2, h1, h2⟩ := quotedLoop_backslash q esc msg kind (m + 1) token h'
        obtain ⟨s3, h3, h4⟩ := quotedLoop_escaped q esc msg kind m token hw.1
          (h2.trans (ofChars_cons d (tl ++ q :: rest)))
        obtain ⟨s4, h5, h6⟩ := ih2 d tl rfl s3 m (token ++ esc d) hw.2 h4 (by omega)
        refine ⟨s4, ?_, h6⟩
        rw [h1, h3, h5]
        simp [resolve_escape]
    · rw [wellEscaped_plain q hc] at hw
      simp only [Bool.and_eq_true, decide_eq_true_eq] at hw
      obtain ⟨s2, h1, h2⟩ := quotedLoop_plain q esc msg kind n token hw.1.2 hc hw.1.1 h'
      obtain ⟨s3, h3, h4⟩ := ih1 s2 n (token ++ [c]) hw.2 h2 (by simpa using hf)
      refine ⟨s3, ?_, h4⟩
      rw [h1, h3]
      simp [resolve_plain esc hc]

end quoted

/-- After white space a double quote sends `Get` into the DQSTRING loop, the
quote consumed and written to the token. -/
theorem getFrom_dq (U : Tables) (s : charStream) (fuel : Nat) (ws rest : List Char)
    (hws : ∀ x ∈ ws, unicode.IsSpace x = true)
    (h : s.remaining = ofChars (ws ++ '"' :: rest)) (hf : ws.length < fuel) :
    ∃ s2, s2.remaining = ofChars rest ∧
      getFrom U fuel s =
        quotedLoop '"' dqEscape "missing closing double quote" TokenType.DQSTRING
          fuel s2 ['"'] false := by
  obtain ⟨s1, s2, -, h2, h3⟩ := getFrom_dispatch U s fuel ws '"' rest hws (by decide) h hf
  refine ⟨s2, h2, ?_⟩
  have hl : U.IsLetter '"' = false := by rw [U.letter_ascii '"' (by decide)]; decide
  rw [h3, hl, dqLoop_eq_quotedLoop]
  simp

/-- After white space a single quote sends `Get` into the SQSTRING loop, the
quote consumed and written to the token. -/
theorem getFrom_sq (U : Tables) (s : charStream) (fuel : Nat) (ws rest : List Char)
    (hws : ∀ x ∈ ws, unicode.IsSpace x = true)
    (h : s.remaining = ofChars (ws ++ '\'' :: rest)) (hf : ws.length < fuel) :
    ∃ s2, s2.remaining = ofChars rest ∧
      getFrom U fuel s =
        quotedLoop '\'' sqEscape "missing closing single quote" TokenType.SQSTRING
          fuel s2 ['\''] false := by
  obtain ⟨s1, s2, -, h2, h3⟩ := getFrom_dispatch U s fuel ws '\'' rest hws (by decide) h hf
  refine ⟨s2, h2, ?_⟩
  have hl : U.IsLetter '\'' = false := by rw [U.letter_ascii '\'' (by decide)]; decide
  rw [h3, hl, sqLoop_eq_quotedLoop]
  simp

/-- A terminated double-quoted string. -/
theorem getFrom_dq_closed (U : Tables) (s : charStream) (fuel : Nat) (ws body rest : List Char)
    (hws : ∀ x ∈ ws, unicode.IsSpace x = true) (hbody : wellEscaped '"' body = true)
    (h : s.remaining = ofChars (ws ++ '"' :: body ++ '"' :: rest))
    (hf : (ws ++ '"' :: body ++ '"' :: rest).length < fuel) :
    ∃ s1, getFrom U fuel s =
        some ((⟨'"' :: resolve dqEscape body ++ ['"'], TokenType.DQSTRING⟩, none), s1) ∧
      s1.remaining = ofChars rest := by
  have h' : s.remaining = ofChars (ws ++ '"' :: (body ++ '"' :: rest)) := by simpa using h
  simp only [List.length_append, List.length_cons] at hf
  obtain ⟨s2, h2, h3⟩ := getFrom_dq U s fuel ws (body ++ '"' :: rest) hws h' (by omega)
  obtain ⟨s3, h4, h5⟩ := quotedLoop_closed '"' dqEscape "missing closing double quote"
    TokenType.DQSTRING (by decide) (by decide) rest body s2 fuel ['"'] hbody h2 (by omega)
  exact ⟨s3, by rw [h3, h4]; rfl, h5⟩

/-- A terminated single-quoted string. -/
theorem getFrom_sq_closed (U : Tables) (s : charStream) (fuel : Nat) (ws body rest : List Char)
    (hws : ∀ x ∈ ws, unicode.IsSpace x = true) (hbody : wellEscaped '\'' body = true)
    (h : s.remaining = ofChars (ws ++ '\'' :: body ++ '\'' :: rest))
    (hf : (ws ++ '\'' :: body ++ '\'' :: rest).length < fuel) :
    ∃ s1, getFrom U fuel s =
        some ((⟨'\'' :: resolve sqEscape body ++ ['\''], TokenType.SQSTRING⟩, none), s1) ∧
      s1.remaining = ofChars rest := by
  have h' : s.remaining = ofChars (ws ++ '\'' :: (body ++ '\'' :: rest)) := by simpa using h
  simp only [List.length_append, List.length_cons] at hf
  obtain ⟨s2, h2, h3⟩ := getFrom_sq U s fuel ws (body ++ '\'' :: rest) hws h' (by omega)
  obtain ⟨s3, h4, h5⟩ := quotedLoop_closed '\'' sqEscape "missing closing single quote"
    TokenType.SQSTRING (by decide) (by decide) rest body s2 fuel ['\''] hbody h2 (by omega)
  exact ⟨s3, by rw [h3, h4]; rfl, h5⟩

/-- In a well-escaped single-quoted body whose escapes target neither a single
quote nor a backslash, resolution changes nothing. -/
theorem resolve_sqEscape_id :
    ∀ body : List Char, wellEscaped '\'' body = true → noQuoteEscape body = true →
      resolve sqEscape body = body := by
  intro body
  induction body using list_induction_two with
  | h0 => intro _ _; rfl
  | h1 c body ih1 ih2 =>
    intro hw h
    by_cases hc : c = '\\'
    · subst hc
      cases body with
      | nil => simp [wellEscaped_lone] at hw
      | cons d tl =>
        simp only [noQuoteEscape_escape, Bool.and_eq_true, decide_eq_true_eq] at h
        simp only [wellEscaped_escape, Bool.and_eq_true, decide_eq_true_eq] at hw
        rw [resolve_escape, ih2 d tl rfl hw.2 h.2]
        simp [sqEscape, h.1.1, h.1.2]
    · rw [noQuoteEscape_plain hc] at h
      rw [wellEscaped_plain _ hc] at hw
      simp only [Bool.and_eq_true, decide_eq_true_eq] at hw
      rw [resolve_plain sqEscape hc, ih1 hw.2 h]

/-- C2. For every input whose first character after white space is a double
quote, followed by a body without `NUL` in which every double quote and every
backslash belongs to a two-character escape, and then a closing double quote,
`Get` returns kind DQSTRING with a nil error and the text made of the opening
quote, the body with its escapes resolved (backslash-n to a newline,
backslash-t to a tab, backslash-c to `c` otherwise, any other character to
itself) and the closing quote; what the stream has left is exactly what
follows the closing quote. -/
theorem Get_dqstring_resolved (U : Tables) (t : TokenStream) (ws body rest : List Char)
    (hinput : t.chrStream.remaining = ofChars (ws ++ '"' :: body ++ '"' :: rest))
    (hws : ∀ x ∈ ws, unicode.IsSpace x = true)
    (hbody : wellEscaped '"' body = true) :
    ∃ t1, t.Get U =
        some ((⟨'"' :: resolve dqEscape body ++ ['"'], TokenType.DQSTRING⟩, none), t1) ∧
      t1.chrStream.remaining = ofChars rest := by
  obtain ⟨s1, h1, h2⟩ := getFrom_dq_closed U t.chrStream (t.chrStream.remaining.length + 1)
    ws body rest hws hbody hinput (by rw [hinput, ofChars_length]; omega)
  exact ⟨{ t with chrStream := s1 }, by rw [TokenStream.Get_eq, h1]; rfl, h2⟩

/-- C2 at the input `"a\nb\"\\\q" x`: the escapes of `n`, of the quote, of the
backslash and of `q` are resolved. -/
theorem Get_dqstring_resolved_witness :
    ∃ t1, (NewFileTokenStream "f" (ofChars " \"a\\nb\\\"\\\\\\q\" x".toList)).Get
          unicode.asciiTables =
        some ((⟨"\"a\nb\"\\q\"".toList, TokenType.DQSTRING⟩, none), t1) ∧
      t1.chrStream.remaining = ofChars " x".toList :=
  Get_dqstring_resolved unicode.asciiTables
    (NewFileTokenStream "f" (ofChars " \"a\\nb\\\"\\\\\\q\" x".toList))
    " ".toList "a\\nb\\\"\\\\\\q".toList " x".toList (by decide) (by decide) (by decide)

/-- C3. For every input whose first character after white space is a single
quote, followed by a body without `NUL` in which every single quote and every
backslash belongs to a two-character escape, and then a closing single quote,
`Get` returns kind SQSTRING with a nil error and the text made of the opening
quote, the body with its escapes resolved (backslash-quote to a bare quote,
backslash-backslash to one backslash, backslash-c to backslash and `c`
otherwise) and the closing quote, leaving what follows the closing quote; and
when no escape of the body targets a single quote or a backslash that text is
the source lexeme unchanged. -/
theorem Get_sqstring_resolved (U : Tables) (t : TokenStream) (ws body rest : List Char)
    (hinput : t.chrStream.remaining = ofChars (ws ++ '\'' :: body ++ '\'' :: rest))
    (hws : ∀ x ∈ ws, unicode.IsSpace x = true)
    (hbody : wellEscaped '\'' body = true) :
    (∃ t1, t.Get U =
        some ((⟨'\'' :: resolve sqEscape body ++ ['\''], TokenType.SQSTRING⟩, none), t1) ∧
      t1.chrStream.remaining = ofChars rest) ∧
    (noQuoteEscape body = true →
      '\'' :: resolve sqEscape body ++ ['\''] = '\'' :: body ++ ['\'']) := by
  obtain ⟨s1, h1, h2⟩ := getFrom_sq_closed U t.chrStream (t.chrStream.remaining.length + 1)
    ws body rest hws hbody hinput (by rw [hinput, ofChars_length]; omega)
  refine ⟨⟨{ t with chrStream := s1 }, by rw [TokenStream.Get_eq, h1]; rfl, h2⟩, ?_⟩
  intro h
  rw [resolve_sqEscape_id body hbody h]

/-- C3 at the input `'a\qb\\c\'d' x`: the escape of `q` keeps its backslash,
those of the backslash and of the quote lose it. -/
theorem Get_sqstring_resolved_witness :
    (∃ t1, (NewFileTokenStream "f" (ofChars "'a\\qb\\\\c\\'d' x".toList)).Get
          unicode.asciiTables =
        some ((⟨'\'' :: resolve sqEscape "a\\qb\\\\c\\'d".toList ++ ['\''],
          TokenType.SQSTRING⟩, none), t1) ∧
      t1.chrStream.remaining = ofChars " x".toList) ∧
    (noQuoteEscape "a\\qb\\\\c\\'d".toList = true →
      '\'' :: resolve sqEscape "a\\qb\\\\c\\'d".toList ++ ['\''] =
        '\'' :: "a\\qb\\\\c\\'d".toList ++ ['\'']) :=
  Get_sqstring_resolved unicode.asciiTables
    (NewFileTokenStream "f" (ofChars "'a\\qb\\\\c\\'d' x".toList))
    [] "a\\qb\\\\c\\'d".toList " x".toList (by decide) (by decide) (by decide)

theorem beforeNUL_nul (rest : List Char) : beforeNUL (NUL :: rest) = [] := by
  simp [beforeNUL]

theorem beforeNUL_cons {c : Char} (hc : c ≠ NUL) (rest : List Char) :
    beforeNUL (c :: rest) = c :: beforeNUL rest := by
  simp [beforeNUL, hc]

/-- A body without unescaped quote, up to the end of input: the string loop
fails with the missing-quote error, and the token holds what was collected
while scanning the body up to its first `NUL`, if any; a backslash with
nothing scanned after it gives nothing. -/
theorem quotedLoop_unterminated (q : Char) (esc : Char → List Char) (msg : String)
    (kind : TokenType) :
    ∀ (body : List Char) (s : charStream) (fuel : Nat) (token : List Char),
      noClosingQuote q body = true → s.remaining = ofChars body → body.length < fuel →
      ∃ s1, quotedLoop q esc msg kind fuel s token false =
        some ((⟨token ++ resolve esc (beforeNUL body), TokenType.INVALID⟩,
          some (GoError.errorsNew msg)), s1) := by
  intro body
  induction body using list_induction_two with
  | h0 =>
    intro s fuel token _ h hf
    obtain ⟨n, rfl⟩ : ∃ n, fuel = n + 1 := ⟨fuel - 1, by simp at hf; omega⟩
    exact ⟨s, by rw [quotedLoop_eof q esc msg kind n token false h]; simp [beforeNUL, resolve]⟩
  | h1 c body ih1 ih2 =>
    intro s fuel token hw h hf
    obtain ⟨n, rfl⟩ : ∃ n, fuel = n + 1 := ⟨fuel - 1, by simp at hf; omega⟩
    have h' : s.remaining = ReadResult.rune c :: ofChars body := h
    by_cases hn : c = NUL
    · subst hn
      obtain ⟨s1, h1, -⟩ := quotedLoop_nul q esc msg kind n token false h'
      exact ⟨s1, by rw [h1, beforeNUL_nul]; simp [resolve]⟩
    by_cases hc : c = '\\'
    · subst hc
      obtain ⟨s2, h1, h2⟩ := quotedLoop_backslash q esc msg kind n token h'
      cases body with
      | nil =>
        obtain ⟨m, rfl⟩ : ∃ m, n = m + 1 := ⟨n - 1, by simp at hf; omega⟩
        refine ⟨s2, ?_⟩
        rw [h1, quotedLoop_eof q esc msg kind m token true h2, beforeNUL_cons hn]
        simp [beforeNUL, resolve_lone]
      | cons d tl =>
        simp only [List.length_cons] at hf
        obtain ⟨m, rfl⟩ : ∃ m, n = m + 1 := ⟨n - 1, by omega⟩
        have h2' : s2.remaining = ReadResult.rune d :: ofChars tl := h2
        by_cases hd : d = NUL
        · subst hd
          obtain ⟨s3, h3, -⟩ := quotedLoop_nul q esc msg kind m token true h2'
          refine ⟨s3, ?_⟩
          rw [h1, h3, beforeNUL_cons hn, beforeNUL_nul]
          simp [resolve_lone]
        · rw [noClosingQuote_escape] at hw
          obtain ⟨s3, h3, h4⟩ := quotedLoop_escaped q esc msg kind m token hd h2'
          obtain ⟨s4, h5⟩ := ih2 d tl rfl s3 m (token ++ esc d) hw h4 (by omega)
          refine ⟨s4, ?_⟩
          rw [h1, h3, h5, beforeNUL_cons hn, beforeNUL_cons hd, resolve_escape]
          simp
    · rw [noClosingQuote_plain q hc] at hw
      simp only [Bool.and_eq_true, decide_eq_true_eq] at hw
      obtain ⟨s2, h1, h2⟩ := quotedLoop_plain q esc msg kind n token hn hc hw.1 h'
      obtain ⟨s3, h3⟩ := ih1 s2 n (token ++ [c]) hw.2 h2 (by simpa using hf)
      refine ⟨s3, ?_⟩
      rw [h1, h3, beforeNUL_cons hn, resolve_plain esc hc]
      simp

/-- After white space a quote `q`, double or single, sends `Get` into the loop
of its string. -/
theorem getFrom_quote (U : Tables) (s : charStream) (fuel : Nat) (q : Char) (ws rest : List Char)
    (hq : q = '"' ∨ q = '\'') (hws : ∀ x ∈ ws, unicode.IsSpace x = true)
    (h : s.remaining = ofChars (ws ++ q :: rest)) (hf : ws.length < fuel) :
    ∃ s2 kind, s2.remaining = ofChars rest ∧
      getFrom U fuel s = quotedLoop q (quoteEscape q) (missingQuote q) kind fuel s2 [q] false := by
  rcases hq with rfl | rfl
  · obtain ⟨s2, h2, h3⟩ := getFrom_dq U s fuel ws rest hws h hf
    exact ⟨s2, TokenType.DQSTRING, h2, h3⟩
  · obtain ⟨s2, h2, h3⟩ := getFrom_sq U s fuel ws rest hws h hf
    exact ⟨s2, TokenType.SQSTRING, h2, h3⟩

/-- C4. For every input whose first character after white space is a quote
`q`, double or single, and that reaches the end of input with no unescaped
`q` after it, `Get` fails with the error "missing closing double quote" (resp.
"missing closing single quote"), so neither with end of input nor with a
string token; the token returned has kind INVALID and its text is the opening
quote followed by the escape-resolved characters scanned (the scan stops
early on a `NUL`; without `NUL` the whole body is scanned), a backslash with
nothing scanned after it contributing nothing. -/
theorem Get_unterminated_string (U : Tables) (t : TokenStream) (q : Char) (ws body : List Char)
    (hq : q = '"' ∨ q = '\'')
    (hinput : t.chrStream.remaining = ofChars (ws ++ q :: body))
    (hws : ∀ x ∈ ws, unicode.IsSpace x = true)
    (hbody : noClosingQuote q body = true) :
    (∃ t1, t.Get U =
      some ((⟨q :: resolve (quoteEscape q) (beforeNUL body), TokenType.INVALID⟩,
        some (GoError.errorsNew (missingQuote q))), t1)) ∧
    (NUL ∉ body → beforeNUL body = body) := by
  obtain ⟨s2, kind, h2, h3⟩ := getFrom_quote U t.chrStream (t.chrStream.remaining.length + 1)
    q ws body hq hws hinput (by rw [hinput, ofChars_length]; simp; omega)
  obtain ⟨s3, h4⟩ := quotedLoop_unterminated q (quoteEscape q) (missingQuote q) kind body s2
    (t.chrStream.remaining.length + 1) [q] hbody h2
    (by rw [hinput, ofChars_length]; simp; omega)
  refine ⟨⟨{ t with chrStream := s3 }, by rw [TokenStream.Get_eq, h3, h4]; rfl⟩, ?_⟩
  intro hn
  unfold beforeNUL
  rw [List.takeWhile_eq_self_iff]
  intro x hx
  simp only [bne_iff_ne, ne_eq]
  rintro rfl
  exact hn hx

/-- C4 at the input `"ab\tc\"d\` of the double-quoted kind: the text is
`"ab<tab>c"d`, the last backslash contributing nothing. -/
theorem Get_unterminated_string_witness :
    (∃ t1, (NewFileTokenStream "f" (ofChars " \"ab\\tc\\\"d\\".toList)).Get
          unicode.asciiTables =
      some ((⟨"\"ab\tc\"d".toList, TokenType.INVALID⟩,
        some (GoError.errorsNew "missing closing double quote")), t1)) ∧
    (NUL ∉ "ab\\tc\\\"d\\".toList →
      beforeNUL "ab\\tc\\\"d\\".toList = "ab\\tc\\\"d\\".toList) :=
  Get_unterminated_string unicode.asciiTables
    (NewFileTokenStream "f" (ofChars " \"ab\\tc\\\"d\\".toList)) '"' " ".toList
    "ab\\tc\\\"d\\".toList (by decide) (by decide) (by decide) (by decide)

/-! ## Numbers, single characters, end of input -/

/-- The NUMBER loop appends a run of digits to the token and stops at the end
of input or on the first character that is not a digit, which stays
pending. -/
theorem numberLoop_run (U : Tables) (run : List Char) :
    ∀ (s : charStream) (fuel : Nat) (token rest : List Char),
      (∀ x ∈ run, U.IsDigit x = true) → stopsAt U.IsDigit rest →
      s.remaining = ofChars (run ++ rest) → run.length < fuel →
      ∃ s1, numberLoop U fuel s token = some ((⟨token ++ run, TokenType.NUMBER⟩, none), s1) ∧
        s1.remaining = ofChars rest := by
  induction run with
  | nil =>
    intro s fuel token rest _ hrest h hf
    obtain ⟨n, rfl⟩ : ∃ n, fuel = n + 1 := ⟨fuel - 1, by simp at hf; omega⟩
    cases rest with
    | nil =>
      have h0 : s.remaining = [] := h
      exact ⟨s, by simp [numberLoop, charStream.peek_nil h0], h0⟩
    | cons c tl =>
      obtain ⟨s1, h1, h2⟩ := charStream.peek_rune (h.trans (ofChars_cons c tl))
      have hc : U.IsDigit c = false := hrest c (by simp)
      exact ⟨s1, by simp [numberLoop, h1, hc], h2⟩
  | cons r run ih =>
    intro s fuel token rest hrun hrest h hf
    obtain ⟨n, rfl⟩ : ∃ n, fuel = n + 1 := ⟨fuel - 1, by simp at hf; omega⟩
    obtain ⟨s1, s2, h1, -, h3, h4⟩ :=
      charStream.peek_get_rune (h.trans (ofChars_cons r (run ++ rest)))
    have hr : U.IsDigit r = true := hrun r (List.mem_cons_self _ _)
    have hr0 : r ≠ NUL := by
      rintro rfl
      rw [not_digit_NUL U] at hr
      exact absurd hr (by decide)
    obtain ⟨s3, h5, h6⟩ := ih s2 n (token ++ [r]) rest
      (fun x hx => hrun x (List.mem_cons_of_mem _ hx)) hrest h4 (by simpa using hf)
    exact ⟨s3, by simp [numberLoop, h1, hr0, hr, h3, h5], h6⟩

/-- A digit is none of the ASCII characters that are not digits. -/
theorem digit_ne (U : Tables) {d c : Char} (hd : U.IsDigit d = true) (hc : c.toNat ≤ 0xFF)
    (hc2 : (decide (48 ≤ c.toNat) && decide (c.toNat ≤ 57)) = false) : d ≠ c := by
  rintro rfl
  rw [U.digit_latin1 d hc, hc2] at hd
  exact absurd hd (by decide)

/-- A number: white space, a digit, a run of digits, and then the end of input
or a character that is not a digit. -/
theorem getFrom_number (U : Tables) (s : charStream) (fuel : Nat) (ws : List Char) (d : Char)
    (tl rest : List Char) (hws : ∀ x ∈ ws, unicode.IsSpace x = true)
    (hd : U.IsDigit d = true) (htl : ∀ x ∈ tl, U.IsDigit x = true)
    (hrest : stopsAt U.IsDigit rest)
    (h : s.remaining = ofChars (ws ++ d :: tl ++ rest))
    (hf : (ws ++ d :: tl ++ rest).length < fuel) :
    ∃ s1, getFrom U fuel s = some ((⟨d :: tl, TokenType.NUMBER⟩, none), s1) ∧
      s1.remaining = ofChars rest := by
  have h' : s.remaining = ofChars (ws ++ d :: (tl ++ rest)) := by simpa using h
  simp only [List.length_append, List.length_cons] at hf
  obtain ⟨s1, s2, -, h2, h3⟩ := getFrom_dispatch U s fuel ws d (tl ++ rest) hws
    (U.digit_not_space d hd) h' (by omega)
  obtain ⟨s3, h4, h5⟩ := numberLoop_run U tl s2 fuel [d] rest htl hrest h2 (by omega)
  refine ⟨s3, ?_, h5⟩
  have e1 : d ≠ '_' := digit_ne U hd (by decide) (by decide)
  have e2 : d ≠ '.' := digit_ne U hd (by decide) (by decide)
  have e3 : d ≠ '"' := digit_ne U hd (by decide) (by decide)
  have e4 : d ≠ '\'' := digit_ne U hd (by decide) (by decide)
  rw [h3, U.digit_not_letter d hd, h4]
  simp [e1, e2, e3, e4, hd]

/-- A character that reaches the final `switch` is consumed alone and gets the
kind the `switch` gives it. -/
theorem getFrom_single (U : Tables) (s : charStream) (fuel : Nat) (ws : List Char) (c : Char)
    (rest : List Char) (hws : ∀ x ∈ ws, unicode.IsSpace x = true)
    (hc : reachesSwitch U c = true)
    (h : s.remaining = ofChars (ws ++ c :: rest)) (hf : ws.length < fuel) :
    ∃ s1, getFrom U fuel s = some ((⟨[c], singleCharType c⟩, none), s1) ∧
      s1.remaining = ofChars rest := by
  simp only [reachesSwitch, Bool.and_eq_true, Bool.not_eq_true', decide_eq_true_eq] at hc
  obtain ⟨⟨⟨⟨⟨⟨⟨c1, c2⟩, c3⟩, c4⟩, c5⟩, c6⟩, c7⟩, c8⟩ := hc
  obtain ⟨s1, s2, -, h2, h3⟩ := getFrom_dispatch U s fuel ws c rest hws c1 h hf
  refine ⟨s2, ?_, h2⟩
  rw [h3]
  simp [c2, c3, c4, c5, c6, c7, c8]

/-- A dot is consumed alone and is a DOT token, whatever follows. -/
theorem getFrom_dot (U : Tables) (s : charStream) (fuel : Nat) (ws rest : List Char)
    (hws : ∀ x ∈ ws, unicode.IsSpace x = true)
    (h : s.remaining = ofChars (ws ++ '.' :: rest)) (hf : ws.length < fuel) :
    ∃ s1, getFrom U fuel s = some ((⟨['.'], TokenType.DOT⟩, none), s1) ∧
      s1.remaining = ofChars rest := by
  obtain ⟨s1, s2, -, h2, h3⟩ := getFrom_dispatch U s fuel ws '.' rest hws (by decide) h hf
  refine ⟨s2, ?_, h2⟩
  have hl : U.IsLetter '.' = false := by rw [U.letter_ascii '.' (by decide)]; decide
  rw [h3, hl]
  simp

/-- On white space up to the end of input `Get` reports `io.EOF`, with the
empty INVALID token. -/
theorem getFrom_eof (U : Tables) (s : charStream) (fuel : Nat) (ws : List Char)
    (hws : ∀ x ∈ ws, unicode.IsSpace x = true)
    (h : s.remaining = ofChars ws) (hf : ws.length < fuel) :
    ∃ s1, getFrom U fuel s = some ((⟨[], TokenType.INVALID⟩, some GoError.EOF), s1) ∧
      s1.remaining = [] := by
  obtain ⟨s1, h1, h2⟩ := skipWhitespace_eof ws s fuel hws h hf
  exact ⟨s1, by simp [getFrom, h1], h2⟩

/-- A `NUL` after white space: `Get` returns the empty INVALID token with a nil
error and consumes nothing but the white space. -/
theorem getFrom_nul (U : Tables) (s : charStream) (fuel : Nat) (ws rest : List Char)
    (hws : ∀ x ∈ ws, unicode.IsSpace x = true)
    (h : s.remaining = ofChars (ws ++ NUL :: rest)) (hf : ws.length < fuel) :
    ∃ s1, getFrom U fuel s = some ((⟨[], TokenType.INVALID⟩, none), s1) ∧
      s1.remaining = ofChars (NUL :: rest) := by
  obtain ⟨s1, s2, h1, -, h3⟩ := getFrom_dispatch U s fuel ws NUL rest hws (by decide) h hf
  refine ⟨s1, ?_, h1⟩
  have e1 : NUL ≠ '_' := by decide
  have e2 : NUL ≠ '.' := by decide
  have e3 : NUL ≠ '"' := by decide
  have e4 : NUL ≠ '\'' := by decide
  rw [h3, not_letter_NUL U, not_digit_NUL U]
  simp [e1, e2, e3, e4]

/-! ## Every call of `Get`: it returns, and what it returns -/

/-- The IDENTIFIER loop on any stream: it returns, consumes nothing it does
not hold, and gives either the token extended by identifier characters or the
error of a failed read. -/
theorem identLoop_result (U : Tables) (fuel : Nat) :
    ∀ (s : charStream) (token : List Char), s.remaining.length < fuel →
      ∃ r s1, identLoop U fuel s token = some (r, s1) ∧
        s1.remaining.length ≤ s.remaining.length ∧
        ((∃ run, r = (⟨token ++ run, TokenType.IDENTIFIER⟩, none) ∧
            ∀ x ∈ run, isIdentChar U x = true) ∨
          ∃ m, r = (⟨[], TokenType.INVALID⟩, some (GoError.readFailure m)) ∧
            ReadResult.fail m ∈ s.remaining) := by
  induction fuel with
  | zero => intro s token hf; omega
  | succ n ih =>
    intro s token hf
    rcases hrem : s.remaining with _ | ⟨x, r⟩
    · refine ⟨(⟨token, TokenType.IDENTIFIER⟩, none), s,
        by simp [identLoop, charStream.peek_nil hrem], by simp [hrem],
        Or.inl ⟨[], by simp, by simp⟩⟩
    · cases x with
      | fail m =>
        obtain ⟨s1, h1, h2⟩ := charStream.peek_fail hrem
        refine ⟨(⟨[], TokenType.INVALID⟩, some (GoError.readFailure m)), s1,
          by simp [identLoop, h1], by simp [h2],
          Or.inr ⟨m, rfl, by simp⟩⟩
      | rune c =>
        obtain ⟨s1, s2, h1, h2, h3, h4⟩ := charStream.peek_get_rune hrem
        by_cases hn : c = NUL
        · refine ⟨(⟨token, TokenType.IDENTIFIER⟩, none), s1, by simp [identLoop, h1, hn], by simp [h2],
            Or.inl ⟨[], by simp, by simp⟩⟩
        by_cases hi : isIdentChar U c = true
        · rw [hrem] at hf
          obtain ⟨r1, s3, h5, h6, h7⟩ := ih s2 (token ++ [c])
            (by rw [h4]; simpa using hf)
          have hi' := hi
          simp only [isIdentChar] at hi'
          refine ⟨r1, s3, by simp [identLoop, h1, hn, hi', h3, h5],
            by rw [h4] at h6; simp; omega, ?_⟩
          rcases h7 with ⟨run, e, hrun⟩ | ⟨m, e, hm⟩
          · refine Or.inl ⟨c :: run, by simp [e], ?_⟩
            intro x hx
            rcases List.mem_cons.mp hx with rfl | hx
            · exact hi
            · exact hrun x hx
          · exact Or.inr ⟨m, e, by rw [h4] at hm; exact List.mem_cons_of_mem _ hm⟩
        · have hi' : isIdentChar U c = false := by simpa using hi
          simp only [isIdentChar] at hi'
          refine ⟨(⟨token, TokenType.IDENTIFIER⟩, none), s1, by simp [identLoop, h1, hn, hi'],
            by simp [h2],
            Or.inl ⟨[], by simp, by simp⟩⟩

/-- The NUMBER loop on any stream: it returns, and gives either the token
extended by digits or the error of a failed read. -/
theorem numberLoop_result (U : Tables) (fuel : Nat) :
    ∀ (s : charStream) (token : List Char), s.remaining.length < fuel →
      ∃ r s1, numberLoop U fuel s token = some (r, s1) ∧
        s1.remaining.length ≤ s.remaining.length ∧
        ((∃ run, r = (⟨token ++ run, TokenType.NUMBER⟩, none) ∧
            ∀ x ∈ run, U.IsDigit x = true) ∨
          ∃ m, r = (⟨[], TokenType.INVALID⟩, some (GoError.readFailure m)) ∧
            ReadResult.fail m ∈ s.remaining) := by
  induction fuel with
  | zero => intro s token hf; omega
  | succ n ih =>
    intro s token hf
    rcases hrem : s.remaining with _ | ⟨x, r⟩
    · refine ⟨(⟨token, TokenType.NUMBER⟩, none), s,
        by simp [numberLoop, charStream.peek_nil hrem], by simp [hrem],
        Or.inl ⟨[], by simp, by simp⟩⟩
    · cases x with
      | fail m =>
        obtain ⟨s1, h1, h2⟩ := charStream.peek_fail hrem
        refine ⟨(⟨[], TokenType.INVALID⟩, some (GoError.readFailure m)), s1,
          by simp [numberLoop, h1], by simp [h2],
          Or.inr ⟨m, rfl, by simp⟩⟩
      | rune c =>
        obtain ⟨s1, s2, h1, h2, h3, h4⟩ := charStream.peek_get_rune hrem
        by_cases hn : c = NUL
        · refine ⟨(⟨token, TokenType.NUMBER⟩, none), s1, by simp [numberLoop, h1, hn], by simp [h2],
            Or.inl ⟨[], by simp, by simp⟩⟩
        by_cases hi : U.IsDigit c = true
        · rw [hrem] at hf
          obtain ⟨r1, s3, h5, h6, h7⟩ := ih s2 (token ++ [c])
            (by rw [h4]; simpa using hf)
          refine ⟨r1, s3, by simp [numberLoop, h1, hn, hi, h3, h5],
            by rw [h4] at h6; simp; omega, ?_⟩
          rcases h7 with ⟨run, e, hrun⟩ | ⟨m, e, hm⟩
          · refine Or.inl ⟨c :: run, by simp [e], ?_⟩
            intro x hx
            rcases List.mem_cons.mp hx with rfl | hx
            · exact hi
            · exact hrun x hx
          · exact Or.inr ⟨m, e, by rw [h4] at hm; exact List.mem_cons_of_mem _ hm⟩
        · have hi' : U.IsDigit c = false := by simpa using hi
          refine ⟨(⟨token, TokenType.NUMBER⟩, none), s1, by simp [numberLoop, h1, hn, hi'],
            by simp [h2],
            Or.inl ⟨[], by simp, by simp⟩⟩

/-- The string loop on any stream: it returns, and gives either the token
extended by some text and the closing quote, or the missing-quote error with
the token extended by some text, or the error of a failed read. -/
theorem quotedLoop_result (q : Char) (esc : Char → List Char) (msg : String)
    (kind : TokenType) (fuel : Nat) :
    ∀ (s : charStream) (token : List Char) (b : Bool), s.remaining.length < fuel →
      ∃ r s1, quotedLoop q esc msg kind fuel s token b = some (r, s1) ∧
        s1.remaining.length ≤ s.remaining.length ∧
        ((∃ w, r = (⟨token ++ w ++ [q], kind⟩, none)) ∨
          (∃ w, r = (⟨token ++ w, TokenType.INVALID⟩, some (GoError.errorsNew msg))) ∨
          ∃ m, r = (⟨[], TokenType.INVALID⟩, some (GoError.readFailure m)) ∧
            ReadResult.fail m ∈ s.remaining) := by
  induction fuel with
  | zero => intro s token b hf; omega
  | succ n ih =>
    intro s token b hf
    rcases hrem : s.remaining with _ | ⟨x, rr⟩
    · refine ⟨(⟨token, TokenType.INVALID⟩, some (GoError.errorsNew msg)), s,
        by simp [quotedLoop, charStream.peek_nil hrem], by simp [hrem],
        Or.inr (Or.inl ⟨[], by simp⟩)⟩
    · cases x with
      | fail m =>
        obtain ⟨s1, h1, h2⟩ := charStream.peek_fail hrem
        refine ⟨(⟨[], TokenType.INVALID⟩, some (GoError.readFailure m)), s1,
          by simp [quotedLoop, h1], by simp [h2], Or.inr (Or.inr ⟨m, rfl, by simp⟩)⟩
      | rune c =>
        obtain ⟨s1, s2, h1, h2, h3, h4⟩ := charStream.peek_get_rune hrem
        rw [hrem] at hf
        have hf2 : s2.remaining.length < n := by rw [h4]; simpa using hf
        have step : ∀ (tok2 : List Char) (b2 : Bool) (w0 : List Char), tok2 = token ++ w0 →
            ∃ r s3, quotedLoop q esc msg kind n s2 tok2 b2 = some (r, s3) ∧
              s3.remaining.length ≤ (ReadResult.rune c :: rr).length ∧
              ((∃ w, r = (⟨token ++ w ++ [q], kind⟩, none)) ∨
                (∃ w, r = (⟨token ++ w, TokenType.INVALID⟩,
                  some (GoError.errorsNew msg))) ∨
                ∃ m, r = (⟨[], TokenType.INVALID⟩, some (GoError.readFailure m)) ∧
                  ReadResult.fail m ∈ ReadResult.rune c :: rr) := by
          intro tok2 b2 w0 e
          obtain ⟨r1, s3, h5, h6, h7⟩ := ih s2 tok2 b2 hf2
          refine ⟨r1, s3, h5, by rw [h4] at h6; simp; omega, ?_⟩
          rcases h7 with ⟨w, e1⟩ | ⟨w, e1⟩ | ⟨m, e1, hm⟩
          · exact Or.inl ⟨w0 ++ w, by simp [e1, e]⟩
          · exact Or.inr (Or.inl ⟨w0 ++ w, by simp [e1, e]⟩)
          · exact Or.inr (Or.inr ⟨m, e1, by rw [h4] at hm; exact List.mem_cons_of_mem _ hm⟩)
        by_cases hn : c = NUL
        · exact ⟨(⟨token, TokenType.INVALID⟩, some (GoError.errorsNew msg)), s1,
            by simp [quotedLoop, h1, hn], by simp [h2], Or.inr (Or.inl ⟨[], by simp⟩)⟩
        cases b with
        | true =>
          obtain ⟨r1, s3, h5, h6, h7⟩ := step (token ++ esc c) false (esc c) rfl
          exact ⟨r1, s3, by simp [quotedLoop, h1, hn, h3, h5], h6, h7⟩
        | false =>
          by_cases hb : c = '\\'
          · obtain ⟨r1, s3, h5, h6, h7⟩ := step token true [] (by simp)
            refine ⟨r1, s3, ?_, h6, h7⟩
            subst hb
            simp [quotedLoop, h1, hn, h3, h5]
          by_cases hq : c = q
          · refine ⟨(⟨token ++ [c], kind⟩, none), s2, ?_, by rw [h4]; simp,
              Or.inl ⟨[], by simp [hq]⟩⟩
            subst hq
            simp [quotedLoop, h1, hn, hb, h3]
          · obtain ⟨r1, s3, h5, h6, h7⟩ := step (token ++ [c]) false [c] rfl
            exact ⟨r1, s3, by simp [quotedLoop, h1, hn, hb, hq, h3, h5], h6, h7⟩

/-- Any pending input is a run of white space followed by nothing, by a failed
read, or by a character that is not white space. -/
theorem whitespace_decompose (l : List ReadResult) :
    ∃ ws : List Char, (∀ x ∈ ws, unicode.IsSpace x = true) ∧
      (l = ofChars ws ∨ (∃ m r, l = ofChars ws ++ ReadResult.fail m :: r) ∨
        ∃ c r, unicode.IsSpace c = false ∧ l = ofChars ws ++ ReadResult.rune c :: r) := by
  induction l with
  | nil => exact ⟨[], by simp, Or.inl rfl⟩
  | cons x l ih =>
    cases x with
    | fail m => exact ⟨[], by simp, Or.inr (Or.inl ⟨m, l, rfl⟩)⟩
    | rune c =>
      by_cases hc : unicode.IsSpace c = true
      · obtain ⟨ws, hws, h⟩ := ih
        refine ⟨c :: ws, ?_, ?_⟩
        · intro x hx
          rcases List.mem_cons.mp hx with rfl | hx
          · exact hc
          · exact hws x hx
        · rcases h with h | ⟨m, r, h⟩ | ⟨d, r, hd, h⟩
          · exact Or.inl (by rw [h]; rfl)
          · exact Or.inr (Or.inl ⟨m, r, by rw [h]; rfl⟩)
          · exact Or.inr (Or.inr ⟨d, r, hd, by rw [h]; rfl⟩)
      · exact ⟨[], by simp, Or.inr (Or.inr ⟨c, l, by simpa using hc, rfl⟩)⟩

/-- The body of `Get` on any stream, with fuel for every pending result and
one more: it returns, it consumes nothing it does not hold, and what it
returns is one of the outcomes of `GetOutcome`. -/
theorem getFrom_outcome (U : Tables) (s : charStream) (fuel : Nat)
    (hf : s.remaining.length < fuel) :
    ∃ r s1, getFrom U fuel s = some (r, s1) ∧ s1.remaining.length ≤ s.remaining.length ∧
      GetOutcome U s.remaining r := by
  obtain ⟨ws, hws, h | ⟨m, r, h⟩ | ⟨c, r, hc, h⟩⟩ := whitespace_decompose s.remaining
  · obtain ⟨s1, h1, h2⟩ := skipWhitespace_eof ws s fuel hws h
      (by rw [h, ofChars_length] at hf; exact hf)
    exact ⟨_, s1, by simp [getFrom, h1], by simp [h2], GetOutcome.eof ws hws h⟩
  · have hl : ws.length + 1 ≤ fuel := by
      rw [h] at hf; simp [ofChars_length] at hf; omega
    obtain ⟨n, rfl⟩ : ∃ n, fuel = ws.length + (n + 1) := ⟨fuel - ws.length - 1, by omega⟩
    obtain ⟨s2, h1, h2⟩ := skipWhitespace_skip ws s (n + 1) _ hws h
    obtain ⟨s3, h3, h4⟩ := skipWhitespace_fail n h1
    refine ⟨_, s3, by simp [getFrom, h2, h3], by rw [h4, h]; simp; omega,
      GetOutcome.readFailure m (by rw [h]; simp)⟩
  · have hl : ws.length + r.length + 1 < fuel := by
      rw [h] at hf; simp [ofChars_length] at hf; omega
    obtain ⟨s1, s2, h1, h2, h3⟩ := getFrom_dispatch_tail U s fuel ws c r hws hc h (by omega)
    have hlen1 : s1.remaining.length ≤ s.remaining.length := by rw [h1, h]; simp
    have hlen2 : s2.remaining.length ≤ s.remaining.length := by rw [h2, h]; simp; omega
    have hmem : ∀ m, ReadResult.fail m ∈ s2.remaining → ReadResult.fail m ∈ s.remaining := by
      intro m hm
      rw [h2] at hm; rw [h]; simp [hm]
    rw [h3]
    by_cases c1 : (U.IsLetter c || decide (c = '_')) = true
    · rw [if_pos c1]
      obtain ⟨r1, s3, h4, h5, h6⟩ := identLoop_result U fuel s2 [c] (by rw [h2]; omega)
      refine ⟨r1, s3, h4, by omega, ?_⟩
      rcases h6 with ⟨run, e, hrun⟩ | ⟨m, e, hm⟩
      · rw [e]
        exact GetOutcome.identifier c run (by simpa using c1) hrun
      · rw [e]
        exact GetOutcome.readFailure m (hmem m hm)
    rw [if_neg c1]
    by_cases c2 : c = '.'
    · rw [if_pos c2, c2]
      exact ⟨_, s2, rfl, hlen2, GetOutcome.dot⟩
    rw [if_neg c2]
    by_cases c3 : c = '"'
    · rw [if_pos c3, c3, dqLoop_eq_quotedLoop]
      obtain ⟨r1, s3, h4, h5, h6⟩ := quotedLoop_result '"' dqEscape
        "missing closing double quote" TokenType.DQSTRING fuel s2 ['"'] false
        (by rw [h2]; omega)
      refine ⟨r1, s3, h4, by omega, ?_⟩
      rcases h6 with ⟨w, e⟩ | ⟨w, e⟩ | ⟨m, e, hm⟩
      · rw [e]; exact GetOutcome.dqstring w
      · rw [e]; exact GetOutcome.dqMissing w
      · rw [e]; exact GetOutcome.readFailure m (hmem m hm)
    rw [if_neg c3]
    by_cases c4 : c = '\''
    · rw [if_pos c4, c4, sqLoop_eq_quotedLoop]
      obtain ⟨r1, s3, h4, h5, h6⟩ := quotedLoop_result '\'' sqEscape
        "missing closing single quote" TokenType.SQSTRING fuel s2 ['\''] false
        (by rw [h2]; omega)
      refine ⟨r1, s3, h4, by omega, ?_⟩
      rcases h6 with ⟨w, e⟩ | ⟨w, e⟩ | ⟨m, e, hm⟩
      · rw [e]; exact GetOutcome.sqstring w
      · rw [e]; exact GetOutcome.sqMissing w
      · rw [e]; exact GetOutcome.readFailure m (hmem m hm)
    rw [if_neg c4]
    by_cases c5 : U.IsDigit c = true
    · rw [if_pos c5]
      obtain ⟨r1, s3, h4, h5, h6⟩ := numberLoop_result U fuel s2 [c] (by rw [h2]; omega)
      refine ⟨r1, s3, h4, by omega, ?_⟩
      rcases h6 with ⟨run, e, hrun⟩ | ⟨m, e, hm⟩
      · rw [e]
        exact GetOutcome.number c run c5 hrun
      · rw [e]
        exact GetOutcome.readFailure m (hmem m hm)
    rw [if_neg c5]
    by_cases c6 : c = NUL
    · rw [if_pos c6]
      subst c6
      exact ⟨_, s1, rfl, hlen1, GetOutcome.nul ws r hws h⟩
    rw [if_neg c6]
    refine ⟨_, s2, rfl, hlen2, GetOutcome.single c ?_⟩
    simp only [Bool.or_eq_true, decide_eq_true_eq, not_or, Bool.not_eq_true] at c1 c5
    simp [reachesSwitch, hc, c1.1, c1.2, c2, c3, c4, c5, c6]

/-- `Get` lifts what `getFrom` returns on the character stream. -/
theorem TokenStream.Get_of_getFrom (U : Tables) (t : TokenStream)
    {r : Token × Option GoError} {s1 : charStream}
    (h : getFrom U (t.chrStream.remaining.length + 1) t.chrStream = some (r, s1)) :
    t.Get U = some (r, { t with chrStream := s1 }) := by
  rw [TokenStream.Get_eq, h]; rfl

/-- `Get` returns on every stream, consumes nothing it does not hold, and what
it returns is one of the outcomes of `GetOutcome`. -/
theorem TokenStream.Get_total (U : Tables) (t : TokenStream) :
    ∃ r t1, t.Get U = some (r, t1) ∧
      t1.chrStream.remaining.length ≤ t.chrStream.remaining.length ∧
      GetOutcome U t.chrStream.remaining r := by
  obtain ⟨r, s1, h1, h2, h3⟩ := getFrom_outcome U t.chrStream
    (t.chrStream.remaining.length + 1) (by omega)
  exact ⟨r, { t with chrStream := s1 }, TokenStream.Get_of_getFrom U t h1, h2, h3⟩

/-! ## ASCII characters: every table agrees with the ASCII one -/

theorem isLetter_ascii (U : Tables) {c : Char} (h : c.toNat < 128) :
    U.IsLetter c = unicode.asciiTables.IsLetter c := by
  rw [U.letter_ascii c h]; rfl

theorem isDigit_ascii (U : Tables) {c : Char} (h : c.toNat < 128) :
    U.IsDigit c = unicode.asciiTables.IsDigit c := by
  rw [U.digit_latin1 c (by omega)]; rfl

theorem isIdentChar_ascii (U : Tables) {c : Char} (h : c.toNat < 128) :
    isIdentChar U c = isIdentChar unicode.asciiTables c := by
  simp only [isIdentChar, isLetter_ascii U h, isDigit_ascii U h]

theorem reachesSwitch_ascii (U : Tables) {c : Char} (h : c.toNat < 128) :
    reachesSwitch U c = reachesSwitch unicode.asciiTables c := by
  simp only [reachesSwitch, isLetter_ascii U h, isDigit_ascii U h]

theorem all_isIdentChar_ascii (U : Tables) (l : List Char)
    (h : ∀ x ∈ l, x.toNat < 128 ∧ isIdentChar unicode.asciiTables x = true) :
    ∀ x ∈ l, isIdentChar U x = true := by
  intro x hx
  rw [isIdentChar_ascii U (h x hx).1]
  exact (h x hx).2

theorem all_isDigit_ascii (U : Tables) (l : List Char)
    (h : ∀ x ∈ l, x.toNat < 128 ∧ unicode.asciiTables.IsDigit x = true) :
    ∀ x ∈ l, U.IsDigit x = true := by
  intro x hx
  rw [isDigit_ascii U (h x hx).1]
  exact (h x hx).2

theorem stopsAt_isDigit_ascii (U : Tables) (l : List Char)
    (h : ∀ x ∈ l.head?, x.toNat < 128 ∧ unicode.asciiTables.IsDigit x = false) :
    stopsAt U.IsDigit l := by
  intro x hx
  rw [isDigit_ascii U (h x hx).1]
  exact (h x hx).2

theorem stopsAt_isIdentChar_ascii (U : Tables) (l : List Char)
    (h : ∀ x ∈ l.head?, x.toNat < 128 ∧ isIdentChar unicode.asciiTables x = false) :
    stopsAt (isIdentChar U) l := by
  intro x hx
  rw [isIdentChar_ascii U (h x hx).1]
  exact (h x hx).2

/-! ## The driver loop -/

/-- One more token: an iteration of `parse` whose `Get` gives a token that is
not a COMMAND. -/
theorem parse_token (U : Tables) (n : Nat) {t t1 : TokenStream} {tok : Token}
    (h : t.Get U = some ((tok, none), t1)) (hk : tok.Kind ≠ TokenType.COMMAND) :
    parse U (n + 1) t = (parse U n t1).map (fun r => (tok :: r.1, r.2)) := by
  simp [parse, h, hk]

/-- The last iteration of `parse`: `Get` gives an error. -/
theorem parse_error (U : Tables) (n : Nat) {t t1 : TokenStream} {tok : Token} {e : GoError}
    (h : t.Get U = some ((tok, some e), t1)) :
    parse U (n + 1) t = some ([], some e) := by
  simp [parse, h]

/-- What `getFrom` returns and leaves, lifted to `Get`. -/
theorem TokenStream.Get_lift (U : Tables) (t : TokenStream) {r : Token × Option GoError}
    {rest : List ReadResult}
    (h : ∃ s1, getFrom U (t.chrStream.remaining.length + 1) t.chrStream = some (r, s1) ∧
      s1.remaining = rest) :
    ∃ t1, t.Get U = some (r, t1) ∧ t1.chrStream.remaining = rest := by
  obtain ⟨s1, h1, h2⟩ := h
  exact ⟨{ t with chrStream := s1 }, TokenStream.Get_of_getFrom U t h1, h2⟩

/-- `Get` on an identifier. -/
theorem Get_ident (U : Tables) (t : TokenStream) (ws : List Char) (c : Char)
    (tl rest : List Char) (hinput : t.chrStream.remaining = ofChars (ws ++ c :: tl ++ rest))
    (hws : ∀ x ∈ ws, unicode.IsSpace x = true)
    (hstart : U.IsLetter c = true ∨ c = '_')
    (hrun : ∀ x ∈ tl, isIdentChar U x = true)
    (hrest : stopsAt (isIdentChar U) rest) :
    ∃ t1, t.Get U = some ((⟨c :: tl, TokenType.IDENTIFIER⟩, none), t1) ∧
      t1.chrStream.remaining = ofChars rest :=
  TokenStream.Get_lift U t (getFrom_identifier U t.chrStream _ ws c tl rest hws hstart hrun
    hrest hinput (by rw [hinput, ofChars_length]; omega))

/-- `Get` on a number. -/
theorem Get_number (U : Tables) (t : TokenStream) (ws : List Char) (d : Char)
    (tl rest : List Char) (hinput : t.chrStream.remaining = ofChars (ws ++ d :: tl ++ rest))
    (hws : ∀ x ∈ ws, unicode.IsSpace x = true)
    (hd : U.IsDigit d = true) (htl : ∀ x ∈ tl, U.IsDigit x = true)
    (hrest : stopsAt U.IsDigit rest) :
    ∃ t1, t.Get U = some ((⟨d :: tl, TokenType.NUMBER⟩, none), t1) ∧
      t1.chrStream.remaining = ofChars rest :=
  TokenStream.Get_lift U t (getFrom_number U t.chrStream _ ws d tl rest hws hd htl hrest hinput
    (by rw [hinput, ofChars_length]; omega))

/-- `Get` on a dot. -/
theorem Get_dot (U : Tables) (t : TokenStream) (ws rest : List Char)
    (hinput : t.chrStream.remaining = ofChars (ws ++ '.' :: rest))
    (hws : ∀ x ∈ ws, unicode.IsSpace x = true) :
    ∃ t1, t.Get U = some ((⟨['.'], TokenType.DOT⟩, none), t1) ∧
      t1.chrStream.remaining = ofChars rest :=
  TokenStream.Get_lift U t (getFrom_dot U t.chrStream _ ws rest hws hinput
    (by rw [hinput, ofChars_length]; simp; omega))

/-- `Get` on white space up to the end of input. -/
theorem Get_eof (U : Tables) (t : TokenStream) (ws : List Char)
    (hinput : t.chrStream.remaining = ofChars ws)
    (hws : ∀ x ∈ ws, unicode.IsSpace x = true) :
    ∃ t1, t.Get U = some ((⟨[], TokenType.INVALID⟩, some GoError.EOF), t1) ∧
      t1.chrStream.remaining = ofChars [] :=
  TokenStream.Get_lift U t (getFrom_eof U t.chrStream _ ws hws hinput
    (by rw [hinput, ofChars_length]; omega))

/-- `Get` on a character that reaches the final `switch`. -/
theorem Get_single (U : Tables) (t : TokenStream) (ws : List Char) (c : Char) (rest : List Char)
    (hinput : t.chrStream.remaining = ofChars (ws ++ c :: rest))
    (hws : ∀ x ∈ ws, unicode.IsSpace x = true) (hc : reachesSwitch U c = true) :
    ∃ t1, t.Get U = some ((⟨[c], singleCharType c⟩, none), t1) ∧
      t1.chrStream.remaining = ofChars rest :=
  TokenStream.Get_lift U t (getFrom_single U t.chrStream _ ws c rest hws hc hinput
    (by rw [hinput, ofChars_length]; simp; omega))

/-- The input `1.5` gives NUMBER `1`, DOT, NUMBER `5`, then the end of input. -/
theorem parse_one_dot_five (U : Tables) (f : String) :
    parse U 4 (NewFileTokenStream f (ofChars "1.5".toList)) =
      some ([⟨"1".toList, TokenType.NUMBER⟩, ⟨".".toList, TokenType.DOT⟩,
        ⟨"5".toList, TokenType.NUMBER⟩], some GoError.EOF) := by
  obtain ⟨t1, g1, r1⟩ := Get_number U (NewFileTokenStream f (ofChars "1.5".toList)) [] '1' []
    ".5".toList rfl (by simp) (by rw [isDigit_ascii U (by decide)]; decide) (by simp)
    (stopsAt_isDigit_ascii U _ (by decide))
  obtain ⟨t2, g2, r2⟩ := Get_dot U t1 [] "5".toList r1 (by simp)
  obtain ⟨t3, g3, r3⟩ := Get_number U t2 [] '5' [] [] r2 (by simp)
    (by rw [isDigit_ascii U (by decide)]; decide) (by simp)
    (stopsAt_isDigit_ascii U _ (by decide))
  obtain ⟨t4, g4, -⟩ := Get_eof U t3 [] r3 (by simp)
  rw [parse_token U 3 g1 (by decide), parse_token U 2 g2 (by decide),
    parse_token U 1 g3 (by decide), parse_error U 0 g4]
  rfl

/-- The input `12ab` gives NUMBER `12`, IDENTIFIER `ab`, then the end of
input. -/
theorem parse_twelve_ab (U : Tables) (f : String) :
    parse U 3 (NewFileTokenStream f (ofChars "12ab".toList)) =
      some ([⟨"12".toList, TokenType.NUMBER⟩, ⟨"ab".toList, TokenType.IDENTIFIER⟩],
        some GoError.EOF) := by
  obtain ⟨t1, g1, r1⟩ := Get_number U (NewFileTokenStream f (ofChars "12ab".toList)) [] '1'
    "2".toList "ab".toList rfl (by simp) (by rw [isDigit_ascii U (by decide)]; decide)
    (all_isDigit_ascii U _ (by decide)) (stopsAt_isDigit_ascii U _ (by decide))
  obtain ⟨t2, g2, r2⟩ := Get_ident U t1 [] 'a' "b".toList [] r1 (by simp)
    (Or.inl (by rw [isLetter_ascii U (by decide)]; decide))
    (all_isIdentChar_ascii U _ (by decide)) (stopsAt_isIdentChar_ascii U _ (by decide))
  obtain ⟨t3, g3, -⟩ := Get_eof U t2 [] r2 (by simp)
  rw [parse_token U 2 g1 (by decide), parse_token U 1 g2 (by decide), parse_error U 0 g3]
  rfl

/-- The kinds the `switch` that ends `Get` can give. -/
theorem singleCharType_mem (c : Char) :
    singleCharType c ∈ [TokenType.OPAREN, TokenType.CPAREN, TokenType.OBRACKET,
      TokenType.CBRACKET, TokenType.OBRACE, TokenType.CBRACE, TokenType.COMMA,
      TokenType.SEMI, TokenType.COLON, TokenType.CARET, TokenType.PLUS, TokenType.MINUS,
      TokenType.MULT, TokenType.DIV, TokenType.PUNCT] := by
  unfold singleCharType
  by_cases h0 : c = '('
  · rw [if_pos h0]; decide
  rw [if_neg h0]
  by_cases h1 : c = ')'
  · rw [if_pos h1]; decide
  rw [if_neg h1]
  by_cases h2 : c = '['
  · rw [if_pos h2]; decide
  rw [if_neg h2]
  by_cases h3 : c = ']'
  · rw [if_pos h3]; decide
  rw [if_neg h3]
  by_cases h4 : c = '{'
  · rw [if_pos h4]; decide
  rw [if_neg h4]
  by_cases h5 : c = '}'
  · rw [if_pos h5]; decide
  rw [if_neg h5]
  by_cases h6 : c = ','
  · rw [if_pos h6]; decide
  rw [if_neg h6]
  by_cases h7 : c = ';'
  · rw [if_pos h7]; decide
  rw [if_neg h7]
  by_cases h8 : c = ':'
  · rw [if_pos h8]; decide
  rw [if_neg h8]
  by_cases h9 : c = '^'
  · rw [if_pos h9]; decide
  rw [if_neg h9]
  by_cases h10 : c = '+'
  · rw [if_pos h10]; decide
  rw [if_neg h10]
  by_cases h11 : c = '-'
  · rw [if_pos h11]; decide
  rw [if_neg h11]
  by_cases h12 : c = '*'
  · rw [if_pos h12]; decide
  rw [if_neg h12]
  by_cases h13 : c = '/'
  · rw [if_pos h13]; decide
  rw [if_neg h13]
  decide

/-- The `switch` that ends `Get` gives none of the kinds of the rules before
it. -/
theorem singleCharType_kind (c : Char) :
    singleCharType c ≠ TokenType.INVALID ∧ singleCharType c ≠ TokenType.IDENTIFIER ∧
      singleCharType c ≠ TokenType.NUMBER ∧ singleCharType c ≠ TokenType.DQSTRING ∧
      singleCharType c ≠ TokenType.SQSTRING ∧ singleCharType c ≠ TokenType.COMMAND ∧
      singleCharType c ≠ TokenType.DOT := by
  have key : ∀ k ∈ [TokenType.OPAREN, TokenType.CPAREN, TokenType.OBRACKET,
      TokenType.CBRACKET, TokenType.OBRACE, TokenType.CBRACE, TokenType.COMMA,
      TokenType.SEMI, TokenType.COLON, TokenType.CARET, TokenType.PLUS, TokenType.MINUS,
      TokenType.MULT, TokenType.DIV, TokenType.PUNCT],
      k ≠ TokenType.INVALID ∧ k ≠ TokenType.IDENTIFIER ∧ k ≠ TokenType.NUMBER ∧
        k ≠ TokenType.DQSTRING ∧ k ≠ TokenType.SQSTRING ∧ k ≠ TokenType.COMMAND ∧
        k ≠ TokenType.DOT := by decide
  exact key _ (singleCharType_mem c)

/-- What `Get` returns is an outcome of `GetOutcome` on the pending input. -/
theorem TokenStream.Get_outcome (U : Tables) (t : TokenStream) {r : Token × Option GoError}
    {t1 : TokenStream} (h : t.Get U = some (r, t1)) :
    GetOutcome U t.chrStream.remaining r := by
  obtain ⟨r2, t2, h1, -, h3⟩ := TokenStream.Get_total U t
  rw [h] at h1
  simp only [Option.some.injEq, Prod.mk.injEq] at h1
  obtain ⟨rfl, -⟩ := h1
  exact h3

/-- A token of kind NUMBER holds digits only. -/
theorem number_token_digits (U : Tables) (t : TokenStream) (tok : Token) (err : Option GoError)
    (t1 : TokenStream) (h : t.Get U = some ((tok, err), t1))
    (hk : tok.Kind = TokenType.NUMBER) : ∀ x ∈ tok.Value, U.IsDigit x = true := by
  have h3 := TokenStream.Get_outcome U t h
  cases h3 with
  | eof ws hws hinput => simp at hk
  | readFailure m hm => simp at hk
  | identifier c run hc hrun => simp at hk
  | dot => simp at hk
  | dqstring w => simp at hk
  | dqMissing w => simp at hk
  | sqstring w => simp at hk
  | sqMissing w => simp at hk
  | number d run hd hrun =>
    intro x hx
    rcases List.mem_cons.mp hx with rfl | hx
    · exact hd
    · exact hrun x hx
  | nul ws r hws hinput => simp at hk
  | single c hc => exact absurd hk (singleCharType_kind c).2.2.1

/-- C5. For every input `ws ++ digits ++ rest` in which `ws` is white space,
`digits` is a non-empty run of decimal digits of `unicode.IsDigit` and `rest`
is empty or starts with a character that is not a digit, `Get` returns
`(NUMBER, digits)` with a nil error and leaves exactly `rest`. No token of kind
NUMBER, on any input, holds a character that is not a digit: no letter, sign
or decimal point. The input `1.5` gives NUMBER `1`, DOT, NUMBER `5`, and `12ab`
gives NUMBER `12`, IDENTIFIER `ab`. -/
theorem Get_number_run (U : Tables) (t : TokenStream) (ws : List Char) (d : Char)
    (tl rest : List Char) (hinput : t.chrStream.remaining = ofChars (ws ++ d :: tl ++ rest))
    (hws : ∀ x ∈ ws, unicode.IsSpace x = true)
    (hd : U.IsDigit d = true) (htl : ∀ x ∈ tl, U.IsDigit x = true)
    (hrest : stopsAt U.IsDigit rest) :
    (∃ t1, t.Get U = some ((⟨d :: tl, TokenType.NUMBER⟩, none), t1) ∧
      t1.chrStream.remaining = ofChars rest) ∧
    (∀ (t0 : TokenStream) (tok : Token) (err : Option GoError) (t1 : TokenStream),
      t0.Get U = some ((tok, err), t1) → tok.Kind = TokenType.NUMBER →
      ∀ x ∈ tok.Value, U.IsDigit x = true ∧ U.IsLetter x = false ∧
        x ≠ '+' ∧ x ≠ '-' ∧ x ≠ '.') ∧
    (∀ f : String, parse U 4 (NewFileTokenStream f (ofChars "1.5".toList)) =
      some ([⟨"1".toList, TokenType.NUMBER⟩, ⟨".".toList, TokenType.DOT⟩,
        ⟨"5".toList, TokenType.NUMBER⟩], some GoError.EOF)) ∧
    (∀ f : String, parse U 3 (NewFileTokenStream f (ofChars "12ab".toList)) =
      some ([⟨"12".toList, TokenType.NUMBER⟩, ⟨"ab".toList, TokenType.IDENTIFIER⟩],
        some GoError.EOF)) := by
  refine ⟨Get_number U t ws d tl rest hinput hws hd htl hrest, ?_, parse_one_dot_five U,
    parse_twelve_ab U⟩
  intro t0 tok err t1 h hk x hx
  have hx' := number_token_digits U t0 tok err t1 h hk x hx
  exact ⟨hx', U.digit_not_letter x hx', digit_ne U hx' (by decide) (by decide),
    digit_ne U hx' (by decide) (by decide), digit_ne U hx' (by decide) (by decide)⟩

/-- C5 at the input ` 2024-11`: the token is NUMBER `2024` and `-11` is left. -/
theorem Get_number_run_witness :
    (∃ t1, (NewFileTokenStream "f" (ofChars " 2024-11".toList)).Get unicode.asciiTables =
        some ((⟨"2024".toList, TokenType.NUMBER⟩, none), t1) ∧
      t1.chrStream.remaining = ofChars "-11".toList) ∧
    (∀ (t0 : TokenStream) (tok : Token) (err : Option GoError) (t1 : TokenStream),
      t0.Get unicode.asciiTables = some ((tok, err), t1) → tok.Kind = TokenType.NUMBER →
      ∀ x ∈ tok.Value, unicode.asciiTables.IsDigit x = true ∧
        unicode.asciiTables.IsLetter x = false ∧ x ≠ '+' ∧ x ≠ '-' ∧ x ≠ '.') ∧
    (∀ f : String, parse unicode.asciiTables 4 (NewFileTokenStream f (ofChars "1.5".toList)) =
      some ([⟨"1".toList, TokenType.NUMBER⟩, ⟨".".toList, TokenType.DOT⟩,
        ⟨"5".toList, TokenType.NUMBER⟩], some GoError.EOF)) ∧
    (∀ f : String, parse unicode.asciiTables 3 (NewFileTokenStream f (ofChars "12ab".toList)) =
      some ([⟨"12".toList, TokenType.NUMBER⟩, ⟨"ab".toList, TokenType.IDENTIFIER⟩],
        some GoError.EOF)) :=
  Get_number_run unicode.asciiTables (NewFileTokenStream "f" (ofChars " 2024-11".toList))
    " ".toList '2' "024".toList "-11".toList (by decide) (by decide) (by decide) (by decide)
    (by decide)

/-- Every character of the dispatch table is ASCII, reaches the final `switch`,
and gets there the kind the table gives it, which is not PUNCT. -/
theorem dispatchTable_switch :
    ∀ p ∈ dispatchTable, p.1.toNat < 128 ∧ reachesSwitch unicode.asciiTables p.1 = true ∧
      singleCharType p.1 = p.2 ∧ p.2 ≠ TokenType.PUNCT := by
  decide

/-- Distinct characters of the dispatch table have distinct kinds. -/
theorem dispatchTable_injective :
    ∀ p ∈ dispatchTable, ∀ p' ∈ dispatchTable, p'.1 ≠ p.1 → p'.2 ≠ p.2 := by
  decide

/-- C6. For each of the fourteen characters `( ) [ ] { } , ; : ^ + - * /` of the
dispatch table and every continuation `rest`, `Get` on that character followed
by `rest` (after any white space) consumes exactly that character and returns,
with a nil error, the token whose text is that character and whose kind is the
one the table gives; that kind is never PUNCT, and distinct characters of the
table have distinct kinds. -/
theorem Get_dispatch_table (U : Tables) (t : TokenStream) (ws rest : List Char)
    (p : Char × TokenType) (hp : p ∈ dispatchTable)
    (hinput : t.chrStream.remaining = ofChars (ws ++ p.1 :: rest))
    (hws : ∀ x ∈ ws, unicode.IsSpace x = true) :
    (∃ t1, t.Get U = some ((⟨[p.1], p.2⟩, none), t1) ∧
      t1.chrStream.remaining = ofChars rest) ∧
    p.2 ≠ TokenType.PUNCT ∧
    (∀ p' ∈ dispatchTable, p'.1 ≠ p.1 → p'.2 ≠ p.2) ∧
    dispatchTable.length = 14 := by
  obtain ⟨h1, h2, h3, h4⟩ := dispatchTable_switch p hp
  refine ⟨?_, h4, dispatchTable_injective p hp, rfl⟩
  have h5 := Get_single U t ws p.1 rest hinput hws (by rw [reachesSwitch_ascii U h1]; exact h2)
  rw [h3] at h5
  exact h5

/-- C6 at the input `*/`: the token is MULT `*` and `/` is left. -/
theorem Get_dispatch_table_witness :
    (∃ t1, (NewFileTokenStream "f" (ofChars "*/".toList)).Get unicode.asciiTables =
        some ((⟨['*'], TokenType.MULT⟩, none), t1) ∧
      t1.chrStream.remaining = ofChars "/".toList) ∧
    TokenType.MULT ≠ TokenType.PUNCT ∧
    (∀ p' ∈ dispatchTable, p'.1 ≠ '*' → p'.2 ≠ TokenType.MULT) ∧
    dispatchTable.length = 14 :=
  Get_dispatch_table unicode.asciiTables (NewFileTokenStream "f" (ofChars "*/".toList))
    [] "/".toList ('*', TokenType.MULT) (by decide) (by decide) (by decide)

/-! ## Empty tokens, PUNCT, and the end of input -/

/-- White space in front does not change the first pending result after the
white space. -/
theorem firstAfterSpace_skip (ws : List Char) (l : List ReadResult)
    (hws : ∀ x ∈ ws, unicode.IsSpace x = true) :
    firstAfterSpace (ofChars ws ++ l) = firstAfterSpace l := by
  induction ws with
  | nil => rfl
  | cons w ws ih =>
    have hw : unicode.IsSpace w = true := hws w (List.mem_cons_self _ _)
    have e : ofChars (w :: ws) ++ l = ReadResult.rune w :: (ofChars ws ++ l) := rfl
    rw [e, firstAfterSpace, if_pos hw]
    exact ih (fun x hx => hws x (List.mem_cons_of_mem _ hx))

theorem firstAfterSpace_rune (ws : List Char) (c : Char) (r : List ReadResult)
    (hws : ∀ x ∈ ws, unicode.IsSpace x = true) (hc : unicode.IsSpace c = false) :
    firstAfterSpace (ofChars ws ++ ReadResult.rune c :: r) = some (ReadResult.rune c) := by
  rw [firstAfterSpace_skip ws _ hws, firstAfterSpace]
  simp [hc]

/-- When the first pending result after the white space is the character `c`,
the pending input is white space, `c`, and something. -/
theorem firstAfterSpace_eq_rune {l : List ReadResult} {c : Char}
    (h : firstAfterSpace l = some (ReadResult.rune c)) :
    ∃ ws r, (∀ x ∈ ws, unicode.IsSpace x = true) ∧ unicode.IsSpace c = false ∧
      l = ofChars ws ++ ReadResult.rune c :: r := by
  obtain ⟨ws, hws, e | ⟨m, r, e⟩ | ⟨d, r, hd, e⟩⟩ := whitespace_decompose l
  · rw [e] at h
    have := firstAfterSpace_skip ws [] hws
    simp only [List.append_nil] at this
    rw [this] at h
    simp [firstAfterSpace] at h
  · rw [e, firstAfterSpace_skip ws _ hws] at h
    simp [firstAfterSpace] at h
  · rw [e, firstAfterSpace_rune ws d r hws hd] at h
    simp only [Option.some.injEq, ReadResult.rune.injEq] at h
    subst h
    exact ⟨ws, r, hws, hd, e⟩

/-- A character that reaches the final `switch` and is not in the dispatch
table gets the kind PUNCT. -/
theorem singleCharType_punct {c : Char} (h : c ∉ dispatchTable.map Prod.fst) :
    singleCharType c = TokenType.PUNCT := by
  simp only [dispatchTable, List.map_cons, List.map_nil, List.mem_cons, List.mem_singleton,
    List.not_mem_nil, or_false, not_or] at h
  obtain ⟨h0, h1, h2, h3, h4, h5, h6, h7, h8, h9, h10, h11, h12, h13⟩ := h
  unfold singleCharType
  rw [if_neg h0, if_neg h1, if_neg h2, if_neg h3, if_neg h4, if_neg h5, if_neg h6, if_neg h7,
    if_neg h8, if_neg h9, if_neg h10, if_neg h11, if_neg h12, if_neg h13]

/-- A character that reaches the final `switch` is consumed alone, whatever
follows it. -/
theorem getFrom_single_tail (U : Tables) (s : charStream) (fuel : Nat) (ws : List Char)
    (c : Char) (r : List ReadResult) (hws : ∀ x ∈ ws, unicode.IsSpace x = true)
    (hc : reachesSwitch U c = true)
    (h : s.remaining = ofChars ws ++ ReadResult.rune c :: r) (hf : ws.length < fuel) :
    ∃ s1, getFrom U fuel s = some ((⟨[c], singleCharType c⟩, none), s1) ∧
      s1.remaining = r := by
  simp only [reachesSwitch, Bool.and_eq_true, Bool.not_eq_true', decide_eq_true_eq] at hc
  obtain ⟨⟨⟨⟨⟨⟨⟨c1, c2⟩, c3⟩, c4⟩, c5⟩, c6⟩, c7⟩, c8⟩ := hc
  obtain ⟨s1, s2, -, h2, h3⟩ := getFrom_dispatch_tail U s fuel ws c r hws c1 h hf
  refine ⟨s2, ?_, h2⟩
  rw [h3]
  simp [c2, c3, c4, c5, c6, c7, c8]

/-- The input made of the single character `NUL`: `Get` returns the INVALID
token with empty text and a nil error, and the `NUL` stays pending. -/
theorem Get_nul_empty_token :
    (NewFileTokenStream "f" (ofChars [NUL])).Get unicode.asciiTables =
      some ((⟨[], TokenType.INVALID⟩, none),
        { fileName := "f", chrStream := { reader := [], lookaheadBuf := [NUL] },
          lookaheadBuf := [] }) := by
  decide

/-- C7, amended. For every input whose first character after the white space
is not `NUL`: whenever `Get` returns with a nil error the token has non-empty
text and a kind other than INVALID; a token with empty text has kind INVALID
and comes with a non-nil error; and a character that no rule before the final
`switch` handles and that is not in the dispatch table gives the kind PUNCT
with that single character as text. -/
theorem Get_nil_error_token (U : Tables) (t : TokenStream) (tok : Token)
    (err : Option GoError) (t1 : TokenStream) (h : t.Get U = some ((tok, err), t1))
    (hfirst : firstAfterSpace t.chrStream.remaining ≠ some (ReadResult.rune NUL)) :
    (err = none → tok.Value ≠ [] ∧ tok.Kind ≠ TokenType.INVALID) ∧
    (tok.Value = [] → tok.Kind = TokenType.INVALID ∧ err ≠ none) ∧
    (∀ c, firstAfterSpace t.chrStream.remaining = some (ReadResult.rune c) →
      reachesSwitch U c = true → c ∉ dispatchTable.map Prod.fst →
      tok = ⟨[c], TokenType.PUNCT⟩ ∧ err = none) := by
  have h3 := TokenStream.Get_outcome U t h
  refine ⟨?_, ?_, ?_⟩
  · intro he
    cases h3 with
    | eof ws hws hinput => simp at he
    | readFailure m hm => simp at he
    | identifier c run hc hrun => simp
    | dot => simp
    | dqstring w => simp
    | dqMissing w => simp at he
    | sqstring w => simp
    | sqMissing w => simp at he
    | number d run hd hrun => simp
    | nul ws r hws hinput =>
      exact absurd (by rw [hinput]; exact firstAfterSpace_rune ws NUL r hws (by decide)) hfirst
    | single c hc => exact ⟨by simp, (singleCharType_kind c).1⟩
  · intro hv
    cases h3 with
    | eof ws hws hinput => simp
    | readFailure m hm => simp
    | identifier c run hc hrun => simp at hv
    | dot => simp at hv
    | dqstring w => simp at hv
    | dqMissing w => simp at hv
    | sqstring w => simp at hv
    | sqMissing w => simp at hv
    | number d run hd hrun => simp at hv
    | nul ws r hws hinput =>
      exact absurd (by rw [hinput]; exact firstAfterSpace_rune ws NUL r hws (by decide)) hfirst
    | single c hc => simp at hv
  · intro c hc hsw htab
    obtain ⟨ws, r, hws, -, e⟩ := firstAfterSpace_eq_rune hc
    obtain ⟨s1, h4, -⟩ := getFrom_single_tail U t.chrStream
      (t.chrStream.remaining.length + 1) ws c r hws hsw e
      (by rw [e]; simp [ofChars_length]; omega)
    rw [TokenStream.Get_of_getFrom U t h4, singleCharType_punct htab] at h
    simp only [Option.some.injEq, Prod.mk.injEq] at h
    exact ⟨h.1.1.symm, h.1.2.symm⟩

/-- C7, amended, at the input ` @x`: the token is PUNCT `@`. -/
theorem Get_nil_error_token_witness :
    (none = (none : Option GoError) →
      (⟨['@'], TokenType.PUNCT⟩ : Token).Value ≠ [] ∧
        (⟨['@'], TokenType.PUNCT⟩ : Token).Kind ≠ TokenType.INVALID) ∧
    ((⟨['@'], TokenType.PUNCT⟩ : Token).Value = [] →
      (⟨['@'], TokenType.PUNCT⟩ : Token).Kind = TokenType.INVALID ∧
        (none : Option GoError) ≠ none) ∧
    (∀ c, firstAfterSpace (NewFileTokenStream "f" (ofChars " @x".toList)).chrStream.remaining =
        some (ReadResult.rune c) →
      reachesSwitch unicode.asciiTables c = true → c ∉ dispatchTable.map Prod.fst →
      (⟨['@'], TokenType.PUNCT⟩ : Token) = ⟨[c], TokenType.PUNCT⟩ ∧
        (none : Option GoError) = none) :=
  Get_nil_error_token unicode.asciiTables (NewFileTokenStream "f" (ofChars " @x".toList))
    ⟨['@'], TokenType.PUNCT⟩ none
    { fileName := "f", chrStream := { reader := [ReadResult.rune 'x'], lookaheadBuf := [] },
      lookaheadBuf := [] }
    (by decide) (by decide)

/-! ## The white space of `Get` -/

theorem char_eq_iff_toNat (c d : Char) : c = d ↔ c.toNat = d.toNat := by
  constructor
  · intro h; rw [h]
  · intro h
    apply Char.ext
    apply UInt32.ext
    exact h

/-- The white space of `unicode.IsSpace` is that of `isSpace` and the code
points of `extraWhiteSpace`. -/
theorem IsSpace_iff (c : Char) :
    unicode.IsSpace c = true ↔ (isSpace c = true ∨ c.toNat ∈ extraWhiteSpace) := by
  have e1 : (' ' : Char).toNat = 32 := rfl
  have e2 : ('\t' : Char).toNat = 9 := rfl
  have e3 : (Char.ofNat 11).toNat = 11 := rfl
  have e4 : (Char.ofNat 12).toNat = 12 := rfl
  have e5 : ('\r' : Char).toNat = 13 := rfl
  have e6 : ('\n' : Char).toNat = 10 := rfl
  simp only [unicode.IsSpace, isSpace, extraWhiteSpace, char_eq_iff_toNat, e1, e2, e3, e4, e5,
    e6, Bool.or_eq_true, Bool.and_eq_true, decide_eq_true_eq, List.mem_cons,
    List.mem_singleton, List.not_mem_nil, or_false]
  by_cases h : c.toNat ≤ 255
  · simp only [h, if_true, Bool.or_eq_true, Bool.and_eq_true, decide_eq_true_eq]
    omega
  · simp only [h, if_false, Bool.or_eq_true, Bool.and_eq_true, decide_eq_true_eq]
    omega

/-- The input made of U+00A0 and `x`: `Get` discards U+00A0 as white space and
returns IDENTIFIER `x`, while `isSpace` does not hold of U+00A0. -/
theorem Get_skips_nbsp :
    (NewFileTokenStream "f" (ofChars [Char.ofNat 0xA0, 'x'])).Get unicode.asciiTables =
      some ((⟨['x'], TokenType.IDENTIFIER⟩, none),
        { fileName := "f", chrStream := { reader := [], lookaheadBuf := [] },
          lookaheadBuf := [] }) ∧
    skipWhitespace 3 (newCharStream (ofChars [Char.ofNat 0xA0, 'x'])) =
      some (('x', none), { reader := [], lookaheadBuf := ['x'] }) ∧
    unicode.IsSpace (Char.ofNat 0xA0) = true ∧ isSpace (Char.ofNat 0xA0) = false := by
  decide

/-- C8, amended. For every character `c`, the whitespace loop of `Get` discards
`c` if and only if `unicode.IsSpace c`, that is if and only if `c` is one of
space, tab, vertical tab, form feed, carriage return, newline (the characters
of `isSpace`) or one of U+0085, U+00A0, U+1680, U+2000 to U+200A, U+2028,
U+2029, U+202F, U+205F, U+3000; the predicate agrees with `isSpace` on every
other character, and every other character stops the skip and stays
pending. -/
theorem skipWhitespace_discards_iff (s : charStream) (c : Char) (r : List ReadResult) (n : Nat)
    (h : s.remaining = ReadResult.rune c :: r) :
    (unicode.IsSpace c = true →
      ∃ s2, s2.remaining = r ∧ skipWhitespace (n + 1) s = skipWhitespace n s2) ∧
    (unicode.IsSpace c = false →
      ∃ s1, s1.remaining = ReadResult.rune c :: r ∧
        skipWhitespace (n + 1) s = some ((c, none), s1)) ∧
    (unicode.IsSpace c = true ↔ (isSpace c = true ∨ c.toNat ∈ extraWhiteSpace)) ∧
    (c.toNat ∉ extraWhiteSpace → unicode.IsSpace c = isSpace c) := by
  refine ⟨?_, ?_, IsSpace_iff c, ?_⟩
  · intro hc
    obtain ⟨s2, h1, h2⟩ := skipWhitespace_skip [c] s n r (by simpa using hc) h
    exact ⟨s2, h1, by simpa [Nat.add_comm] using h2⟩
  · intro hc
    obtain ⟨s1, h1, h2⟩ := skipWhitespace_stop n hc h
    exact ⟨s1, h2, h1⟩
  · intro hx
    have h1 := IsSpace_iff c
    cases h2 : isSpace c with
    | true => exact h1.mpr (Or.inl h2)
    | false =>
      cases h3 : unicode.IsSpace c with
      | false => rfl
      | true =>
        rcases h1.mp h3 with h4 | h4
        · rw [h2] at h4; exact absurd h4 (by decide)
        · exact absurd h4 hx

/-- C8, amended, at the stream that holds a tab and `x`. -/
theorem skipWhitespace_discards_iff_witness :
    (unicode.IsSpace '\t' = true →
      ∃ s2, s2.remaining = [ReadResult.rune 'x'] ∧
        skipWhitespace (1 + 1) (newCharStream (ofChars ['\t', 'x'])) = skipWhitespace 1 s2) ∧
    (unicode.IsSpace '\t' = false →
      ∃ s1, s1.remaining = ReadResult.rune '\t' :: [ReadResult.rune 'x'] ∧
        skipWhitespace (1 + 1) (newCharStream (ofChars ['\t', 'x'])) =
          some (('\t', none), s1)) ∧
    (unicode.IsSpace '\t' = true ↔
      (isSpace '\t' = true ∨ ('\t' : Char).toNat ∈ extraWhiteSpace)) ∧
    (('\t' : Char).toNat ∉ extraWhiteSpace → unicode.IsSpace '\t' = isSpace '\t') :=
  skipWhitespace_discards_iff (newCharStream (ofChars ['\t', 'x'])) '\t'
    [ReadResult.rune 'x'] 1 (by decide)

/-! ## The end of input, and the dot -/

theorem ofChars_injective {a b : List Char} (h : ofChars a = ofChars b) : a = b := by
  induction a generalizing b with
  | nil =>
    cases b with
    | nil => rfl
    | cons y b => simp [ofChars] at h
  | cons x a ih =>
    cases b with
    | nil => simp [ofChars] at h
    | cons y b =>
      simp only [ofChars, List.map_cons, List.cons.injEq, ReadResult.rune.injEq] at h
      rw [h.1, ih h.2]

/-- `Get` reports `io.EOF` only from its whitespace loop, on an input that is
white space up to its end. -/
theorem Get_eof_only_whitespace (U : Tables) (t : TokenStream) (cs : List Char)
    (hinput : t.chrStream.remaining = ofChars cs) {tok : Token} {t1 : TokenStream}
    (h : t.Get U = some ((tok, some GoError.EOF), t1)) :
    ∀ x ∈ cs, unicode.IsSpace x = true := by
  have h3 := TokenStream.Get_outcome U t h
  cases h3 with
  | eof ws hws hinput2 =>
    rw [hinput] at hinput2
    rw [ofChars_injective hinput2]
    exact hws

/-- No call of `Get` returns a token of kind COMMAND. -/
theorem Get_kind_ne_command (U : Tables) (t : TokenStream) (r : Token × Option GoError)
    (t1 : TokenStream) (h : t.Get U = some (r, t1)) : r.1.Kind ≠ TokenType.COMMAND := by
  have h3 := TokenStream.Get_outcome U t h
  cases h3 with
  | eof ws hws hinput => simp
  | readFailure m hm => simp
  | identifier c run hc hrun => simp
  | dot => simp
  | dqstring w => simp
  | dqMissing w => simp
  | sqstring w => simp
  | sqMissing w => simp
  | number d run hd hrun => simp
  | nul ws r hws hinput => simp
  | single c hc => exact (singleCharType_kind c).2.2.2.2.2.1

/-- C9. For every input made of characters only, `Get` returns, and it returns
`io.EOF` if and only if the input is white space up to its end (the empty
input included), the token being then INVALID with empty text; so the end of
input is never reported once a lexeme has started, and an identifier or a
number that runs up to the end of input is returned as a token first, the end
of input being reported by the next call. -/
theorem Get_eof_iff (U : Tables) (t : TokenStream) (cs : List Char)
    (hinput : t.chrStream.remaining = ofChars cs) :
    (∃ r t1, t.Get U = some (r, t1) ∧
      (r.2 = some GoError.EOF ↔ ∀ x ∈ cs, unicode.IsSpace x = true) ∧
      (r.2 = some GoError.EOF → r.1 = ⟨[], TokenType.INVALID⟩)) ∧
    (∀ (ws : List Char) (c : Char) (tl : List Char), cs = ws ++ c :: tl →
      (∀ x ∈ ws, unicode.IsSpace x = true) → (U.IsLetter c = true ∨ c = '_') →
      (∀ x ∈ tl, isIdentChar U x = true) →
      ∃ t1 t2, t.Get U = some ((⟨c :: tl, TokenType.IDENTIFIER⟩, none), t1) ∧
        t1.Get U = some ((⟨[], TokenType.INVALID⟩, some GoError.EOF), t2)) ∧
    (∀ (ws : List Char) (d : Char) (tl : List Char), cs = ws ++ d :: tl →
      (∀ x ∈ ws, unicode.IsSpace x = true) → U.IsDigit d = true →
      (∀ x ∈ tl, U.IsDigit x = true) →
      ∃ t1 t2, t.Get U = some ((⟨d :: tl, TokenType.NUMBER⟩, none), t1) ∧
        t1.Get U = some ((⟨[], TokenType.INVALID⟩, some GoError.EOF), t2)) := by
  refine ⟨?_, ?_, ?_⟩
  · obtain ⟨⟨tok, err⟩, t1, h1, -, -⟩ := TokenStream.Get_total U t
    have back : (∀ x ∈ cs, unicode.IsSpace x = true) →
        (tok, err) = (⟨[], TokenType.INVALID⟩, some GoError.EOF) := by
      intro hall
      obtain ⟨t2, h2, -⟩ := Get_eof U t cs hinput hall
      rw [h1] at h2
      simp only [Option.some.injEq, Prod.mk.injEq] at h2
      rw [h2.1.1, h2.1.2]
    have forth : err = some GoError.EOF → ∀ x ∈ cs, unicode.IsSpace x = true := by
      intro he
      subst he
      exact Get_eof_only_whitespace U t cs hinput h1
    refine ⟨(tok, err), t1, h1, ⟨forth, ?_⟩, ?_⟩
    · intro hall
      have := back hall
      simp only [Prod.mk.injEq] at this
      exact this.2
    · intro he
      have := back (forth he)
      simp only [Prod.mk.injEq] at this
      exact this.1
  · intro ws c tl hcs hws hc htl
    obtain ⟨t1, h1, h2⟩ := Get_ident U t ws c tl [] (by rw [hinput, hcs]; simp) hws hc htl
      (by intro x hx; simp at hx)
    obtain ⟨t2, h3, -⟩ := Get_eof U t1 [] h2 (by simp)
    exact ⟨t1, t2, h1, h3⟩
  · intro ws d tl hcs hws hd htl
    obtain ⟨t1, h1, h2⟩ := Get_number U t ws d tl [] (by rw [hinput, hcs]; simp) hws hd htl
      (by intro x hx; simp at hx)
    obtain ⟨t2, h3, -⟩ := Get_eof U t1 [] h2 (by simp)
    exact ⟨t1, t2, h1, h3⟩

/-- C9 at the input ` ab`: not white space only, so no `io.EOF`; the identifier
comes first and `io.EOF` with the next call. -/
theorem Get_eof_iff_witness :
    (∃ r t1, (NewFileTokenStream "f" (ofChars " ab".toList)).Get unicode.asciiTables =
        some (r, t1) ∧
      (r.2 = some GoError.EOF ↔ ∀ x ∈ " ab".toList, unicode.IsSpace x = true) ∧
      (r.2 = some GoError.EOF → r.1 = ⟨[], TokenType.INVALID⟩)) ∧
    (∀ (ws : List Char) (c : Char) (tl : List Char), " ab".toList = ws ++ c :: tl →
      (∀ x ∈ ws, unicode.IsSpace x = true) →
      (unicode.asciiTables.IsLetter c = true ∨ c = '_') →
      (∀ x ∈ tl, isIdentChar unicode.asciiTables x = true) →
      ∃ t1 t2, (NewFileTokenStream "f" (ofChars " ab".toList)).Get unicode.asciiTables =
          some ((⟨c :: tl, TokenType.IDENTIFIER⟩, none), t1) ∧
        t1.Get unicode.asciiTables =
          some ((⟨[], TokenType.INVALID⟩, some GoError.EOF), t2)) ∧
    (∀ (ws : List Char) (d : Char) (tl : List Char), " ab".toList = ws ++ d :: tl →
      (∀ x ∈ ws, unicode.IsSpace x = true) → unicode.asciiTables.IsDigit d = true →
      (∀ x ∈ tl, unicode.asciiTables.IsDigit x = true) →
      ∃ t1 t2, (NewFileTokenStream "f" (ofChars " ab".toList)).Get unicode.asciiTables =
          some ((⟨d :: tl, TokenType.NUMBER⟩, none), t1) ∧
        t1.Get unicode.asciiTables =
          some ((⟨[], TokenType.INVALID⟩, some GoError.EOF), t2)) :=
  Get_eof_iff unicode.asciiTables (NewFileTokenStream "f" (ofChars " ab".toList))
    " ab".toList (by decide)

/-- The input `.exit` gives DOT, IDENTIFIER `exit`, then the end of input. -/
theorem parse_dot_exit (U : Tables) (f : String) :
    parse U 3 (NewFileTokenStream f (ofChars ".exit".toList)) =
      some ([⟨".".toList, TokenType.DOT⟩, ⟨"exit".toList, TokenType.IDENTIFIER⟩],
        some GoError.EOF) := by
  obtain ⟨t1, g1, r1⟩ := Get_dot U (NewFileTokenStream f (ofChars ".exit".toList)) []
    "exit".toList rfl (by simp)
  obtain ⟨t2, g2, r2⟩ := Get_ident U t1 [] 'e' "xit".toList [] r1 (by simp)
    (Or.inl (by rw [isLetter_ascii U (by decide)]; decide))
    (all_isIdentChar_ascii U _ (by decide)) (stopsAt_isIdentChar_ascii U _ (by decide))
  obtain ⟨t3, g3, -⟩ := Get_eof U t2 [] r2 (by simp)
  rw [parse_token U 2 g1 (by decide), parse_token U 1 g2 (by decide), parse_error U 0 g3]
  rfl

/-- The input `.quit` gives DOT, IDENTIFIER `quit`, then the end of input. -/
theorem parse_dot_quit (U : Tables) (f : String) :
    parse U 3 (NewFileTokenStream f (ofChars ".quit".toList)) =
      some ([⟨".".toList, TokenType.DOT⟩, ⟨"quit".toList, TokenType.IDENTIFIER⟩],
        some GoError.EOF) := by
  obtain ⟨t1, g1, r1⟩ := Get_dot U (NewFileTokenStream f (ofChars ".quit".toList)) []
    "quit".toList rfl (by simp)
  obtain ⟨t2, g2, r2⟩ := Get_ident U t1 [] 'q' "uit".toList [] r1 (by simp)
    (Or.inl (by rw [isLetter_ascii U (by decide)]; decide))
    (all_isIdentChar_ascii U _ (by decide)) (stopsAt_isIdentChar_ascii U _ (by decide))
  obtain ⟨t3, g3, -⟩ := Get_eof U t2 [] r2 (by simp)
  rw [parse_token U 2 g1 (by decide), parse_token U 1 g2 (by decide), parse_error U 0 g3]
  rfl

/-- C10. For every input whose first character after white space is a dot,
whatever follows it, `Get` returns the token `(DOT, ".")` with a nil error and
consumes only the dot, leaving everything after it; no call of `Get`, on any
input, returns a token of kind COMMAND, and `.exit` and `.quit` give DOT
followed by an IDENTIFIER. -/
theorem Get_dot_never_command (U : Tables) (t : TokenStream) (ws rest : List Char)
    (hinput : t.chrStream.remaining = ofChars (ws ++ '.' :: rest))
    (hws : ∀ x ∈ ws, unicode.IsSpace x = true) :
    (∃ t1, t.Get U = some ((⟨['.'], TokenType.DOT⟩, none), t1) ∧
      t1.chrStream.remaining = ofChars rest) ∧
    (∀ (t0 : TokenStream) (r : Token × Option GoError) (t1 : TokenStream),
      t0.Get U = some (r, t1) → r.1.Kind ≠ TokenType.COMMAND) ∧
    (∀ f : String, parse U 3 (NewFileTokenStream f (ofChars ".exit".toList)) =
      some ([⟨".".toList, TokenType.DOT⟩, ⟨"exit".toList, TokenType.IDENTIFIER⟩],
        some GoError.EOF)) ∧
    (∀ f : String, parse U 3 (NewFileTokenStream f (ofChars ".quit".toList)) =
      some ([⟨".".toList, TokenType.DOT⟩, ⟨"quit".toList, TokenType.IDENTIFIER⟩],
        some GoError.EOF)) :=
  ⟨Get_dot U t ws rest hinput hws, Get_kind_ne_command U, parse_dot_exit U, parse_dot_quit U⟩

/-- C10 at the input ` .5e`: the token is DOT and `5e` is left. -/
theorem Get_dot_never_command_witness :
    (∃ t1, (NewFileTokenStream "f" (ofChars " .5e".toList)).Get unicode.asciiTables =
        some ((⟨['.'], TokenType.DOT⟩, none), t1) ∧
      t1.chrStream.remaining = ofChars "5e".toList) ∧
    (∀ (t0 : TokenStream) (r : Token × Option GoError) (t1 : TokenStream),
      t0.Get unicode.asciiTables = some (r, t1) → r.1.Kind ≠ TokenType.COMMAND) ∧
    (∀ f : String,
      parse unicode.asciiTables 3 (NewFileTokenStream f (ofChars ".exit".toList)) =
        some ([⟨".".toList, TokenType.DOT⟩, ⟨"exit".toList, TokenType.IDENTIFIER⟩],
          some GoError.EOF)) ∧
    (∀ f : String,
      parse unicode.asciiTables 3 (NewFileTokenStream f (ofChars ".quit".toList)) =
        some ([⟨".".toList, TokenType.DOT⟩, ⟨"quit".toList, TokenType.IDENTIFIER⟩],
          some GoError.EOF)) :=
  Get_dot_never_command unicode.asciiTables (NewFileTokenStream "f" (ofChars " .5e".toList))
    " ".toList "5e".toList (by decide) (by decide)

/-! ## The lookahead of the character stream -/

/-- On a stream with nothing pending, `get` returns `rune(0)` with a nil error
and changes nothing. -/
theorem charStream.get_nil {s : charStream} (h : s.remaining = []) :
    s.get = ((NUL, none), s) := by
  obtain ⟨rd, la⟩ := s
  simp only [charStream.remaining, List.append_eq_nil, List.map_eq_nil_iff] at h
  obtain ⟨h1, h2⟩ := h
  subst h1 h2
  simp [charStream.get, ReadRune]

/-- A second `peek` changes nothing and returns what the first returned, when
the first returned a character or `io.EOF`. -/
theorem charStream.peek_peek (s : charStream)
    (h : s.peek.1.2 = none ∨ s.peek.1.2 = some GoError.EOF) :
    s.peek.2.peek = (s.peek.1, s.peek.2) ∧ s.peek.2.remaining = s.remaining := by
  rcases hrem : s.remaining with _ | ⟨x, r⟩
  · rw [charStream.peek_nil hrem]
    simp only
    rw [charStream.peek_nil hrem]
    exact ⟨rfl, hrem⟩
  · cases x with
    | rune c =>
      obtain ⟨s1, h1, h2⟩ := charStream.peek_rune hrem
      rw [h1]
      simp only
      have h3 : s1.lookaheadBuf ≠ [] ∨ s1 = s := by
        obtain ⟨rd, la⟩ := s
        cases la with
        | cons a tl =>
          right
          simp [charStream.peek] at h1
          exact h1.2.symm
        | nil =>
          left
          simp only [charStream.remaining, List.map_nil, List.nil_append] at hrem
          subst hrem
          simp [charStream.peek, ReadRune] at h1
          rw [← h1]
          simp
      refine ⟨?_, h2⟩
      rcases h3 with h3 | h3
      · obtain ⟨rd1, la1⟩ := s1
        cases la1 with
        | nil => exact absurd rfl h3
        | cons a tl =>
          simp only [charStream.remaining, List.map_cons, List.cons_append, List.cons.injEq,
            ReadResult.rune.injEq] at h2
          simp [charStream.peek, h2.1]
      · rw [h3, h1]
        rw [h3]
    | fail m =>
      obtain ⟨s1, h1, -⟩ := charStream.peek_fail hrem
      rw [h1] at h
      simp at h

/-- Further calls of `peek` leave the stream as the first call left it, when
the first returned a character or `io.EOF`. -/
theorem peekN_peek (s : charStream) (h : s.peek.1.2 = none ∨ s.peek.1.2 = some GoError.EOF)
    (n : Nat) : peekN n s.peek.2 = s.peek.2 := by
  induction n with
  | zero => rfl
  | succ n ih =>
    have h2 : s.peek.2.peek.2 = s.peek.2 := by rw [(charStream.peek_peek s h).1]
    have h3 : peekN (n + 1) s.peek.2 = peekN n s.peek.2.peek.2 := rfl
    rw [h3, h2, ih]

/-- When `peek` returns the character `c`, that character is the next pending
result. -/
theorem charStream.peek_eq_rune {s : charStream} {c : Char} (h : s.peek.1 = (c, none)) :
    ∃ r, s.remaining = ReadResult.rune c :: r := by
  rcases hrem : s.remaining with _ | ⟨x, r⟩
  · rw [charStream.peek_nil hrem] at h
    simp at h
  · cases x with
    | rune d =>
      obtain ⟨s1, h1, -⟩ := charStream.peek_rune hrem
      rw [h1] at h
      simp only [Prod.mk.injEq, and_true] at h
      exact ⟨r, by rw [h]⟩
    | fail m =>
      obtain ⟨s1, h1, -⟩ := charStream.peek_fail hrem
      rw [h1] at h
      simp at h

/-- A `get` after a `peek` that returned a character does what a `get` alone
does. -/
theorem charStream.peek_get {s : charStream} {c : Char} (h : s.peek.1 = (c, none)) :
    s.peek.2.get = s.get := by
  obtain ⟨rd, la⟩ := s
  cases la with
  | cons a tl => simp [charStream.peek]
  | nil =>
    cases rd with
    | nil => simp [charStream.peek, ReadRune] at h
    | cons x r =>
      cases x with
      | rune d => simp [charStream.peek, charStream.get, ReadRune]
      | fail m => simp [charStream.peek, ReadRune] at h

/-- A fresh stream whose source fails on its first read and then delivers `x`:
the first `peek` returns the error of the read and buffers nothing, so the
second `peek` reads the source again and returns `x`. -/
theorem peek_after_read_failure :
    (newCharStream [ReadResult.fail "e1", ReadResult.rune 'x']).peek.1 =
      (NUL, some (GoError.readFailure "e1")) ∧
    (newCharStream [ReadResult.fail "e1", ReadResult.rune 'x']).peek.2.peek.1 = ('x', none) ∧
    (newCharStream [ReadResult.fail "e1", ReadResult.rune 'x']).peek.2.peek.1 ≠
      (newCharStream [ReadResult.fail "e1", ReadResult.rune 'x']).peek.1 ∧
    (newCharStream [ReadResult.fail "e1", ReadResult.rune 'x']).peek.2.peek.2 ≠
      (newCharStream [ReadResult.fail "e1", ReadResult.rune 'x']).peek.2 := by
  decide

/-- C12, amended. For every stream state on which `peek` returns a character
or end of input, a second `peek` with no `get` in between returns the same
result and leaves the stream state unchanged; the stream is not advanced, and
a `get` issued after any number of calls of `peek` returns the character that
was peeked, as a `get` with no `peek` before it does. -/
theorem peek_idempotent (s : charStream)
    (h : s.peek.1.2 = none ∨ s.peek.1.2 = some GoError.EOF) :
    s.peek.2.peek.1 = s.peek.1 ∧ s.peek.2.peek.2 = s.peek.2 ∧
    s.peek.2.remaining = s.remaining ∧
    (∀ (n : Nat) (c : Char), s.peek.1 = (c, none) →
      (peekN (n + 1) s).get.1 = (c, none) ∧ (peekN (n + 1) s).get = s.get) := by
  obtain ⟨h1, h2⟩ := charStream.peek_peek s h
  refine ⟨by rw [h1], by rw [h1], h2, ?_⟩
  intro n c hc
  have e : peekN (n + 1) s = peekN n s.peek.2 := rfl
  rw [e, peekN_peek s h n, charStream.peek_get hc]
  obtain ⟨r, hr⟩ := charStream.peek_eq_rune hc
  obtain ⟨s3, g5, -⟩ := charStream.get_rune hr
  exact ⟨by rw [g5], rfl⟩

/-- C12, amended, at a fresh stream over `ab`, on which `peek` returns `a`. -/
theorem peek_idempotent_witness :
    (newCharStream (ofChars ['a', 'b'])).peek.2.peek.1 =
      (newCharStream (ofChars ['a', 'b'])).peek.1 ∧
    (newCharStream (ofChars ['a', 'b'])).peek.2.peek.2 =
      (newCharStream (ofChars ['a', 'b'])).peek.2 ∧
    (newCharStream (ofChars ['a', 'b'])).peek.2.remaining =
      (newCharStream (ofChars ['a', 'b'])).remaining ∧
    (∀ (n : Nat) (c : Char), (newCharStream (ofChars ['a', 'b'])).peek.1 = (c, none) →
      (peekN (n + 1) (newCharStream (ofChars ['a', 'b']))).get.1 = (c, none) ∧
        (peekN (n + 1) (newCharStream (ofChars ['a', 'b']))).get =
          (newCharStream (ofChars ['a', 'b'])).get) :=
  peek_idempotent (newCharStream (ofChars ['a', 'b'])) (by decide)

/-! ## In-order delivery -/

/-- The calls `ops` on a stream that holds the characters `cs`, with no more
`get` calls than characters: the `get` calls return the first characters of
`cs`, in order, and the stream holds the others. -/
theorem runOps_ofChars (ops : List StreamOp) :
    ∀ (s : charStream) (cs : List Char), s.remaining = ofChars cs →
      countGets ops ≤ cs.length →
      (runOps ops s).1 = (cs.take (countGets ops)).map (fun c => (c, none)) ∧
        (runOps ops s).2.remaining = ofChars (cs.drop (countGets ops)) := by
  induction ops with
  | nil => intro s cs h _; simp [runOps, countGets, h]
  | cons op ops ih =>
    intro s cs h hn
    cases op with
    | peek =>
      have hc : countGets (StreamOp.peek :: ops) = countGets ops := by
        simp [countGets]
      rw [hc] at hn ⊢
      have hp : s.peek.2.remaining = ofChars cs := by
        cases cs with
        | nil => rw [charStream.peek_nil h]; exact h
        | cons c tl =>
          obtain ⟨s1, h1, h2⟩ := charStream.peek_rune (h.trans (ofChars_cons c tl))
          rw [h1]; exact h2
      exact ih s.peek.2 cs hp hn
    | get =>
      have hc : countGets (StreamOp.get :: ops) = countGets ops + 1 := by
        simp [countGets]
      rw [hc] at hn ⊢
      cases cs with
      | nil => simp at hn
      | cons c tl =>
        obtain ⟨s1, h1, h2⟩ := charStream.get_rune (h.trans (ofChars_cons c tl))
        obtain ⟨i1, i2⟩ := ih s1 tl h2 (by simpa using hn)
        simp only [runOps, h1, List.take_succ_cons, List.map_cons, List.drop_succ_cons]
        exact ⟨by rw [i1], i2⟩

/-- C13. For every source character sequence `cs` and every interleaving `ops`
of `peek` and `get` calls with no more `get` calls than the source has
characters, the successive `get` calls return exactly the first characters of
`cs`, in order, each once and with a nil error, and what the stream still has
to deliver is the rest of `cs`: every `get`, preceded by a `peek` or not,
consumes exactly one character of the source. -/
theorem get_in_order (cs : List Char) (ops : List StreamOp)
    (hn : countGets ops ≤ cs.length) :
    (runOps ops (newCharStream (ofChars cs))).1 =
      (cs.take (countGets ops)).map (fun c => (c, none)) ∧
    (runOps ops (newCharStream (ofChars cs))).2.remaining =
      ofChars (cs.drop (countGets ops)) :=
  runOps_ofChars ops (newCharStream (ofChars cs)) cs (by simp [newCharStream, charStream.remaining])
    hn

/-- C13 at the source `abc` with the calls peek, get, get, peek, peek, get. -/
theorem get_in_order_witness :
    (runOps [StreamOp.peek, StreamOp.get, StreamOp.get, StreamOp.peek, StreamOp.peek,
        StreamOp.get] (newCharStream (ofChars ['a', 'b', 'c']))).1 =
      (['a', 'b', 'c'].take (countGets [StreamOp.peek, StreamOp.get, StreamOp.get,
        StreamOp.peek, StreamOp.peek, StreamOp.get])).map (fun c => (c, none)) ∧
    (runOps [StreamOp.peek, StreamOp.get, StreamOp.get, StreamOp.peek, StreamOp.peek,
        StreamOp.get] (newCharStream (ofChars ['a', 'b', 'c']))).2.remaining =
      ofChars (['a', 'b', 'c'].drop (countGets [StreamOp.peek, StreamOp.get, StreamOp.get,
        StreamOp.peek, StreamOp.peek, StreamOp.get])) :=
  get_in_order ['a', 'b', 'c'] [StreamOp.peek, StreamOp.get, StreamOp.get, StreamOp.peek,
    StreamOp.peek, StreamOp.get] (by decide)

/-! ## `get` at the end of input -/

/-- A fresh stream over an empty source: `get` returns `rune(0)` with a nil
error, while `peek` reports `io.EOF`. -/
theorem get_at_end_of_input :
    (newCharStream []).get = ((NUL, none), newCharStream []) ∧
    (newCharStream []).peek = ((NUL, some GoError.EOF), newCharStream []) := by
  decide

/-- `get` never reports `io.EOF`: its error is nil or that of a failed
read. -/
theorem charStream.get_error (s : charStream) :
    s.get.1.2 = none ∨ ∃ m, s.get.1.2 = some (GoError.readFailure m) := by
  obtain ⟨rd, la⟩ := s
  cases la with
  | cons a tl => left; simp [charStream.get]
  | nil =>
    cases rd with
    | nil => left; simp [charStream.get, ReadRune]
    | cons x r =>
      cases x with
      | rune d => left; simp [charStream.get, ReadRune]
      | fail m => right; exact ⟨m, by simp [charStream.get, ReadRune]⟩

/-- C14, amended. On a stream whose lookahead buffer is empty and whose
source is exhausted, `get` returns `rune(0)` with a nil error and leaves the
stream as it is, whereas `peek` in the same state reports end of input; `get`
never reports end of input, in any state, its only errors being read failures
other than end of input. -/
theorem get_exhausted (s : charStream) (hla : s.lookaheadBuf = []) (hrd : s.reader = []) :
    s.get = ((NUL, none), s) ∧ s.peek = ((NUL, some GoError.EOF), s) ∧
    (∀ s0 : charStream, s0.get.1.2 ≠ some GoError.EOF) := by
  have h : s.remaining = [] := by simp [charStream.remaining, hla, hrd]
  refine ⟨charStream.get_nil h, charStream.peek_nil h, ?_⟩
  intro s0
  rcases charStream.get_error s0 with h1 | ⟨m, h1⟩ <;> rw [h1] <;> simp

/-- C14, amended, at a fresh stream over an empty source. -/
theorem get_exhausted_witness :
    (newCharStream []).get = ((NUL, none), newCharStream []) ∧
    (newCharStream []).peek = ((NUL, some GoError.EOF), newCharStream []) ∧
    (∀ s0 : charStream, s0.get.1.2 ≠ some GoError.EOF) :=
  get_exhausted (newCharStream []) rfl rfl

/-! ## What every call preserves -/

section preserves

variable (P : charStream → Prop) (hpeek : ∀ s, P s → P s.peek.2) (hget : ∀ s, P s → P s.get.2)

include hpeek hget

/-- A property of the stream that `peek` and `get` preserve is preserved by the
whitespace loop. -/
theorem skipWhitespace_preserves (fuel : Nat) :
    ∀ (s : charStream) (r : Char × Option GoError) (s1 : charStream), P s →
      skipWhitespace fuel s = some (r, s1) → P s1 := by
  induction fuel with
  | zero => intro s r s1 _ h; simp [skipWhitespace] at h
  | succ n ih =>
    intro s r s1 hP h
    have hP' := hpeek s hP
    rcases hp : s.peek with ⟨⟨chr, err⟩, s'⟩
    rw [hp] at hP'
    simp only [skipWhitespace, hp] at h
    cases err with
    | some e =>
      simp only [Option.some.injEq, Prod.mk.injEq] at h
      rw [← h.2]; exact hP'
    | none =>
      simp only at h
      split_ifs at h
      · exact ih _ _ _ (hget s' hP') h
      · simp only [Option.some.injEq, Prod.mk.injEq] at h
        rw [← h.2]; exact hP'

/-- A property of the stream that `peek` and `get` preserve is preserved by the
IDENTIFIER loop. -/
theorem identLoop_preserves (U : Tables) (fuel : Nat) :
    ∀ (s : charStream) (token : List Char) (r : Token × Option GoError) (s1 : charStream),
      P s → identLoop U fuel s token = some (r, s1) → P s1 := by
  induction fuel with
  | zero => intro s token r s1 _ h; simp [identLoop] at h
  | succ n ih =>
    intro s token r s1 hP h
    have hP' := hpeek s hP
    rcases hp : s.peek with ⟨⟨chr, err⟩, s'⟩
    rw [hp] at hP'
    simp only [identLoop, hp] at h
    cases err with
    | some e =>
      simp only at h
      split_ifs at h <;>
        (simp only [Option.some.injEq, Prod.mk.injEq] at h; rw [← h.2]; exact hP')
    | none =>
      simp only at h
      split_ifs at h
      · simp only [Option.some.injEq, Prod.mk.injEq] at h
        rw [← h.2]; exact hP'
      · exact ih _ _ _ _ (hget s' hP') h
      · simp only [Option.some.injEq, Prod.mk.injEq] at h
        rw [← h.2]; exact hP'

/-- A property of the stream that `peek` and `get` preserve is preserved by the
NUMBER loop. -/
theorem numberLoop_preserves (U : Tables) (fuel : Nat) :
    ∀ (s : charStream) (token : List Char) (r : Token × Option GoError) (s1 : charStream),
      P s → numberLoop U fuel s token = some (r, s1) → P s1 := by
  induction fuel with
  | zero => intro s token r s1 _ h; simp [numberLoop] at h
  | succ n ih =>
    intro s token r s1 hP h
    have hP' := hpeek s hP
    rcases hp : s.peek with ⟨⟨chr, err⟩, s'⟩
    rw [hp] at hP'
    simp only [numberLoop, hp] at h
    cases err with
    | some e =>
      simp only at h
      split_ifs at h <;>
        (simp only [Option.some.injEq, Prod.mk.injEq] at h; rw [← h.2]; exact hP')
    | none =>
      simp only at h
      split_ifs at h
      · simp only [Option.some.injEq, Prod.mk.injEq] at h
        rw [← h.2]; exact hP'
      · simp only [Option.some.injEq, Prod.mk.injEq] at h
        rw [← h.2]; exact hP'
      · exact ih _ _ _ _ (hget s' hP') h

/-- A property of the stream that `peek` and `get` preserve is preserved by the
string loop. -/
theorem quotedLoop_preserves (q : Char) (esc : Char → List Char) (msg : String)
    (kind : TokenType) (fuel : Nat) :
    ∀ (s : charStream) (token : List Char) (b : Bool) (r : Token × Option GoError)
      (s1 : charStream), P s → quotedLoop q esc msg kind fuel s token b = some (r, s1) →
      P s1 := by
  induction fuel with
  | zero => intro s token b r s1 _ h; simp [quotedLoop] at h
  | succ n ih =>
    intro s token b r s1 hP h
    have hP' := hpeek s hP
    rcases hp : s.peek with ⟨⟨chr, err⟩, s'⟩
    rw [hp] at hP'
    simp only [quotedLoop, hp] at h
    cases err with
    | some e =>
      simp only at h
      split_ifs at h <;>
        (simp only [Option.some.injEq, Prod.mk.injEq] at h; rw [← h.2]; exact hP')
    | none =>
      simp only at h
      split_ifs at h
      · simp only [Option.some.injEq, Prod.mk.injEq] at h
        rw [← h.2]; exact hP'
      · exact ih _ _ _ _ _ (hget s' hP') h
      · exact ih _ _ _ _ _ (hget s' hP') h
      · simp only [Option.some.injEq, Prod.mk.injEq] at h
        rw [← h.2]; exact hget s' hP'
      · exact ih _ _ _ _ _ (hget s' hP') h

/-- A property of the stream that `peek` and `get` preserve is preserved by the
body of `Get`. -/
theorem getFrom_preserves (U : Tables) (fuel : Nat) (s : charStream)
    (r : Token × Option GoError) (s1 : charStream) (hP : P s)
    (h : getFrom U fuel s = some (r, s1)) : P s1 := by
  unfold getFrom at h
  rcases hs : skipWhitespace fuel s with _ | ⟨⟨chr, err⟩, s'⟩
  · rw [hs] at h; simp at h
  · have hP' := skipWhitespace_preserves P hpeek hget fuel s _ s' hP hs
    rw [hs] at h
    cases err with
    | some e =>
      simp only [Option.some.injEq, Prod.mk.injEq] at h
      rw [← h.2]; exact hP'
    | none =>
      simp only at h
      have hg := hget s' hP'
      by_cases c1 : (U.IsLetter chr || decide (chr = '_')) = true
      · rw [if_pos c1] at h
        exact identLoop_preserves P hpeek hget U fuel _ _ _ _ hg h
      rw [if_neg c1] at h
      by_cases c2 : chr = '.'
      · rw [if_pos c2] at h
        simp only [Option.some.injEq, Prod.mk.injEq] at h
        rw [← h.2]; exact hg
      rw [if_neg c2] at h
      by_cases c3 : chr = '"'
      · rw [if_pos c3, dqLoop_eq_quotedLoop] at h
        exact quotedLoop_preserves P hpeek hget _ _ _ _ fuel _ _ _ _ _ hg h
      rw [if_neg c3] at h
      by_cases c4 : chr = '\''
      · rw [if_pos c4, sqLoop_eq_quotedLoop] at h
        exact quotedLoop_preserves P hpeek hget _ _ _ _ fuel _ _ _ _ _ hg h
      rw [if_neg c4] at h
      by_cases c5 : U.IsDigit chr = true
      · rw [if_pos c5] at h
        exact numberLoop_preserves P hpeek hget U fuel _ _ _ _ hg h
      rw [if_neg c5] at h
      by_cases c6 : chr = NUL
      · rw [if_pos c6] at h
        simp only [Option.some.injEq, Prod.mk.injEq] at h
        rw [← h.2]; exact hP'
      rw [if_neg c6] at h
      simp only [Option.some.injEq, Prod.mk.injEq] at h
      rw [← h.2]; exact hg

/-- A property of the character stream that `peek` and `get` preserve is
preserved by `Get`. -/
theorem TokenStream.Get_preserves (U : Tables) (t : TokenStream)
    (r : Token × Option GoError) (t1 : TokenStream) (hP : P t.chrStream)
    (h : t.Get U = some (r, t1)) : P t1.chrStream := by
  rw [TokenStream.Get_eq] at h
  rcases hg : getFrom U (t.chrStream.remaining.length + 1) t.chrStream with _ | ⟨r2, s2⟩
  · rw [hg] at h; simp at h
  · rw [hg] at h
    simp only [Option.map_some', Option.some.injEq, Prod.mk.injEq] at h
    rw [← h.2]
    exact getFrom_preserves P hpeek hget U _ _ _ _ hP hg

/-- A property of the character stream that `peek` and `get` preserve is
preserved by any number of calls of `Get`. -/
theorem GetN_preserves (U : Tables) (n : Nat) :
    ∀ (t t1 : TokenStream), P t.chrStream → GetN U n t = some t1 → P t1.chrStream := by
  induction n with
  | zero =>
    intro t t1 hP h
    simp only [GetN, Option.some.injEq] at h
    rw [← h]; exact hP
  | succ n ih =>
    intro t t1 hP h
    rcases hg : t.Get U with _ | ⟨r, t2⟩
    · simp [GetN, hg] at h
    · simp only [GetN, hg] at h
      exact ih t2 t1 (TokenStream.Get_preserves P hpeek hget U t r t2 hP hg) h

end preserves

/-! ## The lookahead invariant -/

/-- `peek` keeps the lookahead buffer within one character. -/
theorem charStream.peek_lookahead (s : charStream) (h : s.lookaheadBuf.length ≤ 1) :
    s.peek.2.lookaheadBuf.length ≤ 1 := by
  obtain ⟨rd, la⟩ := s
  cases la with
  | cons a tl => simpa [charStream.peek] using h
  | nil =>
    cases rd with
    | nil => simp [charStream.peek, ReadRune]
    | cons x r =>
      cases x with
      | rune d => simp [charStream.peek, ReadRune]
      | fail m => simp [charStream.peek, ReadRune]

/-- `get` empties a lookahead buffer of at most one character. -/
theorem charStream.get_lookahead (s : charStream) (h : s.lookaheadBuf.length ≤ 1) :
    s.get.2.lookaheadBuf = [] := by
  obtain ⟨rd, la⟩ := s
  cases la with
  | cons a tl =>
    have htl : tl = [] := by simpa using h
    simp [charStream.get, htl]
  | nil =>
    cases rd with
    | nil => simp [charStream.get, ReadRune]
    | cons x r =>
      cases x with
      | rune d => simp [charStream.get, ReadRune]
      | fail m => simp [charStream.get, ReadRune]

theorem runOps_append (a b : List StreamOp) :
    ∀ s : charStream, (runOps (a ++ b) s).2 = (runOps b (runOps a s).2).2 := by
  induction a with
  | nil => intro s; rfl
  | cons op a ih =>
    intro s
    cases op with
    | peek => exact ih s.peek.2
    | get => exact ih s.get.2

/-- Any sequence of calls keeps the lookahead buffer within one character. -/
theorem runOps_lookahead (ops : List StreamOp) :
    ∀ s : charStream, s.lookaheadBuf.length ≤ 1 →
      (runOps ops s).2.lookaheadBuf.length ≤ 1 := by
  induction ops with
  | nil => intro s h; exact h
  | cons op ops ih =>
    intro s h
    cases op with
    | peek => exact ih s.peek.2 (charStream.peek_lookahead s h)
    | get => exact ih s.get.2 (by rw [charStream.get_lookahead s h]; simp)

/-- C17. Starting from `newCharStream`, after any sequence of `peek` and `get`
calls the lookahead buffer holds at most one character, and right after a
`get` it is empty; hence after any number of calls of `Get` on a fresh token
stream the lookahead buffer holds at most one character. -/
theorem lookahead_invariant (rd : List ReadResult) (ops : List StreamOp) (U : Tables)
    (f : String) (n : Nat) :
    (runOps ops (newCharStream rd)).2.lookaheadBuf.length ≤ 1 ∧
    (runOps (ops ++ [StreamOp.get]) (newCharStream rd)).2.lookaheadBuf = [] ∧
    (∀ t : TokenStream, GetN U n (NewFileTokenStream f rd) = some t →
      t.chrStream.lookaheadBuf.length ≤ 1) := by
  have h0 : (newCharStream rd).lookaheadBuf.length ≤ 1 := by simp [newCharStream]
  refine ⟨runOps_lookahead ops _ h0, ?_, ?_⟩
  · rw [runOps_append]
    exact charStream.get_lookahead _ (runOps_lookahead ops _ h0)
  · intro t h
    exact GetN_preserves (fun s => s.lookaheadBuf.length ≤ 1) charStream.peek_lookahead
      (fun s hs => by
        show s.get.2.lookaheadBuf.length ≤ 1
        rw [charStream.get_lookahead s hs]; simp) U n
      (NewFileTokenStream f rd) t h0 h

/-! ## Lexemes cut short: read failures and `NUL` -/

/-- The IDENTIFIER loop consumes a run of identifier characters, one per
iteration, whatever follows the run. -/
theorem identLoop_scan (U : Tables) (run : List Char) :
    ∀ (s : charStream) (fuel : Nat) (token : List Char) (tail : List ReadResult),
      (∀ x ∈ run, isIdentChar U x = true) → s.remaining = ofChars run ++ tail →
      ∃ s2, s2.remaining = tail ∧
        identLoop U (run.length + fuel) s token = identLoop U fuel s2 (token ++ run) := by
  induction run with
  | nil =>
    intro s fuel token tail _ h
    exact ⟨s, by simpa [ofChars] using h, by simp⟩
  | cons c run ih =>
    intro s fuel token tail hrun h
    have h' : s.remaining = ReadResult.rune c :: (ofChars run ++ tail) := h
    obtain ⟨s1, s2, h1, -, h3, h4⟩ := charStream.peek_get_rune h'
    have hc : isIdentChar U c = true := hrun c (List.mem_cons_self _ _)
    have hc0 : c ≠ NUL := isIdentChar_ne_NUL U hc
    obtain ⟨s3, h5, h6⟩ := ih s2 fuel (token ++ [c]) tail
      (fun x hx => hrun x (List.mem_cons_of_mem _ hx)) h4
    refine ⟨s3, h5, ?_⟩
    have e : (c :: run).length + fuel = (run.length + fuel) + 1 := by simp; omega
    simp only [isIdentChar] at hc
    rw [e, List.append_cons, ← h6]
    simp [identLoop, h1, hc0, hc, h3]

/-- The NUMBER loop consumes a run of digits, one per iteration, whatever
follows the run. -/
theorem numberLoop_scan (U : Tables) (run : List Char) :
    ∀ (s : charStream) (fuel : Nat) (token : List Char) (tail : List ReadResult),
      (∀ x ∈ run, U.IsDigit x = true) → s.remaining = ofChars run ++ tail →
      ∃ s2, s2.remaining = tail ∧
        numberLoop U (run.length + fuel) s token = numberLoop U fuel s2 (token ++ run) := by
  induction run with
  | nil =>
    intro s fuel token tail _ h
    exact ⟨s, by simpa [ofChars] using h, by simp⟩
  | cons c run ih =>
    intro s fuel token tail hrun h
    have h' : s.remaining = ReadResult.rune c :: (ofChars run ++ tail) := h
    obtain ⟨s1, s2, h1, -, h3, h4⟩ := charStream.peek_get_rune h'
    have hc : U.IsDigit c = true := hrun c (List.mem_cons_self _ _)
    have hc0 : c ≠ NUL := by
      rintro rfl
      rw [not_digit_NUL U] at hc
      exact absurd hc (by decide)
    obtain ⟨s3, h5, h6⟩ := ih s2 fuel (token ++ [c]) tail
      (fun x hx => hrun x (List.mem_cons_of_mem _ hx)) h4
    refine ⟨s3, h5, ?_⟩
    have e : (c :: run).length + fuel = (run.length + fuel) + 1 := by simp; omega
    rw [e, List.append_cons, ← h6]
    simp [numberLoop, h1, hc0, hc, h3]

/-- The string loop consumes a text without `NUL` and without unescaped quote,
one character per iteration, whatever follows the text; it ends inside an
escape when the text ends with a backslash that starts one. -/
theorem quotedLoop_scan (q : Char) (esc : Char → List Char) (msg : String) (kind : TokenType)
    (tail : List ReadResult) :
    ∀ (pre : List Char) (s : charStream) (fuel : Nat) (token : List Char),
      NUL ∉ pre → noClosingQuote q pre = true → s.remaining = ofChars pre ++ tail →
      ∃ s2 b, s2.remaining = tail ∧
        quotedLoop q esc msg kind (pre.length + fuel) s token false =
          quotedLoop q esc msg kind fuel s2 (token ++ resolve esc pre) b := by
  intro pre
  induction pre using list_induction_two with
  | h0 =>
    intro s fuel token _ _ h
    exact ⟨s, false, by simpa [ofChars] using h, by simp [resolve]⟩
  | h1 c body ih1 ih2 =>
    intro s fuel token hn hw h
    have h' : s.remaining = ReadResult.rune c :: (ofChars body ++ tail) := h
    have hc0 : c ≠ NUL := fun e => hn (by rw [e]; simp)
    have hn1 : NUL ∉ body := fun e => hn (List.mem_cons_of_mem _ e)
    have e : (c :: body).length + fuel = (body.length + fuel) + 1 := by simp; omega
    by_cases hc : c = '\\'
    · subst hc
      obtain ⟨s2, h1, h2⟩ := quotedLoop_backslash q esc msg kind (body.length + fuel) token h'
      cases body with
      | nil =>
        refine ⟨s2, true, by simpa [ofChars] using h2, ?_⟩
        rw [e, h1, resolve_lone]
        simp
      | cons d tl =>
        have hd0 : d ≠ NUL := fun e => hn1 (by rw [e]; simp)
        have hn2 : NUL ∉ tl := fun e => hn1 (List.mem_cons_of_mem _ e)
        rw [noClosingQuote_escape] at hw
        have h2' : s2.remaining = ReadResult.rune d :: (ofChars tl ++ tail) := h2
        have e2 : (d :: tl).length + fuel = (tl.length + fuel) + 1 := by simp; omega
        rw [e2] at h1
        obtain ⟨s3, h3, h4⟩ := quotedLoop_escaped q esc msg kind (tl.length + fuel) token hd0 h2'
        obtain ⟨s4, b, h5, h6⟩ := ih2 d tl rfl s3 fuel (token ++ esc d) hn2 hw h4
        refine ⟨s4, b, h5, ?_⟩
        rw [e, e2, h1, h3, h6, resolve_escape]
        simp
    · rw [noClosingQuote_plain q hc] at hw
      simp only [Bool.and_eq_true, decide_eq_true_eq] at hw
      obtain ⟨s2, h1, h2⟩ := quotedLoop_plain q esc msg kind (body.length + fuel) token hc0 hc
        hw.1 h'
      obtain ⟨s3, b, h3, h4⟩ := ih1 s2 fuel (token ++ [c]) hn1 hw.2 h2
      refine ⟨s3, b, h3, ?_⟩
      rw [e, h1, h4, resolve_plain esc hc]
      simp

/-- On a failed read the IDENTIFIER loop returns the error of the read with
the empty INVALID token. -/
theorem identLoop_fail (U : Tables) {s : charStream} {m : String} {r : List ReadResult}
    (n : Nat) (token : List Char) (h : s.remaining = ReadResult.fail m :: r) :
    ∃ s1, identLoop U (n + 1) s token =
        some ((⟨[], TokenType.INVALID⟩, some (GoError.readFailure m)), s1) ∧
      s1.remaining = r := by
  obtain ⟨s1, h1, h2⟩ := charStream.peek_fail h
  exact ⟨s1, by simp [identLoop, h1], h2⟩

/-- At the end of input the IDENTIFIER loop returns the identifier. -/
theorem identLoop_nil (U : Tables) {s : charStream} (n : Nat) (token : List Char)
    (h : s.remaining = []) :
    identLoop U (n + 1) s token = some ((⟨token, TokenType.IDENTIFIER⟩, none), s) := by
  simp [identLoop, charStream.peek_nil h]

/-- On a failed read the NUMBER loop returns the error of the read with the
empty INVALID token. -/
theorem numberLoop_fail (U : Tables) {s : charStream} {m : String} {r : List ReadResult}
    (n : Nat) (token : List Char) (h : s.remaining = ReadResult.fail m :: r) :
    ∃ s1, numberLoop U (n + 1) s token =
        some ((⟨[], TokenType.INVALID⟩, some (GoError.readFailure m)), s1) ∧
      s1.remaining = r := by
  obtain ⟨s1, h1, h2⟩ := charStream.peek_fail h
  exact ⟨s1, by simp [numberLoop, h1], h2⟩

/-- On a failed read the string loop returns the error of the read with the
empty INVALID token, inside an escape or not. -/
theorem quotedLoop_fail (q : Char) (esc : Char → List Char) (msg : String) (kind : TokenType)
    {s : charStream} {m : String} {r : List ReadResult} (n : Nat) (token : List Char)
    (b : Bool) (h : s.remaining = ReadResult.fail m :: r) :
    ∃ s1, quotedLoop q esc msg kind (n + 1) s token b =
        some ((⟨[], TokenType.INVALID⟩, some (GoError.readFailure m)), s1) ∧
      s1.remaining = r := by
  obtain ⟨s1, h1, h2⟩ := charStream.peek_fail h
  exact ⟨s1, by simp [quotedLoop, h1], h2⟩

/-- After white space a letter or underscore sends `Get` into the IDENTIFIER
loop, whatever follows. -/
theorem getFrom_ident_tail (U : Tables) (s : charStream) (fuel : Nat) (ws : List Char)
    (c : Char) (r : List ReadResult) (hws : ∀ x ∈ ws, unicode.IsSpace x = true)
    (hc : U.IsLetter c = true ∨ c = '_')
    (h : s.remaining = ofChars ws ++ ReadResult.rune c :: r) (hf : ws.length < fuel) :
    ∃ s2, s2.remaining = r ∧ getFrom U fuel s = identLoop U fuel s2 [c] := by
  have hsp : unicode.IsSpace c = false := by
    rcases hc with hc | rfl
    · exact U.letter_not_space c hc
    · decide
  obtain ⟨s1, s2, -, h2, h3⟩ := getFrom_dispatch_tail U s fuel ws c r hws hsp h hf
  refine ⟨s2, h2, ?_⟩
  have hc' : (U.IsLetter c || decide (c = '_')) = true := by
    rcases hc with hc | rfl
    · simp [hc]
    · simp
  rw [h3, if_pos hc']

/-- After white space a digit sends `Get` into the NUMBER loop, whatever
follows. -/
theorem getFrom_number_tail (U : Tables) (s : charStream) (fuel : Nat) (ws : List Char)
    (d : Char) (r : List ReadResult) (hws : ∀ x ∈ ws, unicode.IsSpace x = true)
    (hd : U.IsDigit d = true)
    (h : s.remaining = ofChars ws ++ ReadResult.rune d :: r) (hf : ws.length < fuel) :
    ∃ s2, s2.remaining = r ∧ getFrom U fuel s = numberLoop U fuel s2 [d] := by
  obtain ⟨s1, s2, -, h2, h3⟩ := getFrom_dispatch_tail U s fuel ws d r hws
    (U.digit_not_space d hd) h hf
  refine ⟨s2, h2, ?_⟩
  have e1 : d ≠ '_' := digit_ne U hd (by decide) (by decide)
  have e2 : d ≠ '.' := digit_ne U hd (by decide) (by decide)
  have e3 : d ≠ '"' := digit_ne U hd (by decide) (by decide)
  have e4 : d ≠ '\'' := digit_ne U hd (by decide) (by decide)
  rw [h3, U.digit_not_letter d hd]
  simp [e1, e2, e3, e4, hd]

/-- After white space a quote, double or single, sends `Get` into the loop of
its string, whatever follows. -/
theorem getFrom_quote_tail (U : Tables) (s : charStream) (fuel : Nat) (q : Char)
    (ws : List Char) (r : List ReadResult) (hq : q = '"' ∨ q = '\'')
    (hws : ∀ x ∈ ws, unicode.IsSpace x = true)
    (h : s.remaining = ofChars ws ++ ReadResult.rune q :: r) (hf : ws.length < fuel) :
    ∃ s2 kind, s2.remaining = r ∧ (kind = TokenType.DQSTRING ∨ kind = TokenType.SQSTRING) ∧
      getFrom U fuel s = quotedLoop q (quoteEscape q) (missingQuote q) kind fuel s2 [q] false := by
  rcases hq with rfl | rfl
  · obtain ⟨s1, s2, -, h2, h3⟩ := getFrom_dispatch_tail U s fuel ws '"' r hws (by decide) h hf
    refine ⟨s2, TokenType.DQSTRING, h2, Or.inl rfl, ?_⟩
    have hl : U.IsLetter '"' = false := by rw [U.letter_ascii '"' (by decide)]; decide
    rw [h3, hl, dqLoop_eq_quotedLoop]
    simp [quoteEscape, missingQuote]
  · obtain ⟨s1, s2, -, h2, h3⟩ := getFrom_dispatch_tail U s fuel ws '\'' r hws (by decide) h hf
    refine ⟨s2, TokenType.SQSTRING, h2, Or.inr rfl, ?_⟩
    have hl : U.IsLetter '\'' = false := by rw [U.letter_ascii '\'' (by decide)]; decide
    rw [h3, hl, sqLoop_eq_quotedLoop]
    simp [quoteEscape, missingQuote]

/-- An identifier followed by anything: `Get` is where the IDENTIFIER loop is
once the identifier is consumed. -/
theorem getFrom_ident_scan (U : Tables) (s : charStream) (k : Nat) (ws : List Char) (c : Char)
    (tl : List Char) (tail : List ReadResult) (hws : ∀ x ∈ ws, unicode.IsSpace x = true)
    (hc : U.IsLetter c = true ∨ c = '_') (htl : ∀ x ∈ tl, isIdentChar U x = true)
    (h : s.remaining = ofChars (ws ++ c :: tl) ++ tail) :
    ∃ s3, s3.remaining = tail ∧
      getFrom U (tl.length + (ws.length + k + 1)) s =
        identLoop U (ws.length + k + 1) s3 (c :: tl) := by
  have h' : s.remaining = ofChars ws ++ ReadResult.rune c :: (ofChars tl ++ tail) := by
    rw [h, ofChars_append, ofChars_cons]; simp
  obtain ⟨s2, h2, h3⟩ := getFrom_ident_tail U s (tl.length + (ws.length + k + 1)) ws c _ hws hc h'
    (by omega)
  obtain ⟨s3, h4, h5⟩ := identLoop_scan U tl s2 (ws.length + k + 1) [c] tail htl h2
  exact ⟨s3, h4, by rw [h3, h5]; rfl⟩

/-- A number followed by anything: `Get` is where the NUMBER loop is once the
digits are consumed. -/
theorem getFrom_number_scan (U : Tables) (s : charStream) (k : Nat) (ws : List Char) (d : Char)
    (tl : List Char) (tail : List ReadResult) (hws : ∀ x ∈ ws, unicode.IsSpace x = true)
    (hd : U.IsDigit d = true) (htl : ∀ x ∈ tl, U.IsDigit x = true)
    (h : s.remaining = ofChars (ws ++ d :: tl) ++ tail) :
    ∃ s3, s3.remaining = tail ∧
      getFrom U (tl.length + (ws.length + k + 1)) s =
        numberLoop U (ws.length + k + 1) s3 (d :: tl) := by
  have h' : s.remaining = ofChars ws ++ ReadResult.rune d :: (ofChars tl ++ tail) := by
    rw [h, ofChars_append, ofChars_cons]; simp
  obtain ⟨s2, h2, h3⟩ := getFrom_number_tail U s (tl.length + (ws.length + k + 1)) ws d _ hws hd
    h' (by omega)
  obtain ⟨s3, h4, h5⟩ := numberLoop_scan U tl s2 (ws.length + k + 1) [d] tail htl h2
  exact ⟨s3, h4, by rw [h3, h5]; rfl⟩

/-- An open string followed by anything: `Get` is where the string loop is once
the text without `NUL` and without unescaped quote is consumed. -/
theorem getFrom_quote_scan (U : Tables) (s : charStream) (k : Nat) (q : Char)
    (ws body : List Char) (tail : List ReadResult) (hq : q = '"' ∨ q = '\'')
    (hws : ∀ x ∈ ws, unicode.IsSpace x = true) (hnul : NUL ∉ body)
    (hbody : noClosingQuote q body = true)
    (h : s.remaining = ofChars (ws ++ q :: body) ++ tail) :
    ∃ s3 kind b, s3.remaining = tail ∧
      getFrom U (body.length + (ws.length + k + 1)) s =
        quotedLoop q (quoteEscape q) (missingQuote q) kind (ws.length + k + 1) s3
          (q :: resolve (quoteEscape q) body) b := by
  have h' : s.remaining = ofChars ws ++ ReadResult.rune q :: (ofChars body ++ tail) := by
    rw [h, ofChars_append, ofChars_cons]; simp
  obtain ⟨s2, kind, h2, -, h3⟩ := getFrom_quote_tail U s (body.length + (ws.length + k + 1)) q
    ws _ hq hws h' (by omega)
  obtain ⟨s3, b, h4, h5⟩ := quotedLoop_scan q (quoteEscape q) (missingQuote q) kind tail body s2
    (ws.length + k + 1) [q] hnul hbody h2
  exact ⟨s3, kind, b, h4, by rw [h3, h5]; rfl⟩

/-- The fuel `Get` supplies, split for an input of the form
`ofChars (ws ++ c :: tl) ++ tail`. -/
theorem fuel_split (ws : List Char) (c : Char) (tl : List Char) (tail : List ReadResult) :
    (ofChars (ws ++ c :: tl) ++ tail).length + 1 =
      tl.length + (ws.length + (tail.length + 1) + 1) := by
  simp [ofChars_length]; omega

/-- The input made of `ab` and a failed read: `Get` returns the error of the
read with the empty INVALID token, not the identifier `ab`. -/
theorem Get_identifier_read_failure :
    (NewFileTokenStream "f"
        [ReadResult.rune 'a', ReadResult.rune 'b', ReadResult.fail "read error"]).Get
        unicode.asciiTables =
      some ((⟨[], TokenType.INVALID⟩, some (GoError.readFailure "read error")),
        { fileName := "f", chrStream := { reader := [], lookaheadBuf := [] },
          lookaheadBuf := [] }) := by
  decide

/-- C15, amended. When `Get` has scanned at least one character of an
identifier and the next read of the source yields end of input, `Get` returns
the IDENTIFIER token that holds the characters scanned, with a nil error; when
that read fails with another error, `Get` returns that error with the INVALID
token of empty text, and the failed read is used up. -/
theorem Get_identifier_cut (U : Tables) (t : TokenStream) (ws : List Char) (c : Char)
    (tl : List Char) (tail : List ReadResult)
    (hinput : t.chrStream.remaining = ofChars (ws ++ c :: tl) ++ tail)
    (hws : ∀ x ∈ ws, unicode.IsSpace x = true)
    (hstart : U.IsLetter c = true ∨ c = '_')
    (hrun : ∀ x ∈ tl, isIdentChar U x = true) :
    (tail = [] → ∃ t1, t.Get U = some ((⟨c :: tl, TokenType.IDENTIFIER⟩, none), t1)) ∧
    (∀ (m : String) (r : List ReadResult), tail = ReadResult.fail m :: r →
      ∃ t1, t.Get U = some ((⟨[], TokenType.INVALID⟩, some (GoError.readFailure m)), t1) ∧
        t1.chrStream.remaining = r) := by
  obtain ⟨s3, h1, h2⟩ := getFrom_ident_scan U t.chrStream (tail.length + 1) ws c tl tail hws
    hstart hrun hinput
  rw [← fuel_split ws c tl tail, ← hinput] at h2
  constructor
  · intro ht
    rw [ht] at h1
    rw [identLoop_nil U _ _ h1] at h2
    exact ⟨_, TokenStream.Get_of_getFrom U t h2⟩
  · intro m r ht
    rw [ht] at h1
    obtain ⟨s4, h3, h4⟩ := identLoop_fail U (ws.length + (tail.length + 1)) (c :: tl) h1
    rw [h3] at h2
    exact ⟨_, TokenStream.Get_of_getFrom U t h2, h4⟩

/-- C15, amended, at the input made of ` ab` and a failed read. -/
theorem Get_identifier_cut_witness :
    ([ReadResult.fail "read error"] = [] →
      ∃ t1, (NewFileTokenStream "f" (ofChars (" ".toList ++ 'a' :: "b".toList) ++
          [ReadResult.fail "read error"])).Get unicode.asciiTables =
        some ((⟨'a' :: "b".toList, TokenType.IDENTIFIER⟩, none), t1)) ∧
    (∀ (m : String) (r : List ReadResult), [ReadResult.fail "read error"] =
        ReadResult.fail m :: r →
      ∃ t1, (NewFileTokenStream "f" (ofChars (" ".toList ++ 'a' :: "b".toList) ++
          [ReadResult.fail "read error"])).Get unicode.asciiTables =
        some ((⟨[], TokenType.INVALID⟩, some (GoError.readFailure m)), t1) ∧
        t1.chrStream.remaining = r) :=
  Get_identifier_cut unicode.asciiTables
    (NewFileTokenStream "f" (ofChars (" ".toList ++ 'a' :: "b".toList) ++
      [ReadResult.fail "read error"]))
    " ".toList 'a' "b".toList [ReadResult.fail "read error"] rfl (by decide) (by decide)
    (by decide)

/-- C16. For every lexeme in progress (whitespace skip, number, double-quoted
string, single-quoted string), if the next read of the source fails with an
error other than end of input, `Get` returns exactly that error at once, with
the INVALID token of empty text: no text of the lexeme is returned, and the
error is neither a missing-quote error nor replaced by a token. -/
theorem Get_read_failure (U : Tables) (t : TokenStream) (pre : List Char) (m : String)
    (r : List ReadResult) (hpre : InProgress U pre)
    (hinput : t.chrStream.remaining = ofChars pre ++ ReadResult.fail m :: r) :
    ∃ t1, t.Get U = some ((⟨[], TokenType.INVALID⟩, some (GoError.readFailure m)), t1) ∧
      t1.chrStream.remaining = r := by
  cases hpre with
  | whitespace ws hws =>
    have hfuel : t.chrStream.remaining.length + 1 = pre.length + (r.length + 1 + 1) := by
      rw [hinput]; simp [ofChars_length]; omega
    obtain ⟨s2, h1, h2⟩ := skipWhitespace_skip pre t.chrStream (r.length + 1 + 1) _ hws hinput
    obtain ⟨s3, h3, h4⟩ := skipWhitespace_fail (r.length + 1) h1
    have hg : getFrom U (t.chrStream.remaining.length + 1) t.chrStream =
        some ((⟨[], TokenType.INVALID⟩, some (GoError.readFailure m)), s3) := by
      rw [hfuel]
      simp [getFrom, h2, h3]
    exact ⟨_, TokenStream.Get_of_getFrom U t hg, h4⟩
  | number ws d tl hws hd htl =>
    obtain ⟨s3, h1, h2⟩ := getFrom_number_scan U t.chrStream ((ReadResult.fail m :: r).length + 1)
      ws d tl _ hws hd htl hinput
    rw [← fuel_split ws d tl _, ← hinput] at h2
    obtain ⟨s4, h3, h4⟩ := numberLoop_fail U (ws.length + ((ReadResult.fail m :: r).length + 1))
      (d :: tl) h1
    rw [h3] at h2
    exact ⟨_, TokenStream.Get_of_getFrom U t h2, h4⟩
  | dqstring ws body hws hnul hbody =>
    obtain ⟨s3, kind, b, h1, h2⟩ := getFrom_quote_scan U t.chrStream
      ((ReadResult.fail m :: r).length + 1) '"' ws body _ (Or.inl rfl) hws hnul hbody hinput
    rw [← fuel_split ws '"' body _, ← hinput] at h2
    obtain ⟨s4, h3, h4⟩ := quotedLoop_fail '"' (quoteEscape '"') (missingQuote '"') kind
      (ws.length + ((ReadResult.fail m :: r).length + 1))
      ('"' :: resolve (quoteEscape '"') body) b h1
    rw [h3] at h2
    exact ⟨_, TokenStream.Get_of_getFrom U t h2, h4⟩
  | sqstring ws body hws hnul hbody =>
    obtain ⟨s3, kind, b, h1, h2⟩ := getFrom_quote_scan U t.chrStream
      ((ReadResult.fail m :: r).length + 1) '\'' ws body _ (Or.inr rfl) hws hnul hbody hinput
    rw [← fuel_split ws '\'' body _, ← hinput] at h2
    obtain ⟨s4, h3, h4⟩ := quotedLoop_fail '\'' (quoteEscape '\'') (missingQuote '\'') kind
      (ws.length + ((ReadResult.fail m :: r).length + 1))
      ('\'' :: resolve (quoteEscape '\'') body) b h1
    rw [h3] at h2
    exact ⟨_, TokenStream.Get_of_getFrom U t h2, h4⟩

/-- C16 at the input made of ` "ab\` and a failed read, in a double-quoted
string and inside an escape. -/
theorem Get_read_failure_witness :
    ∃ t1, (NewFileTokenStream "f" (ofChars (" ".toList ++ '"' :: "ab\\".toList) ++
        ReadResult.fail "read error" :: [ReadResult.rune '"'])).Get unicode.asciiTables =
      some ((⟨[], TokenType.INVALID⟩, some (GoError.readFailure "read error")), t1) ∧
      t1.chrStream.remaining = [ReadResult.rune '"'] :=
  Get_read_failure unicode.asciiTables
    (NewFileTokenStream "f" (ofChars (" ".toList ++ '"' :: "ab\\".toList) ++
      ReadResult.fail "read error" :: [ReadResult.rune '"']))
    (" ".toList ++ '"' :: "ab\\".toList) "read error" [ReadResult.rune '"']
    (InProgress.dqstring " ".toList "ab\\".toList (by decide) (by decide) (by decide)) rfl

/-- C19. For every input whose first character after white space is a quote
`q`, double or single, and in which a `NUL` comes after the opening quote and
before any unescaped `q`, `Get` stops at the `NUL` without consuming it and
fails with the missing-quote error of `q`; the INVALID token holds the
opening quote and the resolved text that comes before the `NUL`, whatever
follows the `NUL`, a closing quote included. -/
theorem Get_string_nul (U : Tables) (t : TokenStream) (q : Char) (ws pre post : List Char)
    (hq : q = '"' ∨ q = '\'')
    (hinput : t.chrStream.remaining = ofChars (ws ++ q :: pre ++ NUL :: post))
    (hws : ∀ x ∈ ws, unicode.IsSpace x = true)
    (hnul : NUL ∉ pre) (hpre : noClosingQuote q pre = true) :
    ∃ t1, t.Get U =
        some ((⟨q :: resolve (quoteEscape q) pre, TokenType.INVALID⟩,
          some (GoError.errorsNew (missingQuote q))), t1) ∧
      t1.chrStream.remaining = ofChars (NUL :: post) := by
  have hin : t.chrStream.remaining = ofChars (ws ++ q :: pre) ++ ofChars (NUL :: post) := by
    rw [hinput, ← ofChars_append]
  obtain ⟨s3, kind, b, h1, h2⟩ := getFrom_quote_scan U t.chrStream
    ((ofChars (NUL :: post)).length + 1) q ws pre _ hq hws hnul hpre hin
  rw [← fuel_split ws q pre _, ← hin] at h2
  obtain ⟨s4, h3, h4⟩ := quotedLoop_nul q (quoteEscape q) (missingQuote q) kind
    (ws.length + ((ofChars (NUL :: post)).length + 1)) (q :: resolve (quoteEscape q) pre) b
    (h1.trans (ofChars_cons NUL post))
  rw [h3] at h2
  exact ⟨_, TokenStream.Get_of_getFrom U t h2, h4⟩

/-- C19 at the input `'a\tb`, `NUL`, `c'`: the token holds `'a\tb` and the `NUL`
stays pending, the closing quote after it notwithstanding. -/
theorem Get_string_nul_witness :
    ∃ t1, (NewFileTokenStream "f"
        (ofChars ([] ++ '\'' :: "a\\tb".toList ++ NUL :: "c'".toList))).Get
          unicode.asciiTables =
        some ((⟨'\'' :: resolve (quoteEscape '\'') "a\\tb".toList, TokenType.INVALID⟩,
          some (GoError.errorsNew (missingQuote '\''))), t1) ∧
      t1.chrStream.remaining = ofChars (NUL :: "c'".toList) :=
  Get_string_nul unicode.asciiTables
    (NewFileTokenStream "f" (ofChars ([] ++ '\'' :: "a\\tb".toList ++ NUL :: "c'".toList)))
    '\'' [] "a\\tb".toList "c'".toList (Or.inr rfl) rfl (by decide) (by decide) (by decide)

/-! ## Progress -/

/-- `peek` never lengthens what is pending. -/
theorem charStream.peek_length (s : charStream) :
    s.peek.2.remaining.length ≤ s.remaining.length := by
  rcases hrem : s.remaining with _ | ⟨x, r⟩
  · rw [charStream.peek_nil hrem, hrem]
  · cases x with
    | rune c =>
      obtain ⟨s1, h1, h2⟩ := charStream.peek_rune hrem
      rw [h1, h2]
    | fail m =>
      obtain ⟨s1, h1, h2⟩ := charStream.peek_fail hrem
      rw [h1, h2]; simp

/-- `get` never lengthens what is pending. -/
theorem charStream.get_length (s : charStream) :
    s.get.2.remaining.length ≤ s.remaining.length := by
  obtain ⟨rd, la⟩ := s
  cases la with
  | cons a tl => simp [charStream.get, charStream.remaining]
  | nil =>
    cases rd with
    | nil => simp [charStream.get, ReadRune, charStream.remaining]
    | cons x r =>
      cases x with
      | rune d => simp [charStream.get, ReadRune, charStream.remaining]
      | fail m => simp [charStream.get, ReadRune, charStream.remaining]

/-- On a stream that holds characters only, none of them `NUL`, `peek` leaves
such a stream. -/
theorem charStream.peek_chars (s : charStream)
    (h : ∃ cs, s.remaining = ofChars cs ∧ NUL ∉ cs) :
    ∃ cs, s.peek.2.remaining = ofChars cs ∧ NUL ∉ cs := by
  obtain ⟨cs, h1, h2⟩ := h
  refine ⟨cs, ?_, h2⟩
  cases cs with
  | nil => rw [charStream.peek_nil h1]; exact h1
  | cons c tl =>
    obtain ⟨s1, g1, g2⟩ := charStream.peek_rune (h1.trans (ofChars_cons c tl))
    rw [g1]; exact g2

/-- On a stream that holds characters only, none of them `NUL`, `get` leaves
such a stream. -/
theorem charStream.get_chars (s : charStream)
    (h : ∃ cs, s.remaining = ofChars cs ∧ NUL ∉ cs) :
    ∃ cs, s.get.2.remaining = ofChars cs ∧ NUL ∉ cs := by
  obtain ⟨cs, h1, h2⟩ := h
  cases cs with
  | nil => exact ⟨[], by rw [charStream.get_nil h1]; exact h1, h2⟩
  | cons c tl =>
    obtain ⟨s1, g1, g2⟩ := charStream.get_rune (h1.trans (ofChars_cons c tl))
    exact ⟨tl, by rw [g1]; exact g2, fun e => h2 (List.mem_cons_of_mem _ e)⟩

/-- A call of `Get` that returns a nil error consumes at least one pending
result, unless the first one after the white space is `NUL`. -/
theorem getFrom_progress (U : Tables) (s : charStream) (fuel : Nat)
    (hf : s.remaining.length < fuel) (tok : Token) (s1 : charStream)
    (h : getFrom U fuel s = some ((tok, none), s1))
    (hfirst : firstAfterSpace s.remaining ≠ some (ReadResult.rune NUL)) :
    s1.remaining.length < s.remaining.length := by
  obtain ⟨ws, hws, e | ⟨m, r, e⟩ | ⟨c, r, hc, e⟩⟩ := whitespace_decompose s.remaining
  · obtain ⟨s2, h1, -⟩ := getFrom_eof U s fuel ws hws e (by rw [e, ofChars_length] at hf; exact hf)
    rw [h1] at h
    simp at h
  · have hl : ws.length + 1 ≤ fuel := by
      rw [e] at hf; simp [ofChars_length] at hf; omega
    obtain ⟨n, rfl⟩ : ∃ n, fuel = ws.length + (n + 1) := ⟨fuel - ws.length - 1, by omega⟩
    obtain ⟨s2, h1, h2⟩ := skipWhitespace_skip ws s (n + 1) _ hws e
    obtain ⟨s3, h3, -⟩ := skipWhitespace_fail n h1
    simp [getFrom, h2, h3] at h
  · have hl : ws.length < fuel := by
      rw [e] at hf; simp [ofChars_length] at hf; omega
    obtain ⟨s2, s3, h1, h2, h3⟩ := getFrom_dispatch_tail U s fuel ws c r hws hc e hl
    have hc0 : c ≠ NUL := by
      rintro rfl
      exact hfirst (by rw [e]; exact firstAfterSpace_rune ws NUL r hws hc)
    have hlen : r.length < s.remaining.length := by rw [e]; simp; omega
    have hP : (fun x : charStream => x.remaining.length ≤ r.length) s3 := by
      show s3.remaining.length ≤ r.length
      rw [h2]
    have hpeek : ∀ x : charStream, (fun x : charStream => x.remaining.length ≤ r.length) x →
        (fun x : charStream => x.remaining.length ≤ r.length) x.peek.2 :=
      fun x hx => Nat.le_trans (charStream.peek_length x) hx
    have hget : ∀ x : charStream, (fun x : charStream => x.remaining.length ≤ r.length) x →
        (fun x : charStream => x.remaining.length ≤ r.length) x.get.2 :=
      fun x hx => Nat.le_trans (charStream.get_length x) hx
    rw [h3] at h
    have goal : s1.remaining.length ≤ r.length := by
      by_cases c1 : (U.IsLetter c || decide (c = '_')) = true
      · rw [if_pos c1] at h
        exact identLoop_preserves _ hpeek hget U fuel _ _ _ _ hP h
      rw [if_neg c1] at h
      by_cases c2 : c = '.'
      · rw [if_pos c2] at h
        simp only [Option.some.injEq, Prod.mk.injEq] at h
        rw [← h.2]; exact hP
      rw [if_neg c2] at h
      by_cases c3 : c = '"'
      · rw [if_pos c3, dqLoop_eq_quotedLoop] at h
        exact quotedLoop_preserves _ hpeek hget _ _ _ _ fuel _ _ _ _ _ hP h
      rw [if_neg c3] at h
      by_cases c4 : c = '\''
      · rw [if_pos c4, sqLoop_eq_quotedLoop] at h
        exact quotedLoop_preserves _ hpeek hget _ _ _ _ fuel _ _ _ _ _ hP h
      rw [if_neg c4] at h
      by_cases c5 : U.IsDigit c = true
      · rw [if_pos c5] at h
        exact numberLoop_preserves _ hpeek hget U fuel _ _ _ _ hP h
      rw [if_neg c5, if_neg hc0] at h
      simp only [Option.some.injEq, Prod.mk.injEq] at h
      rw [← h.2]; exact hP
    omega

/-- A call of `Get` that returns a nil error consumes at least one pending
result, unless the first one after the white space is `NUL`. -/
theorem TokenStream.Get_progress (U : Tables) (t : TokenStream) (tok : Token)
    (t1 : TokenStream) (h : t.Get U = some ((tok, none), t1))
    (hfirst : firstAfterSpace t.chrStream.remaining ≠ some (ReadResult.rune NUL)) :
    t1.chrStream.remaining.length < t.chrStream.remaining.length := by
  rw [TokenStream.Get_eq] at h
  rcases hg : getFrom U (t.chrStream.remaining.length + 1) t.chrStream with _ | ⟨r2, s2⟩
  · rw [hg] at h; simp at h
  · rw [hg] at h
    simp only [Option.map_some', Option.some.injEq, Prod.mk.injEq] at h
    rw [← h.2]
    have hr : r2 = (tok, none) := h.1
    rw [hr] at hg
    exact getFrom_progress U _ _ (by omega) tok s2 hg hfirst

/-- In an input made of characters without `NUL` the first character after the
white space is not `NUL`. -/
theorem firstAfterSpace_ne_nul (cs : List Char) (h : NUL ∉ cs) :
    firstAfterSpace (ofChars cs) ≠ some (ReadResult.rune NUL) := by
  intro e
  obtain ⟨ws, r, -, -, e2⟩ := firstAfterSpace_eq_rune e
  have : ReadResult.rune NUL ∈ ofChars cs := by rw [e2]; simp
  simp only [ofChars, List.mem_map, ReadResult.rune.injEq, exists_eq_right] at this
  exact h this

/-- On an input made of characters only, the error of `Get` is end of input or
one of the two missing-quote errors. -/
theorem Get_error_of_chars (U : Tables) (t : TokenStream) (cs : List Char)
    (hinput : t.chrStream.remaining = ofChars cs) {tok : Token} {e : GoError}
    {t1 : TokenStream} (h : t.Get U = some ((tok, some e), t1)) :
    e = GoError.EOF ∨ e = GoError.errorsNew "missing closing double quote" ∨
      e = GoError.errorsNew "missing closing single quote" := by
  have h3 := TokenStream.Get_outcome U t h
  cases h3 with
  | eof ws hws hinput2 => exact Or.inl rfl
  | readFailure m hm =>
    rw [hinput] at hm
    simp [ofChars] at hm
  | dqMissing w => exact Or.inr (Or.inl rfl)
  | sqMissing w => exact Or.inr (Or.inr rfl)

/-- On an input of `cs.length` characters without `NUL`, the loop of `parse`
ends with an error within `cs.length + 1` calls of `Get`, having got at most
`cs.length` tokens. -/
theorem parse_terminates (U : Tables) (n : Nat) :
    ∀ (cs : List Char) (t : TokenStream), t.chrStream.remaining = ofChars cs → NUL ∉ cs →
      cs.length < n →
      ∃ toks e, parse U n t = some (toks, some e) ∧ toks.length ≤ cs.length ∧
        (e = GoError.EOF ∨ e = GoError.errorsNew "missing closing double quote" ∨
          e = GoError.errorsNew "missing closing single quote") := by
  induction n with
  | zero => intro cs t _ _ hn; omega
  | succ n ih =>
    intro cs t hinput hnul hn
    obtain ⟨⟨tok, err⟩, t1, hget, -, -⟩ := TokenStream.Get_total U t
    cases err with
    | some e =>
      exact ⟨[], e, parse_error U n hget, by simp, Get_error_of_chars U t cs hinput hget⟩
    | none =>
      obtain ⟨cs1, h1, h2⟩ := TokenStream.Get_preserves
        (fun s => ∃ cs, s.remaining = ofChars cs ∧ NUL ∉ cs) charStream.peek_chars
        charStream.get_chars U t _ t1 ⟨cs, hinput, hnul⟩ hget
      have hlt := TokenStream.Get_progress U t tok t1 hget
        (by rw [hinput]; exact firstAfterSpace_ne_nul cs hnul)
      rw [h1, hinput, ofChars_length, ofChars_length] at hlt
      obtain ⟨toks, e, h3, h4, h5⟩ := ih cs1 t1 h1 h2 (by omega)
      refine ⟨tok :: toks, e, ?_, by simp; omega, h5⟩
      rw [parse_token U n hget (Get_kind_ne_command U t _ t1 hget), h3]
      rfl

/-- C18. For every input made of characters only, none of them `NUL`, a call
of `Get` that returns a nil error consumes at least one character, so the
loop of `parse` obtains a non-nil error, end of input or a missing-quote
error, after at most as many successful calls of `Get` as the input has
characters. -/
theorem Get_progress_terminates (U : Tables) (t : TokenStream) (cs : List Char)
    (hinput : t.chrStream.remaining = ofChars cs) (hnul : NUL ∉ cs) :
    (∀ (tok : Token) (t1 : TokenStream), t.Get U = some ((tok, none), t1) →
      t1.chrStream.remaining.length < t.chrStream.remaining.length) ∧
    (∃ toks e, parse U (cs.length + 1) t = some (toks, some e) ∧ toks.length ≤ cs.length ∧
      (e = GoError.EOF ∨ e = GoError.errorsNew "missing closing double quote" ∨
        e = GoError.errorsNew "missing closing single quote")) := by
  refine ⟨?_, parse_terminates U (cs.length + 1) cs t hinput hnul (by omega)⟩
  intro tok t1 h
  exact TokenStream.Get_progress U t tok t1 h
    (by rw [hinput]; exact firstAfterSpace_ne_nul cs hnul)

/-- C18 at the input `(a,1)`. -/
theorem Get_progress_terminates_witness :
    (∀ (tok : Token) (t1 : TokenStream),
      (NewFileTokenStream "f" (ofChars "(a,1)".toList)).Get unicode.asciiTables =
        some ((tok, none), t1) →
      t1.chrStream.remaining.length <
        (NewFileTokenStream "f" (ofChars "(a,1)".toList)).chrStream.remaining.length) ∧
    (∃ toks e, parse unicode.asciiTables ("(a,1)".toList.length + 1)
        (NewFileTokenStream "f" (ofChars "(a,1)".toList)) = some (toks, some e) ∧
      toks.length ≤ "(a,1)".toList.length ∧
      (e = GoError.EOF ∨ e = GoError.errorsNew "missing closing double quote" ∨
        e = GoError.errorsNew "missing closing single quote")) :=
  Get_progress_terminates unicode.asciiTables (NewFileTokenStream "f" (ofChars "(a,1)".toList))
    "(a,1)".toList rfl (by decide)

/-! ## String tokens -/

/-- When the string loop returns with a nil error, what it read is a
well-escaped body and the closing quote, and the token is extended by the
body resolved and the quote. -/
theorem quotedLoop_string (q : Char) (esc : Char → List Char) (msg : String)
    (kind : TokenType) (fuel : Nat) :
    ∀ (s : charStream) (token : List Char) (b : Bool) (tok : Token) (s1 : charStream),
      quotedLoop q esc msg kind fuel s token b = some ((tok, none), s1) →
      ∃ body r, s.remaining = ofChars body ++ ReadResult.rune q :: r ∧
        wellEscaped q (pendingText b body) = true ∧
        tok = ⟨token ++ resolve esc (pendingText b body) ++ [q], kind⟩ ∧
        s1.remaining = r := by
  induction fuel with
  | zero => intro s token b tok s1 h; simp [quotedLoop] at h
  | succ n ih =>
    intro s token b tok s1 h
    rcases hrem : s.remaining with _ | ⟨x, rr⟩
    · rw [quotedLoop_eof q esc msg kind n token b hrem] at h
      simp at h
    · cases x with
      | fail m =>
        obtain ⟨s2, h1, -⟩ := quotedLoop_fail q esc msg kind n token b hrem
        rw [h1] at h
        simp at h
      | rune c =>
        by_cases hn : c = NUL
        · subst hn
          obtain ⟨s2, h1, -⟩ := quotedLoop_nul q esc msg kind n token b hrem
          rw [h1] at h
          simp at h
        cases b with
        | true =>
          obtain ⟨s2, h1, h2⟩ := quotedLoop_escaped q esc msg kind n token hn hrem
          rw [h1] at h
          obtain ⟨body, r, g1, g2, g3, g4⟩ := ih s2 (token ++ esc c) false tok s1 h
          refine ⟨c :: body, r, ?_, ?_, ?_, g4⟩
          · rw [← h2, g1]; rfl
          · simp only [pendingText, if_true, Bool.false_eq_true, if_false] at g2 ⊢
            rw [wellEscaped_escape]
            simp [hn, g2]
          · simp only [pendingText, if_true, Bool.false_eq_true, if_false] at g3 ⊢
            rw [g3, resolve_escape]
            simp
        | false =>
          by_cases hb : c = '\\'
          · subst hb
            obtain ⟨s2, h1, h2⟩ := quotedLoop_backslash q esc msg kind n token hrem
            rw [h1] at h
            obtain ⟨body, r, g1, g2, g3, g4⟩ := ih s2 token true tok s1 h
            refine ⟨'\\' :: body, r, ?_, ?_, ?_, g4⟩
            · rw [← h2, g1]; rfl
            · simpa [pendingText] using g2
            · simpa [pendingText] using g3
          by_cases hq : c = q
          · subst hq
            obtain ⟨s2, h1, h2⟩ := quotedLoop_close c esc msg kind n token hn hb hrem
            rw [h1] at h
            simp only [Option.some.injEq, Prod.mk.injEq] at h
            refine ⟨[], rr, by simp [ofChars], by simp [pendingText, wellEscaped], ?_, ?_⟩
            · rw [← h.1.1]; simp [pendingText, resolve]
            · rw [← h.2]; exact h2
          · obtain ⟨s2, h1, h2⟩ := quotedLoop_plain q esc msg kind n token hn hb hq hrem
            rw [h1] at h
            obtain ⟨body, r, g1, g2, g3, g4⟩ := ih s2 (token ++ [c]) false tok s1 h
            refine ⟨c :: body, r, ?_, ?_, ?_, g4⟩
            · rw [← h2, g1]; rfl
            · simp only [pendingText, Bool.false_eq_true, if_false] at g2 ⊢
              rw [wellEscaped_plain q hb]
              simp [hn, hq, g2]
            · simp only [pendingText, Bool.false_eq_true, if_false] at g3 ⊢
              rw [g3, resolve_plain esc hb]
              simp

/-- When the string loop started after the quote `q` returns a token of kind
`kind`, not INVALID, the error is nil and what was read is a well-escaped body
and the closing quote. -/
theorem quotedLoop_token (q : Char) (esc : Char → List Char) (msg : String)
    (kind : TokenType) (fuel : Nat) (s : charStream)
    (hf : s.remaining.length < fuel) (tok : Token) (err : Option GoError) (s1 : charStream)
    (h : quotedLoop q esc msg kind fuel s [q] false = some ((tok, err), s1))
    (hk : tok.Kind ≠ TokenType.INVALID) :
    err = none ∧ ∃ body r, s.remaining = ofChars body ++ ReadResult.rune q :: r ∧
      wellEscaped q body = true ∧ tok = ⟨q :: resolve esc body ++ [q], kind⟩ ∧
      s1.remaining = r := by
  obtain ⟨r2, s2, h1, -, h2⟩ := quotedLoop_result q esc msg kind fuel s [q] false hf
  rw [h] at h1
  simp only [Option.some.injEq, Prod.mk.injEq] at h1
  have he : err = none := by
    rcases h2 with ⟨w, e⟩ | ⟨w, e⟩ | ⟨m, e, -⟩
    · rw [← h1.1] at e
      simp only [Prod.mk.injEq] at e
      exact e.2
    · rw [← h1.1] at e
      simp only [Prod.mk.injEq] at e
      rw [e.1] at hk
      exact absurd rfl hk
    · rw [← h1.1] at e
      simp only [Prod.mk.injEq] at e
      rw [e.1] at hk
      exact absurd rfl hk
  subst he
  obtain ⟨body, r, g1, g2, g3, g4⟩ := quotedLoop_string q esc msg kind fuel s [q] false tok s1 h
  refine ⟨rfl, body, r, g1, by simpa [pendingText] using g2, ?_, g4⟩
  simpa [pendingText] using g3

/-- Every token of kind DQSTRING or SQSTRING that the body of `Get` returns
comes with a nil error from an input made of white space, the quote of the
kind, a well-escaped body and the same quote; its text is the quote, the body
resolved, and the quote. -/
theorem getFrom_string_token (U : Tables) (s : charStream) (fuel : Nat)
    (hf : s.remaining.length < fuel) (tok : Token) (err : Option GoError) (s1 : charStream)
    (h : getFrom U fuel s = some ((tok, err), s1))
    (hk : tok.Kind = TokenType.DQSTRING ∨ tok.Kind = TokenType.SQSTRING) :
    err = none ∧ ∃ ws body r, (∀ x ∈ ws, unicode.IsSpace x = true) ∧
      s.remaining = ofChars (ws ++ quoteOf tok.Kind :: body) ++
        ReadResult.rune (quoteOf tok.Kind) :: r ∧
      wellEscaped (quoteOf tok.Kind) body = true ∧
      tok.Value = quoteOf tok.Kind :: resolve (quoteEscape (quoteOf tok.Kind)) body ++
        [quoteOf tok.Kind] ∧
      s1.remaining = r := by
  have hki : tok.Kind ≠ TokenType.INVALID := by
    rcases hk with hk | hk <;> rw [hk] <;> decide
  obtain ⟨ws, hws, e | ⟨m, r, e⟩ | ⟨c, r, hc, e⟩⟩ := whitespace_decompose s.remaining
  · obtain ⟨s2, h1, -⟩ := getFrom_eof U s fuel ws hws e (by rw [e, ofChars_length] at hf; exact hf)
    rw [h1] at h
    simp only [Option.some.injEq, Prod.mk.injEq] at h
    rw [← h.1.1] at hki
    exact absurd rfl hki
  · have hl : ws.length + 1 ≤ fuel := by
      rw [e] at hf; simp [ofChars_length] at hf; omega
    obtain ⟨n, rfl⟩ : ∃ n, fuel = ws.length + (n + 1) := ⟨fuel - ws.length - 1, by omega⟩
    obtain ⟨s2, h1, h2⟩ := skipWhitespace_skip ws s (n + 1) _ hws e
    obtain ⟨s3, h3, -⟩ := skipWhitespace_fail n h1
    simp only [getFrom, h2, h3, Option.some.injEq, Prod.mk.injEq] at h
    rw [← h.1.1] at hki
    exact absurd rfl hki
  · have hl : ws.length + r.length + 1 < fuel := by
      rw [e] at hf; simp [ofChars_length] at hf; omega
    obtain ⟨s2, s3, h1, h2, h3⟩ := getFrom_dispatch_tail U s fuel ws c r hws hc e (by omega)
    rw [h3] at h
    by_cases c1 : (U.IsLetter c || decide (c = '_')) = true
    · rw [if_pos c1] at h
      obtain ⟨r1, s4, g1, -, g2⟩ := identLoop_result U fuel s3 [c] (by rw [h2]; omega)
      rw [h] at g1
      simp only [Option.some.injEq, Prod.mk.injEq] at g1
      exfalso
      rcases g2 with ⟨run, g3, -⟩ | ⟨m, g3, -⟩ <;>
        (rw [← g1.1] at g3; simp only [Prod.mk.injEq] at g3; rw [g3.1] at hk; simp at hk)
    rw [if_neg c1] at h
    by_cases c2 : c = '.'
    · rw [if_pos c2] at h
      simp only [Option.some.injEq, Prod.mk.injEq] at h
      rw [← h.1.1] at hk
      simp at hk
    rw [if_neg c2] at h
    by_cases c3 : c = '"'
    · subst c3
      rw [if_pos rfl, dqLoop_eq_quotedLoop] at h
      obtain ⟨he, body, r2, g1, g2, g3, g4⟩ := quotedLoop_token '"' dqEscape _
        TokenType.DQSTRING fuel s3 (by rw [h2]; omega) tok err s1 h hki
      have hq : quoteOf tok.Kind = '"' := by rw [g3]; rfl
      rw [hq]
      refine ⟨he, ws, body, r2, hws, ?_, g2, by rw [g3]; rfl, g4⟩
      rw [e, ← h2, g1, ofChars_append, ofChars_cons]
      simp
    rw [if_neg c3] at h
    by_cases c4 : c = '\''
    · subst c4
      rw [if_pos rfl, sqLoop_eq_quotedLoop] at h
      obtain ⟨he, body, r2, g1, g2, g3, g4⟩ := quotedLoop_token '\'' sqEscape _
        TokenType.SQSTRING fuel s3 (by rw [h2]; omega) tok err s1 h hki
      have hq : quoteOf tok.Kind = '\'' := by rw [g3]; rfl
      rw [hq]
      refine ⟨he, ws, body, r2, hws, ?_, g2, by rw [g3]; rfl, g4⟩
      rw [e, ← h2, g1, ofChars_append, ofChars_cons]
      simp
    rw [if_neg c4] at h
    by_cases c5 : U.IsDigit c = true
    · rw [if_pos c5] at h
      obtain ⟨r1, s4, g1, -, g2⟩ := numberLoop_result U fuel s3 [c] (by rw [h2]; omega)
      rw [h] at g1
      simp only [Option.some.injEq, Prod.mk.injEq] at g1
      exfalso
      rcases g2 with ⟨run, g3, -⟩ | ⟨m, g3, -⟩ <;>
        (rw [← g1.1] at g3; simp only [Prod.mk.injEq] at g3; rw [g3.1] at hk; simp at hk)
    rw [if_neg c5] at h
    by_cases c6 : c = NUL
    · rw [if_pos c6] at h
      simp only [Option.some.injEq, Prod.mk.injEq] at h
      rw [← h.1.1] at hk
      simp at hk
    rw [if_neg c6] at h
    simp only [Option.some.injEq, Prod.mk.injEq] at h
    rw [← h.1.1] at hk
    have := singleCharType_kind c
    rcases hk with hk | hk
    · exact absurd hk this.2.2.2.1
    · exact absurd hk this.2.2.2.2.1

theorem goBytes_append (a b : List Char) : goBytes (a ++ b) = goBytes a ++ goBytes b := by
  simp [goBytes]

theorem goBytes_cons (c : Char) (a : List Char) :
    goBytes (c :: a) = String.utf8EncodeChar c ++ goBytes a := by
  simp [goBytes]

/-- The bytes of a text between two one-byte quotes, and the slice that drops
the two quotes. -/
theorem sliceBytes_between (x y : UInt8) (b : List UInt8) :
    sliceBytes ([x] ++ b ++ [y]) 1 ((([x] ++ b ++ [y]).length : Int) - 1) = some b := by
  have hlen : ([x] ++ b ++ [y]).length = b.length + 2 := by simp
  have h1 : (((([x] ++ b ++ [y]).length : Nat) : Int) - 1) = ((b.length + 1 : Nat) : Int) := by
    rw [hlen]; omega
  rw [h1]
  unfold sliceBytes
  have hc : (0 : Int) ≤ 1 ∧ (1 : Int) ≤ ((b.length + 1 : Nat) : Int) ∧
      ((b.length + 1 : Nat) : Int) ≤ ((([x] ++ b ++ [y]).length : Nat) : Int) := by
    rw [hlen]; omega
  rw [if_pos hc]
  simp

/-- C20. Every token `Get` returns with kind DQSTRING (resp. SQSTRING) comes
with a nil error; its text has at least two bytes, the first and the last
being the double (resp. single) quote; and the slice
`tok.Value[1:len(tok.Value)-1]` of `parse` is within bounds and is the
escape-resolved body that stands between the two quotes in the input. -/
theorem string_token_slice (U : Tables) (t : TokenStream) (tok : Token)
    (err : Option GoError) (t1 : TokenStream) (h : t.Get U = some ((tok, err), t1))
    (hk : tok.Kind = TokenType.DQSTRING ∨ tok.Kind = TokenType.SQSTRING) :
    err = none ∧ 2 ≤ (goBytes tok.Value).length ∧
    (goBytes tok.Value).head? = some (quoteByte tok.Kind) ∧
    (goBytes tok.Value).getLast? = some (quoteByte tok.Kind) ∧
    ∃ ws body r, (∀ x ∈ ws, unicode.IsSpace x = true) ∧
      t.chrStream.remaining = ofChars (ws ++ quoteOf tok.Kind :: body) ++
        ReadResult.rune (quoteOf tok.Kind) :: r ∧
      wellEscaped (quoteOf tok.Kind) body = true ∧
      tok.Value = quoteOf tok.Kind :: resolve (quoteEscape (quoteOf tok.Kind)) body ++
        [quoteOf tok.Kind] ∧
      stringContent tok = some (goBytes (resolve (quoteEscape (quoteOf tok.Kind)) body)) := by
  rw [TokenStream.Get_eq] at h
  rcases hg : getFrom U (t.chrStream.remaining.length + 1) t.chrStream with _ | ⟨r2, s2⟩
  · rw [hg] at h; simp at h
  rw [hg] at h
  simp only [Option.map_some', Option.some.injEq, Prod.mk.injEq] at h
  have hr : r2 = (tok, err) := h.1
  rw [hr] at hg
  obtain ⟨he, ws, body, r, hws, g1, g2, g3, -⟩ := getFrom_string_token U t.chrStream _
    (by omega) tok err s2 hg hk
  have hq : String.utf8EncodeChar (quoteOf tok.Kind) = [quoteByte tok.Kind] := by
    rcases hk with hk | hk <;> rw [hk] <;> decide
  have hb : goBytes tok.Value = [quoteByte tok.Kind] ++
      goBytes (resolve (quoteEscape (quoteOf tok.Kind)) body) ++ [quoteByte tok.Kind] := by
    rw [g3, goBytes_append, goBytes_cons, goBytes_cons, hq]
    simp [goBytes]
  refine ⟨he, ?_, ?_, ?_, ws, body, r, hws, g1, g2, g3, ?_⟩
  · rw [hb]; simp
  · rw [hb]; simp
  · rw [hb, List.getLast?_append]; simp
  · unfold stringContent
    rw [hb]
    exact sliceBytes_between _ _ _

/-- C20 at the input `"a\nb" x`: the slice is the three bytes of `a`, newline,
`b`. -/
theorem string_token_slice_witness :
    (none : Option GoError) = none ∧
    2 ≤ (goBytes (⟨"\"a\nb\"".toList, TokenType.DQSTRING⟩ : Token).Value).length ∧
    (goBytes (⟨"\"a\nb\"".toList, TokenType.DQSTRING⟩ : Token).Value).head? =
      some (quoteByte (⟨"\"a\nb\"".toList, TokenType.DQSTRING⟩ : Token).Kind) ∧
    (goBytes (⟨"\"a\nb\"".toList, TokenType.DQSTRING⟩ : Token).Value).getLast? =
      some (quoteByte (⟨"\"a\nb\"".toList, TokenType.DQSTRING⟩ : Token).Kind) ∧
    ∃ ws body r, (∀ x ∈ ws, unicode.IsSpace x = true) ∧
      (NewFileTokenStream "f" (ofChars "\"a\\nb\" x".toList)).chrStream.remaining =
        ofChars (ws ++ quoteOf (⟨"\"a\nb\"".toList, TokenType.DQSTRING⟩ : Token).Kind :: body) ++
          ReadResult.rune (quoteOf (⟨"\"a\nb\"".toList, TokenType.DQSTRING⟩ : Token).Kind) :: r ∧
      wellEscaped (quoteOf (⟨"\"a\nb\"".toList, TokenType.DQSTRING⟩ : Token).Kind) body = true ∧
      (⟨"\"a\nb\"".toList, TokenType.DQSTRING⟩ : Token).Value =
        quoteOf (⟨"\"a\nb\"".toList, TokenType.DQSTRING⟩ : Token).Kind ::
          resolve (quoteEscape (quoteOf (⟨"\"a\nb\"".toList, TokenType.DQSTRING⟩ : Token).Kind))
            body ++ [quoteOf (⟨"\"a\nb\"".toList, TokenType.DQSTRING⟩ : Token).Kind] ∧
      stringContent (⟨"\"a\nb\"".toList, TokenType.DQSTRING⟩ : Token) =
        some (goBytes (resolve
          (quoteEscape (quoteOf (⟨"\"a\nb\"".toList, TokenType.DQSTRING⟩ : Token).Kind)) body)) :=
  string_token_slice unicode.asciiTables
    (NewFileTokenStream "f" (ofChars "\"a\\nb\" x".toList))
    ⟨"\"a\nb\"".toList, TokenType.DQSTRING⟩ none
    { fileName := "f",
      chrStream := { reader := [ReadResult.rune ' ', ReadResult.rune 'x'], lookaheadBuf := [] },
      lookaheadBuf := [] }
    (by decide) (Or.inl rfl)

/-! ## Round trip of a list of lexemes -/

/-- White space continues neither an identifier nor a number. -/
theorem space_stops (U : Tables) {x : Char} (h : unicode.IsSpace x = true) :
    isIdentChar U x = false ∧ U.IsDigit x = false := by
  have h1 : U.IsLetter x = false := by
    cases hl : U.IsLetter x with
    | false => rfl
    | true => rw [U.letter_not_space x hl] at h; exact absurd h (by decide)
  have h2 : U.IsDigit x = false := by
    cases hd : U.IsDigit x with
    | false => rfl
    | true => rw [U.digit_not_space x hd] at h; exact absurd h (by decide)
  have h3 : x ≠ '_' := by
    rintro rfl
    exact absurd h (by decide)
  exact ⟨by simp [isIdentChar, h1, h2, h3], h2⟩

/-- The characters of the one-character lexemes are ASCII and continue neither
an identifier nor a number. -/
theorem dispatchTable_stops :
    ∀ p ∈ dispatchTable, p.1.toNat < 128 ∧ isIdentChar unicode.asciiTables p.1 = false ∧
      unicode.asciiTables.IsDigit p.1 = false := by
  decide

/-- A one-character lexeme is the dot with kind DOT or a character of the
dispatch table with its kind. -/
theorem isCharLexeme_cases {tok : Token} (h : isCharLexeme tok = true) :
    tok = ⟨['.'], TokenType.DOT⟩ ∨ ∃ p ∈ dispatchTable, tok = ⟨[p.1], p.2⟩ := by
  simp only [isCharLexeme, Bool.or_eq_true, decide_eq_true_eq, List.any_eq_true] at h
  rcases h with h | ⟨p, hp, h⟩
  · exact Or.inl h
  · exact Or.inr ⟨p, hp, h⟩

/-- The character of a one-character lexeme continues neither an identifier
nor a number. -/
theorem isCharLexeme_stops (U : Tables) {tok : Token} (h : isCharLexeme tok = true) :
    ∃ c, tok.Value = [c] ∧ isIdentChar U c = false ∧ U.IsDigit c = false := by
  rcases isCharLexeme_cases h with rfl | ⟨p, hp, rfl⟩
  · refine ⟨'.', rfl, ?_, ?_⟩
    · rw [isIdentChar_ascii U (by decide)]; decide
    · rw [isDigit_ascii U (by decide)]; decide
  · obtain ⟨h1, h2, h3⟩ := dispatchTable_stops p hp
    refine ⟨p.1, rfl, ?_, ?_⟩
    · rw [isIdentChar_ascii U h1]; exact h2
    · rw [isDigit_ascii U h1]; exact h3

/-- What follows a lexeme in a joined text stops an identifier and a number,
when it starts with a separator or with a one-character lexeme. -/
theorem joined_stops (U : Tables) (rest : List (List Char × Token)) (trail : List Char)
    (hsp : ∀ p ∈ rest, ∀ x ∈ p.1, unicode.IsSpace x = true)
    (htrail : ∀ x ∈ trail, unicode.IsSpace x = true)
    (hlex : ∀ p ∈ rest, isLexeme U p.2 = true)
    (hfirst : ∀ p2 ∈ rest.head?, isWordLexeme U p2.2 = false ∨ p2.1.isEmpty = false) :
    stopsAt (isIdentChar U) (joined rest trail) ∧ stopsAt U.IsDigit (joined rest trail) := by
  cases rest with
  | nil =>
    cases trail with
    | nil => exact ⟨by intro x hx; simp [joined] at hx, by intro x hx; simp [joined] at hx⟩
    | cons y tr =>
      have hy := space_stops U (htrail y (List.mem_cons_self _ _))
      constructor
      · intro x hx
        simp only [joined, List.head?_cons, Option.mem_def, Option.some.injEq] at hx
        rw [← hx]; exact hy.1
      · intro x hx
        simp only [joined, List.head?_cons, Option.mem_def, Option.some.injEq] at hx
        rw [← hx]; exact hy.2
  | cons p2 more =>
    have hp2 := hfirst p2 (by simp)
    obtain ⟨sep, tok⟩ := p2
    cases sep with
    | cons y tr =>
      have hy := space_stops U (hsp (y :: tr, tok) (List.mem_cons_self _ _) y
        (List.mem_cons_self _ _))
      constructor
      · intro x hx
        simp only [joined, List.cons_append, List.head?_cons, Option.mem_def,
          Option.some.injEq] at hx
        rw [← hx]; exact hy.1
      · intro x hx
        simp only [joined, List.cons_append, List.head?_cons, Option.mem_def,
          Option.some.injEq] at hx
        rw [← hx]; exact hy.2
    | nil =>
      have hw : isWordLexeme U tok = false := by
        rcases hp2 with h | h
        · exact h
        · simp at h
      have hl := hlex ([], tok) (List.mem_cons_self _ _)
      simp only [isLexeme, hw, Bool.false_or] at hl
      obtain ⟨c, hv, h1, h2⟩ := isCharLexeme_stops U hl
      constructor
      · intro x hx
        simp only [joined, hv, List.nil_append, List.cons_append, List.head?_cons,
          Option.mem_def, Option.some.injEq] at hx
        rw [← hx]; exact h1
      · intro x hx
        simp only [joined, hv, List.nil_append, List.cons_append, List.head?_cons,
          Option.mem_def, Option.some.injEq] at hx
        rw [← hx]; exact h2

/-- `Get` on a lexeme after its separator returns the lexeme and leaves what
follows, when that stops the lexeme. -/
theorem Get_lexeme (U : Tables) (t : TokenStream) (sep : List Char) (tok : Token)
    (rest : List Char) (hinput : t.chrStream.remaining = ofChars (sep ++ tok.Value ++ rest))
    (hsep : ∀ x ∈ sep, unicode.IsSpace x = true) (hlex : isLexeme U tok = true)
    (hstop : isWordLexeme U tok = true →
      stopsAt (isIdentChar U) rest ∧ stopsAt U.IsDigit rest) :
    ∃ t1, t.Get U = some ((tok, none), t1) ∧ t1.chrStream.remaining = ofChars rest := by
  obtain ⟨v, k⟩ := tok
  by_cases hid : isIdentifierLexeme U ⟨v, k⟩ = true
  · have hs := (hstop (by simp [isWordLexeme, hid])).1
    simp only [isIdentifierLexeme, Bool.and_eq_true, decide_eq_true_eq] at hid
    obtain ⟨hk, hv⟩ := hid
    subst hk
    cases v with
    | nil => simp at hv
    | cons c tl =>
      simp only [Bool.and_eq_true, Bool.or_eq_true, decide_eq_true_eq, List.all_eq_true] at hv
      exact Get_ident U t sep c tl rest hinput hsep hv.1 hv.2 hs
  by_cases hnum : isNumberLexeme U ⟨v, k⟩ = true
  · have hs := (hstop (by simp [isWordLexeme, hnum])).2
    simp only [isNumberLexeme, Bool.and_eq_true, decide_eq_true_eq, List.all_eq_true,
      Bool.not_eq_true'] at hnum
    obtain ⟨⟨hk, hne⟩, hv⟩ := hnum
    subst hk
    cases v with
    | nil => simp at hne
    | cons d tl =>
      exact Get_number U t sep d tl rest hinput hsep (hv d (List.mem_cons_self _ _))
        (fun x hx => hv x (List.mem_cons_of_mem _ hx)) hs
  have hch : isCharLexeme ⟨v, k⟩ = true := by
    simp only [isLexeme, isWordLexeme, Bool.or_eq_true] at hlex
    rcases hlex with (h | h) | h
    · exact absurd h hid
    · exact absurd h hnum
    · exact h
  rcases isCharLexeme_cases hch with h | ⟨p, hp, h⟩
  · simp only [Token.mk.injEq] at h
    obtain ⟨rfl, rfl⟩ := h
    exact Get_dot U t sep rest (by simpa using hinput) hsep
  · simp only [Token.mk.injEq] at h
    obtain ⟨rfl, rfl⟩ := h
    obtain ⟨h1, h2, h3, -⟩ := dispatchTable_switch p hp
    have h5 := Get_single U t sep p.1 rest (by simpa using hinput) hsep
      (by rw [reachesSwitch_ascii U h1]; exact h2)
    rw [h3] at h5
    exact h5

/-- The loop of `parse` on a joined text returns the lexemes in order and then
the end of input. -/
theorem parse_joined (U : Tables) (items : List (List Char × Token)) :
    ∀ (t : TokenStream) (trail : List Char),
      t.chrStream.remaining = ofChars (joined items trail) →
      (∀ p ∈ items, ∀ x ∈ p.1, unicode.IsSpace x = true) →
      (∀ x ∈ trail, unicode.IsSpace x = true) →
      (∀ p ∈ items, isLexeme U p.2 = true) → separated U items = true →
      parse U (items.length + 1) t = some (items.map Prod.snd, some GoError.EOF) := by
  induction items with
  | nil =>
    intro t trail hinput _ htrail _ _
    obtain ⟨t1, h1, -⟩ := Get_eof U t trail hinput htrail
    rw [List.length_nil, parse_error U 0 h1]
    rfl
  | cons p rest ih =>
    intro t trail hinput hsp htrail hlex hsep
    have hsp' : ∀ p ∈ rest, ∀ x ∈ p.1, unicode.IsSpace x = true :=
      fun q hq => hsp q (List.mem_cons_of_mem _ hq)
    have hlex' : ∀ p ∈ rest, isLexeme U p.2 = true :=
      fun q hq => hlex q (List.mem_cons_of_mem _ hq)
    simp only [separated, Bool.and_eq_true] at hsep
    obtain ⟨hadj, hsep'⟩ := hsep
    have hstop : isWordLexeme U p.2 = true →
        stopsAt (isIdentChar U) (joined rest trail) ∧ stopsAt U.IsDigit (joined rest trail) := by
      intro hw
      apply joined_stops U rest trail hsp' htrail hlex'
      intro p2 hp2
      cases rest with
      | nil => simp at hp2
      | cons q more =>
        simp only [List.head?_cons, Option.mem_def, Option.some.injEq] at hp2
        subst hp2
        simp only [hw, Bool.true_and, Bool.or_eq_true, Bool.not_eq_true'] at hadj
        exact hadj
    obtain ⟨t1, h1, h2⟩ := Get_lexeme U t p.1 p.2 (joined rest trail) hinput
      (hsp p (List.mem_cons_self _ _)) (hlex p (List.mem_cons_self _ _)) hstop
    have hk := Get_kind_ne_command U t _ t1 h1
    rw [List.length_cons, parse_token U (rest.length + 1) h1 hk,
      ih t1 trail h2 hsp' htrail hlex' hsep']
    rfl

/-- C11. For every list of lexemes, each an identifier, a non-empty run of
decimal digits, a dot or one of the fourteen characters of the dispatch
table, and every text that joins them with white space, before, between and
after them, a separator being present at least between two adjacent lexemes
that are both identifiers or numbers: calling `Get` repeatedly on the text
returns exactly those lexemes, in order, each with its kind and its text, and
then the end of input. -/
theorem round_trip (U : Tables) (t : TokenStream) (items : List (List Char × Token))
    (trail : List Char) (hinput : t.chrStream.remaining = ofChars (joined items trail))
    (hsp : ∀ p ∈ items, ∀ x ∈ p.1, unicode.IsSpace x = true)
    (htrail : ∀ x ∈ trail, unicode.IsSpace x = true)
    (hlex : ∀ p ∈ items, isLexeme U p.2 = true) (hsep : separated U items = true) :
    parse U (items.length + 1) t = some (items.map Prod.snd, some GoError.EOF) :=
  parse_joined U items t trail hinput hsp htrail hlex hsep

/-- C11 at the input `(a,1) ab_12 cd`, which joins seven lexemes. -/
theorem round_trip_witness :
    parse unicode.asciiTables 8 (NewFileTokenStream "f" (ofChars "(a,1) ab_12 cd".toList)) =
      some ([⟨"(".toList, TokenType.OPAREN⟩, ⟨"a".toList, TokenType.IDENTIFIER⟩,
        ⟨",".toList, TokenType.COMMA⟩, ⟨"1".toList, TokenType.NUMBER⟩,
        ⟨")".toList, TokenType.CPAREN⟩, ⟨"ab_12".toList, TokenType.IDENTIFIER⟩,
        ⟨"cd".toList, TokenType.IDENTIFIER⟩], some GoError.EOF) :=
  round_trip unicode.asciiTables (NewFileTokenStream "f" (ofChars "(a,1) ab_12 cd".toList))
    [([], ⟨"(".toList, TokenType.OPAREN⟩), ([], ⟨"a".toList, TokenType.IDENTIFIER⟩),
     ([], ⟨",".toList, TokenType.COMMA⟩), ([], ⟨"1".toList, TokenType.NUMBER⟩),
     ([], ⟨")".toList, TokenType.CPAREN⟩), (" ".toList, ⟨"ab_12".toList, TokenType.IDENTIFIER⟩),
     (" ".toList, ⟨"cd".toList, TokenType.IDENTIFIER⟩)] []
    (by decide) (by decide) (by decide) (by decide) (by decide)

end token
